import Mathlib

set_option maxRecDepth 8000

/-!
# Verification of the primary-source fragment extractor

Shallow embedding of the fragment-extraction core of
`src/knowledge/text_search.py` (functions `get_primary_source_fragments`,
`_collect_candidate_docs`, `_collect_fragments`,
`_collect_fragments_international_rules`, `_collect_fragments_corona_rules`,
`_collect_fragments_technical_requirements` and their helpers).

Python strings are modelled as `List Char`; indices are code-point indices,
matching Python string indexing.  Python whitespace tests use the six ASCII
whitespace characters (the documents are plain text; exotic Unicode spaces are
not modelled).  `str.lower` is modelled for ASCII and the Cyrillic block used
by the documents.  File access is modelled by a document store
`Str → Option Str` (`none` = missing file).  Python exceptions
(`UnboundLocalError` from reading a never-assigned local) are modelled by
`Except Unit`.
-/

abbrev Str := List Char

deriving instance DecidableEq for Except

def lit (s : String) : Str := s.toList

/-- Python whitespace predicate (`str.strip`, regex `\s`) for the ASCII range. -/
def pyIsSpace (c : Char) : Bool :=
  c = ' ' || c = '\t' || c = '\n' || c = '\r' || c = '\x0b' || c = '\x0c'

def pyIsDigit (c : Char) : Bool := '0' ≤ c && c ≤ '9'

/-- Python `str.lower` on the alphabets appearing in the repository's documents
(ASCII letters and the Cyrillic А–Я/Ё block); all other characters unchanged. -/
def pyLowerChar (c : Char) : Char :=
  if 'A' ≤ c && c ≤ 'Z' then Char.ofNat (c.toNat + 32)
  else if 0x410 ≤ c.toNat && c.toNat ≤ 0x42F then Char.ofNat (c.toNat + 32)
  else if c.toNat = 0x401 then Char.ofNat 0x451
  else c

def pyLower (s : Str) : Str := s.map pyLowerChar

def pyLStrip (p : Char → Bool) (s : Str) : Str := s.dropWhile p

def pyRStrip (p : Char → Bool) (s : Str) : Str := (s.reverse.dropWhile p).reverse

/-- Python `str.strip()` (no argument form). -/
def pyStrip (s : Str) : Str := pyRStrip pyIsSpace (pyLStrip pyIsSpace s)

/-- Python `str.rstrip()`. -/
def pyRstripWs (s : Str) : Str := pyRStrip pyIsSpace s

/-- Python `str.rstrip('.')`. -/
def pyRstripDot (s : Str) : Str := pyRStrip (· = '.') s

def strStartsWith : Str → Str → Bool
  | _, [] => true
  | [], _ :: _ => false
  | c :: s, d :: p => c = d && strStartsWith s p

def strEndsWith (s p : Str) : Bool := strStartsWith s.reverse p.reverse

def findSubAux (p : Str) : Str → Nat → Option Nat
  | [], i => if strStartsWith [] p then some i else none
  | c :: rest, i =>
    if strStartsWith (c :: rest) p then some i else findSubAux p rest (i + 1)

/-- Python `hay.find(p, start)`, as `Option Nat` (Python's `-1` is `none`). -/
def findSubFrom (hay p : Str) (start : Nat) : Option Nat :=
  (findSubAux p (hay.drop start) 0).map (· + start)

/-- Python `p in hay`. -/
def containsSub (hay p : Str) : Bool := (findSubFrom hay p 0).isSome

/-- Non-overlapping occurrence positions: the `while True: pos = find(...); pos += len(word)`
loops of the collectors.  `fuel` bounds the loop (callers never pass an empty
needle: search words have length > 1 and phrases contain at least two words). -/
def occAux (hay p : Str) : Nat → Nat → List Nat
  | 0, _ => []
  | fuel + 1, pos =>
    match findSubFrom hay p pos with
    | none => []
    | some q => q :: occAux hay p fuel (q + p.length)

def occurrencesOf (hay p : Str) : List Nat := occAux hay p (hay.length + 1) 0

def insSortedNat (n : Nat) : List Nat → List Nat
  | [] => [n]
  | m :: l => if n ≤ m then n :: m :: l else m :: insSortedNat n l

def sortNat : List Nat → List Nat
  | [] => []
  | n :: l => insSortedNat n (sortNat l)

def dedupAdjNat : List Nat → List Nat
  | [] => []
  | [n] => [n]
  | n :: m :: l => if n = m then dedupAdjNat (m :: l) else n :: dedupAdjNat (m :: l)

/-- Python `sorted(set(xs))` for integer positions. -/
def sortedSetNat (l : List Nat) : List Nat := dedupAdjNat (sortNat l)

/-- Python `s.split('\n')`. -/
def splitNl : Str → List Str
  | [] => [[]]
  | c :: rest =>
    if c = '\n' then [] :: splitNl rest
    else
      match splitNl rest with
      | [] => [[c]]
      | l :: ls => (c :: l) :: ls

/-- Python `'\n'.join(ls)`. -/
def joinNl (ls : List Str) : Str := List.intercalate ['\n'] ls

/-- Python `s.split('.')`. -/
def splitDot : Str → List Str
  | [] => [[]]
  | c :: rest =>
    if c = '.' then [] :: splitDot rest
    else
      match splitDot rest with
      | [] => [[c]]
      | l :: ls => (c :: l) :: ls

/-- Python slice `s[a:b]` with `0 ≤ a ≤ b` (the embedded code never slices
with descending or negative bounds). -/
def pySlice (s : Str) (a b : Nat) : Str := (s.drop a).take (b - a)

def charAt (s : Str) (i : Nat) : Option Char := s.get? i

def lastIdxOf (p : Char → Bool) : Str → Option Nat
  | [] => none
  | c :: rest =>
    match lastIdxOf p rest with
    | some i => some (i + 1)
    | none => if p c then some 0 else none

/-- Python `content.rfind('\n', 0, hi) + 1`: the start of the line containing
position `hi` (0 when no preceding newline; `rfind` returning -1 gives 0). -/
def lineStartBefore (s : Str) (hi : Nat) : Nat :=
  match lastIdxOf (· = '\n') (pySlice s 0 hi) with
  | some i => i + 1
  | none => 0

/-- Python `content.find('\n', pos)` defaulted to `len(content)` when absent
(the pattern used throughout to find the end of a line). -/
def lineEndAfter (s : Str) (pos : Nat) : Nat :=
  match findSubFrom s ['\n'] pos with
  | some i => i
  | none => s.length

/-- Python `content.replace('###', '\n###')` (left-to-right, non-overlapping). -/
def replaceHashes : Str → Str
  | '#' :: '#' :: '#' :: rest => '\n' :: '#' :: '#' :: '#' :: replaceHashes rest
  | c :: rest => c :: replaceHashes rest
  | [] => []

/-- The content preprocessing done by every collector: insert newlines before
`###` and ensure the text starts with a newline. -/
def prepNl (content : Str) : Str :=
  let c := replaceHashes content
  if strStartsWith c ['\n'] then c else '\n' :: c

/-- Python `sys.maxsize` on a 64-bit build. -/
def pySysMaxsize : Nat := 9223372036854775807

def digitsToNat (r : Str) : Nat :=
  r.foldl (fun a c => a * 10 + (c.toNat - '0'.toNat)) 0

def digitRunsAux : Nat → Str → List Str
  | 0, _ => []
  | _ + 1, [] => []
  | fuel + 1, c :: rest =>
    if pyIsDigit c then
      ((c :: rest).takeWhile pyIsDigit) :: digitRunsAux fuel (rest.dropWhile pyIsDigit)
    else digitRunsAux fuel rest

/-- Maximal digit runs of a string, in order (`re.findall(r"\d+", s)`). -/
def digitRuns (s : Str) : List Str := digitRunsAux (s.length + 1) s

/-!
## The clause-number regex

The collectors locate clause markers with
`re.compile(r'(?:^|\n)(\d{1,2}(?:\.\d+)*\.)\s+')` and `finditer`.  The
functions below model this regex exactly, including the non-overlapping
left-to-right `finditer` semantics (a match consumes its trailing whitespace
run, so a newline swallowed by `\s+` cannot introduce the next match) and the
greedy-with-backtracking behaviour of `(?:\.\d+)*\.` (the dotted tail always
ends at a dot that is immediately followed by whitespace; any shorter
backtracked parse would place the final dot before a digit, where `\s+` fails,
so the deterministic parse below is equivalent).
-/

/-- Length of the dotted tail `(?:\.\d+)*\.` starting at a string that must
begin with `'.'`; `none` when no parse exists. -/
def numTailLen : Nat → Str → Option Nat
  | 0, _ => none
  | _ + 1, [] => none
  | fuel + 1, c :: rest =>
    if c = '.' then
      let r := rest.takeWhile pyIsDigit
      if r.length ≠ 0 && strStartsWith (rest.drop r.length) ['.'] then
        match numTailLen fuel (rest.drop r.length) with
        | some k => some (1 + r.length + k)
        | none => none
      else some 1
    else none

/-- Attempt to match `\d{1,2}(?:\.\d+)*\.\s+` at the start of `s`; returns the
captured clause number and the total number of characters consumed (number
plus the greedy whitespace run). -/
def parseNumAt (s : Str) : Option (Str × Nat) :=
  let d1 := s.takeWhile pyIsDigit
  if d1.length = 0 || d1.length > 2 then none
  else
    match numTailLen (s.length + 1) (s.drop d1.length) with
    | none => none
    | some k =>
      let numLen := d1.length + k
      let ws := (s.drop numLen).takeWhile pyIsSpace
      if ws.length = 0 then none else some (s.take numLen, numLen + ws.length)

/-- A clause marker: `pos` is the start of the captured group (`match.start(1)`)
and `num` the captured clause number (`match.group(1)`). -/
structure Marker where
  pos : Nat
  num : Str
deriving DecidableEq, Repr

def scanPointsAux (content : Str) : Nat → Nat → List Marker
  | 0, _ => []
  | fuel + 1, i =>
    if i < content.length then
      let attempt : Option (Nat × Str × Nat) :=
        if i = 0 then
          match parseNumAt content with
          | some (n, len) => some (0, n, len)
          | none =>
            if charAt content 0 = some '\n' then
              match parseNumAt (content.drop 1) with
              | some (n, len) => some (1, n, 1 + len)
              | none => none
            else none
        else if charAt content i = some '\n' then
          match parseNumAt (content.drop (i + 1)) with
          | some (n, len) => some (i + 1, n, i + 1 + len)
          | none => none
        else none
      match attempt with
      | some (g, n, resume) => ⟨g, n⟩ :: scanPointsAux content fuel resume
      | none => scanPointsAux content fuel (i + 1)
    else []

/-- `list(point_pattern.finditer(content))`: every clause marker of the text. -/
def scanPoints (content : Str) : List Marker :=
  scanPointsAux content (content.length + 1) 0

/-- A `^# ([^\n]+)` match at line-start position `i` (requires a non-empty
title run after `"# "`); returns the captured title. -/
def headerTitleAt (s : Str) (i : Nat) : Option Str :=
  if charAt s i = some '#' ∧ charAt s (i + 1) = some ' ' then
    let t := (s.drop (i + 2)).takeWhile (· ≠ '\n')
    if t.length = 0 then none else some t
  else none

def lastHeaderAux (s : Str) : Nat → Nat → Option (Nat × Str) → Option (Nat × Str)
  | 0, _, acc => acc
  | fuel + 1, i, acc =>
    if i < s.length then
      let acc' :=
        if i = 0 ∨ charAt s (i - 1) = some '\n' then
          match headerTitleAt s i with
          | some t => some (i, t)
          | none => acc
        else acc
      lastHeaderAux s fuel (i + 1) acc'
    else acc

/-- `list(re.finditer(r'^# ([^\n]+)', prefix, re.MULTILINE))[-1]`: the last
section-header match of a text, as (match start, captured title). -/
def lastHeader (s : Str) : Option (Nat × Str) :=
  lastHeaderAux s (s.length + 1) 0 none

def firstHashHeaderAux (s : Str) : Nat → Nat → Option Nat
  | 0, _ => none
  | fuel + 1, i =>
    if i < s.length then
      if (i = 0 ∨ charAt s (i - 1) = some '\n') ∧
          charAt s i = some '#' ∧ charAt s (i + 1) = some ' ' then some i
      else firstHashHeaderAux s fuel (i + 1)
    else none

/-- `re.search(r'^# ', s, re.MULTILINE)`: position of the first line-start
`"# "` in `s`. -/
def firstHashHeader (s : Str) : Option Nat := firstHashHeaderAux s (s.length + 1) 0

/-- `re.search(r'(\d{1,2}(?:\.\d+)*\.)\s+', s)`: does a clause-number pattern
occur anywhere in `s`? -/
def hasNumPattern : Str → Bool
  | [] => false
  | c :: rest => (parseNumAt (c :: rest)).isSome || hasNumPattern rest

/-- `re.match('^' + re.escape(number) + r'\s+', s)`. -/
def matchesNumWs (number s : Str) : Bool :=
  strStartsWith s number && (charAt s number.length).elim false pyIsSpace

/-- Python `len(number.rstrip('.').split('.'))`: the nesting level of a
clause number. -/
def numLevel (n : Str) : Nat := (splitDot (pyRstripDot n)).length

/-- Python `point_number.startswith(number.rstrip('.') + '.')`: is `child` a
dotted extension of `parent`? -/
def extendsNum (child parent : Str) : Bool :=
  strStartsWith child (pyRstripDot parent ++ ['.'])

/-- Python `number.split('.')[0] + '.'`: the top-level ancestor number. -/
def topParentOf (n : Str) : Str := (splitDot n).headD [] ++ ['.']

/-- The leading clause-number token of a text: the greedy
`\d{1,2}(\.\d+)*\.` parse at position 0 (no trailing-whitespace requirement).
Used to state what clause number a fragment's text begins with. -/
def leadTok (s : Str) : Option Str :=
  let d1 := s.takeWhile pyIsDigit
  if d1.length = 0 || d1.length > 2 then none
  else
    match numTailLen (s.length + 1) (s.drop d1.length) with
    | none => none
    | some k => some (s.take (d1.length + k))

/-!
## Fragments, sorting, routing tables
-/

/-- The fragment dicts built by the collectors (`_position` is `position`). -/
structure Fragment where
  source : Str
  sect : Str
  text : Str
  rule_number : Str
  rule_label : Str
  found_words : List Str
  found_phrases : List Str
  position : Nat
deriving DecidableEq, Repr

/-- `_rule_number_sort_key`: the tuple of integers in the rule number, or the
singleton `(sys.maxsize,)`. -/
def rule_number_sort_key (f : Fragment) : List Nat :=
  let parts := (digitRuns f.rule_number).map digitsToNat
  if parts = [] then [pySysMaxsize] else parts

/-- Python tuple comparison (lexicographic, shorter tuple first on ties). -/
def lexLeNat : List Nat → List Nat → Bool
  | [], _ => true
  | _ :: _, [] => false
  | a :: as_, b :: bs =>
    if a < b then true else if b < a then false else lexLeNat as_ bs

/-- Sort key order of `_sort_and_return_fragments`:
`(f["_position"], _rule_number_sort_key(f))`. -/
def fragLe (f g : Fragment) : Bool :=
  lexLeNat (f.position :: rule_number_sort_key f)
    (g.position :: rule_number_sort_key g)

def insSortedBy {α : Type} (le : α → α → Bool) (a : α) : List α → List α
  | [] => [a]
  | b :: l => if le a b then a :: b :: l else b :: insSortedBy le a l

/-- Stable insertion sort; agrees with Python's stable `list.sort(key=...)`
for any total preorder (stable sorts are unique). -/
def stableSortBy {α : Type} (le : α → α → Bool) : List α → List α
  | [] => []
  | a :: l => insSortedBy le a (stableSortBy le l)

def sort_and_return_fragments (fragments : List Fragment) : List Fragment :=
  stableSortBy fragLe fragments

def INTERNATIONAL_RULES : Str := lit "2.1.1_Международные правила_structured.txt"

def CORONA_RULES : Str := lit "2.1.2_Правила игры Корона_structured.txt"

def TECHNICAL_REQUIREMENTS : Str :=
  lit "2.2_Технические требования к бильярдным столам и оборудованию ФБСР_structured.txt"

def ALLOWED_SOURCES : List Str :=
  [INTERNATIONAL_RULES, CORONA_RULES, TECHNICAL_REQUIREMENTS]

/-- `CONTEXT_ROUTES` in its Python insertion order. -/
def CONTEXT_ROUTES : List (Str × Str) :=
  [(lit "корона", CORONA_RULES),
   (lit "пирамид", INTERNATIONAL_RULES),
   (lit "междунар", INTERNATIONAL_RULES),
   (lit "оборуд", TECHNICAL_REQUIREMENTS),
   (lit "аксес", TECHNICAL_REQUIREMENTS),
   (lit "фбср", TECHNICAL_REQUIREMENTS)]

/-- The base stop words filtered in `get_primary_source_fragments`. -/
def BASE_STOP_WORDS : List Str :=
  [lit "игра", lit "русский", lit "бильярд", lit "стол", lit "общие"]

def isRouteKey (w : Str) : Bool := CONTEXT_ROUTES.any (fun kv => kv.1 = w)

/-- The document priority of `_collect_candidate_docs._sort_key` (0 =
international rules, 1 = corona rules, 2 = others). -/
def docPrio (d : Str) : Nat :=
  if strStartsWith d (lit "2.1.1_") then 0
  else if strStartsWith d (lit "2.1.2_") then 1
  else 2

def strLtChar : Str → Str → Bool
  | [], [] => false
  | [], _ :: _ => true
  | _ :: _, [] => false
  | a :: as_, b :: bs =>
    if a < b then true else if b < a then false else strLtChar as_ bs

/-- `≤` on the sort key `(_sort_key(doc))  = (priority, doc)` of candidate
documents. -/
def docKeyLe (a b : Str) : Bool :=
  if docPrio a < docPrio b then true
  else if docPrio b < docPrio a then false
  else !strLtChar b a

/-- `_collect_candidate_docs(hits, allowed_sources, lwquery)`.  `hits` is the
list of the hits' `source` fields (each `hit.source or ''`); `allowed = []`
models Python `None` or an empty list (both falsy). -/
def collect_candidate_docs (hits : List Str) (allowed : List Str) (lwquery : Str) : List Str :=
  let c1 := allowed.filter (fun d => ALLOWED_SOURCES.contains d)
  let c2 :=
    if c1 = [] then
      CONTEXT_ROUTES.foldl
        (fun acc kv =>
          if containsSub lwquery kv.1 && ALLOWED_SOURCES.contains kv.2 then acc ++ [kv.2]
          else acc) []
    else c1
  let c3 :=
    if c2 = [] ∧ hits ≠ [] then
      hits.foldl
        (fun acc src0 =>
          let src := pyStrip src0
          if ALLOWED_SOURCES.contains src && !acc.contains src then acc ++ [src]
          else acc) []
    else c2
  stableSortBy docKeyLe c3

/-!
## Query parsing (`get_primary_source_fragments` preamble)
-/

/-- One left-to-right pass implementing both
`re.findall(r"\*([^*]+?)\*", s)` (first component) and
`re.sub(r"\*[^*]+?\*", " ", s)` (second component). -/
def extractStarsAux : Nat → Str → List Str × Str
  | 0, s => ([], s)
  | fuel + 1, s =>
    match s with
    | [] => ([], [])
    | c :: rest =>
      if c = '*' then
        let body := rest.takeWhile (· ≠ '*')
        let after := rest.drop body.length
        if body.length ≠ 0 ∧ strStartsWith after ['*'] then
          let (ps, r) := extractStarsAux fuel (after.drop 1)
          (body :: ps, ' ' :: r)
        else
          let (ps, r) := extractStarsAux fuel rest
          (ps, c :: r)
      else
        let (ps, r) := extractStarsAux fuel rest
        (ps, c :: r)

def extractStars (s : Str) : List Str × Str := extractStarsAux (s.length + 1) s

def collapseWsAux : Bool → Str → Str
  | _, [] => []
  | prevSpace, c :: rest =>
    if pyIsSpace c then
      if prevSpace then collapseWsAux true rest
      else ' ' :: collapseWsAux true rest
    else c :: collapseWsAux false rest

/-- `re.sub(r"\s+", " ", s)`. -/
def collapseWs (s : Str) : Str := collapseWsAux false s

def pySplitWsAux (cur : Str) : Str → List Str
  | [] => if cur = [] then [] else [cur.reverse]
  | c :: rest =>
    if pyIsSpace c then
      if cur = [] then pySplitWsAux [] rest
      else cur.reverse :: pySplitWsAux [] rest
    else pySplitWsAux (c :: cur) rest

/-- Python `s.split()` (whitespace split, empty pieces dropped). -/
def pySplitWs (s : Str) : List Str := pySplitWsAux [] s

/-- The cleaned phrases of a query: each `*...*` match, stripped, whitespace
collapsed, kept when it has at least two words. -/
def phrasesOf (lwquery : Str) : List Str :=
  ((extractStars lwquery).1.map (fun r => collapseWs (pyStrip r))).filter
    (fun c => c ≠ [] ∧ (pySplitWs c).length ≥ 2)

/-- The derived search words of a query: words of the query with `*...*`
segments replaced by spaces, longer than one character, kept when they are a
routing key or not a base stop word. -/
def searchWordsOf (lwquery : Str) : List Str :=
  ((pySplitWs (extractStars lwquery).2).filter (fun w => w.length > 1)).filter
    (fun w => isRouteKey w || !BASE_STOP_WORDS.contains w)

/-!
## Shared collector machinery

Each collector's body is a loop over relevant positions; an iteration either
falls through to the next position (`continue`), returns the fragment list
early (when the cap is reached), or — in the technical-requirements collector
only — raises `UnboundLocalError`.
-/

structure CState where
  fragments : List Fragment
  processed : List Str
deriving DecidableEq, Repr

inductive StepOut (σ : Type) where
  | cont (st : σ)
  | halt (st : σ)
  | err
deriving DecidableEq, Repr

/-- Python `set.add`. -/
def addProc (l : List Str) (n : Str) : List Str :=
  if l.contains n then l else n :: l

/-- Run a collector's per-position loop body over the relevant positions.
`halt` models the early `return fragments` after the cap check; `err` models
an uncaught exception. -/
def runPositions {σ : Type} (step : σ → Nat → StepOut σ) :
    List Nat → σ → Except Unit σ
  | [], st => .ok st
  | p :: ps, st =>
    match step st p with
    | .cont st' => runPositions step ps st'
    | .halt st' => .ok st'
    | .err => .error ()

/-- The section title the code computes for an arbitrary position: the
captured title of the last `^# (...)` match in `content[:pos]`, stripped. -/
def pointSectionAt (content : Str) (pos : Nat) : Str :=
  match lastHeader (pySlice content 0 pos) with
  | some (_, t) => pyStrip t
  | none => []

/-- The per-position section data every collector computes first:
`(rel_section, section_start, section_end)`. -/
def sectionInfoAt (content : Str) (relPos : Nat) : Str × Nat × Nat :=
  let pre := pySlice content 0 relPos
  let (relSection, sectionStart) :=
    match lastHeader pre with
    | some (st, t) => (pyStrip t, st)
    | none => (([] : Str), 0)
  let sectionEnd :=
    match firstHashHeader (content.drop relPos) with
    | some i => relPos + i
    | none => content.length
  (relSection, sectionStart, sectionEnd)

/-- The "nearest clause number above" scan shared by all three collectors:
the same-section marker with the greatest position `≤ relPos` and
`≥ sectionStart`. -/
def nearestPointScan (content : Str) (points : List Marker)
    (relPos sectionStart : Nat) (relSection : Str) : Option Marker :=
  points.foldl
    (fun acc m =>
      if m.pos ≤ relPos ∧ sectionStart ≤ m.pos ∧
          pointSectionAt content m.pos = relSection then
        match acc with
        | none => some m
        | some b => if m.pos > b.pos then some m else acc
      else acc) none

/-- Relevant positions of a document: every occurrence of every search word
and phrase, deduplicated and sorted (`sorted(set(relevant_positions))`).
The international-rules collector lowers each word again before searching. -/
def relevantPositions (contentLower : Str) (words phrases : List Str)
    (lowerWords : Bool) : List Nat :=
  let wordPs := words.foldl
    (fun acc w =>
      acc ++ occurrencesOf contentLower (if lowerWords then pyLower w else w)) []
  let phrasePs := phrases.foldl (fun acc p => acc ++ occurrencesOf contentLower p) []
  sortedSetNat (wordPs ++ phrasePs)

/-- Lines 1931–1941 / 1499–1509: locate the start of the line carrying the
clause number, adjusting when text precedes the number on that line; `none`
models the `continue` when the number cannot be found. -/
def computeLineStart (content : Str) (numberStart : Nat) (number : Str) : Option Nat :=
  let ls := lineStartBefore content numberStart
  let lineWith := pySlice content ls (numberStart + number.length + 10)
  if strStartsWith (pyStrip lineWith) number then some ls
  else
    match findSubFrom lineWith number 0 with
    | some k => some (ls + k)
    | none => none

/-- The end-boundary scan of the corona collector (and the fallback scan of
the international collector): position of the first same-section marker
strictly after `start` and before `sectionEnd`, else `sectionEnd`. -/
def nextPointAfter (content : Str) : List Marker → Nat → Nat → Str → Nat
  | [], _, sectionEnd, _ => sectionEnd
  | m :: ps, start, sectionEnd, relSection =>
    if start < m.pos ∧ m.pos < sectionEnd ∧
        pointSectionAt content m.pos = relSection then m.pos
    else nextPointAfter content ps start sectionEnd relSection

/-- `startAbs + (sum of the lengths of lines[0..ce]) + ce`: the absolute end
position of the line-span `lines[0..ce]` of the text starting at `startAbs`
(the `total_length` computation of the list scans). -/
def lineSpanEnd (startAbs : Nat) (lines : List Str) (ce : Nat) : Nat :=
  startAbs + ((lines.take (ce + 1)).map (fun l => l.length + 1)).sum - 1

def listEndScanAux (startAbs sectionEnd : Nat) (allLines : List Str) :
    List Str → Nat → Option (Nat × Nat) → Option Nat →
      Option (Nat × Nat) × Option Nat
  | [], _, cur, listEnd => (cur, listEnd)
  | line :: rest, i, cur, listEnd =>
    if strStartsWith (pyStrip line) ['-'] then
      let listEnd' :=
        match cur with
        | some (cs, ce) =>
          let prevText := joinNl ((allLines.drop cs).take (ce - cs + 1))
          if strEndsWith (pyRstripWs prevText) ['.'] then
            let e := lineSpanEnd startAbs allLines ce
            if e < sectionEnd then some e else listEnd
          else listEnd
        | none => listEnd
      listEndScanAux startAbs sectionEnd allLines rest (i + 1) (some (i, i)) listEnd'
    else
      match cur with
      | some (cs, _) =>
        listEndScanAux startAbs sectionEnd allLines rest (i + 1) (some (cs, i)) listEnd
      | none => listEndScanAux startAbs sectionEnd allLines rest (i + 1) none listEnd

/-- The enumerated-list detection of the international collector (used both by
its sub-point pre-scan and by its emission boundary): scan the lines of
`content[startAbs:]` for `-`-items (possibly multi-line, terminated when the
accumulated item text `rstrip()`-ends with `'.'`); result is the absolute end
of the last terminated item recorded with end `< sectionEnd`. -/
def listEndScan (content : Str) (startAbs sectionEnd : Nat) : Option Nat :=
  let ls := splitNl (content.drop startAbs)
  let (cur, listEnd) := listEndScanAux startAbs sectionEnd ls ls 0 none none
  match cur with
  | some (cs, ce) =>
    let lastText := joinNl ((ls.drop cs).take (ce - cs + 1))
    if strEndsWith (pyRstripWs lastText) ['.'] then
      let e := lineSpanEnd startAbs ls ce
      if e < sectionEnd then some e else listEnd
    else listEnd
  | none => listEnd

/-- Lines 2025–2064 / 1532–1571 / 1275–1314: the shared trimming pipeline that
forces a block to begin with its own clause number; `none` models the
`continue`s that discard the candidate. -/
def trimBlock (number : Str) (bt0 : Str) : Option Str :=
  let lines := splitNl bt0
  let firstLine := pyStrip (lines.headD [])
  let step1 : Option Str :=
    if strStartsWith firstLine (number ++ [' ']) then some bt0
    else
      match findSubFrom firstLine number 0 with
      | some p =>
        if p > 0 then
          let before := pyStrip (pySlice firstLine 0 p)
          if before ≠ [] ∧ (matchesNumWs number before ∨ hasNumPattern before) then none
          else
            let fl := pyStrip (firstLine.drop p)
            some (pyStrip (joinNl (fl :: lines.tail)))
        else none
      | none => none
  match step1 with
  | none => none
  | some bt1 =>
    let bt2? : Option Str :=
      if strStartsWith bt1 number then some bt1
      else
        match findSubFrom bt1 number 0 with
        | some p =>
          let before := pyStrip (pySlice bt1 0 p)
          if before ≠ [] ∧ hasNumPattern before then none
          else some (pyStrip (bt1.drop p))
        | none => none
    match bt2? with
    | none => none
    | some bt2 =>
      if strStartsWith (pyStrip ((splitNl bt2).headD [])) number then some bt2
      else none

/-- The relevance check of all collectors:
`any(w in lower) or (phrases and all(p in lower))`. -/
def hasSearchWordIn (searchWords phrases : List Str) (btLower : Str) : Bool :=
  searchWords.any (fun w => containsSub btLower w) ||
    (!phrases.isEmpty && phrases.all (fun p => containsSub btLower p))

/-- Lines 2016–2100 / 1523–1609: assemble the block text, trim it, filter by
relevance, recompute the section title, record the clause as processed and
append the fragment, returning early when the cap is reached. -/
def emitBlock (content doc : Str) (searchWords phrases : List Str)
    (maxFragments : Nat) (number : Str) (start endPos sectionStart : Nat)
    (st : CState) : StepOut CState :=
  let bt0 := pyStrip (pySlice content start endPos)
  if start < sectionStart then .cont st
  else
    let hdrInside : Bool :=
      match firstHashHeader bt0 with
      | some p => p > 0
      | none => false
    if hdrInside then .cont st
    else
      match trimBlock number bt0 with
      | none => .cont st
      | some bt =>
        if !hasSearchWordIn searchWords phrases (pyLower bt) then .cont st
        else
          let sect :=
            match lastHeader (pySlice content 0 start) with
            | some (_, t) =>
              let t1 := pyStrip t
              if strEndsWith t1 ['.'] then pyStrip (pySlice t1 0 (t1.length - 1))
              else t1
            | none => []
          let st' : CState :=
            { fragments := st.fragments ++
                [{ source := doc, sect := sect, text := bt, rule_number := number,
                   rule_label := [], found_words := searchWords,
                   found_phrases := phrases, position := start }],
              processed := addProc st.processed number }
          if st'.fragments.length ≥ maxFragments then .halt st' else .cont st'

/-!
## The corona-rules collector (`_collect_fragments_corona_rules`)
-/

/-- Lines 1438–1461: one pass over all markers computing both the sub-point
containing the match (`found_subpoint`: the latest same-section extension of
`number` with position in `(number_start, rel_pos]`) and
`next_same_level_pos`. -/
def coronaSubScan (content : Str) (points : List Marker)
    (numberStart sectionEnd : Nat) (relSection number : Str)
    (pointLevel relPos : Nat) : Option Marker × Nat :=
  points.foldl
    (fun (acc : Option Marker × Nat) m =>
      if numberStart < m.pos ∧ m.pos < sectionEnd then
        let mNum := pyStrip m.num
        let mLvl := numLevel mNum
        if pointSectionAt content m.pos = relSection then
          if mLvl ≤ pointLevel then
            (acc.1, if acc.2 = sectionEnd ∨ m.pos < acc.2 then m.pos else acc.2)
          else
            if extendsNum mNum number ∧ m.pos ≤ relPos then
              (match acc.1 with
               | none => some m
               | some b => if m.pos > b.pos then some m else acc.1, acc.2)
            else acc
        else acc
      else acc)
    (none, sectionEnd)

/-- Lines 1463–1483: the corona `has_subpoints` scan.  It `break`s after the
first same-section marker in `(number_start, next_same_level_pos)` whether or
not that marker is a sub-point of `number`. -/
def coronaHasSubScan (content : Str) : List Marker → Nat → Nat → Str → Str → Nat → Nat → Bool × Nat
  | [], _, _, _, _, _, sectionEnd => (false, sectionEnd)
  | m :: ps, numberStart, nsl, relSection, number, pointLevel, sectionEnd =>
    if numberStart < m.pos ∧ m.pos < nsl then
      if pointSectionAt content m.pos = relSection then
        let mNum := pyStrip m.num
        if numLevel mNum > pointLevel ∧ extendsNum mNum number then
          (true, if m.pos < sectionEnd then m.pos else sectionEnd)
        else (false, sectionEnd)
      else coronaHasSubScan content ps numberStart nsl relSection number pointLevel sectionEnd
    else coronaHasSubScan content ps numberStart nsl relSection number pointLevel sectionEnd

/-- One iteration of the corona collector's per-position loop
(lines 1399–1607). -/
def stepCorona (content doc : Str) (points : List Marker)
    (searchWords phrases : List Str) (maxFragments : Nat)
    (st : CState) (relPos : Nat) : StepOut CState :=
  let (relSection, sectionStart, sectionEnd) := sectionInfoAt content relPos
  match nearestPointScan content points relPos sectionStart relSection with
  | none => .cont st
  | some nearest =>
    let number := pyStrip nearest.num
    if st.processed.contains number then .cont st
    else
      let numberStart := nearest.pos
      let pointLevel := numLevel number
      let (foundSub, nsl) :=
        coronaSubScan content points numberStart sectionEnd relSection number pointLevel relPos
      let (hasSub, firstSub) :=
        coronaHasSubScan content points numberStart nsl relSection number pointLevel sectionEnd
      if hasSub ∧ relPos < firstSub then
        .cont { st with processed := addProc st.processed number }
      else
        let (number2, numberStart2, processed2) :=
          match foundSub with
          | some fs => (pyStrip fs.num, fs.pos, addProc st.processed number)
          | none => (number, numberStart, st.processed)
        if processed2.contains number2 then .cont { st with processed := processed2 }
        else
          match computeLineStart content numberStart2 number2 with
          | none => .cont { st with processed := processed2 }
          | some start =>
            let endPos := nextPointAfter content points start sectionEnd relSection
            emitBlock content doc searchWords phrases maxFragments number2 start endPos
              sectionStart { st with processed := processed2 }

def collect_fragments_corona_rules (content0 doc : Str)
    (searchWords phrases : List Str) (maxFragments : Nat)
    (fragments : List Fragment) (processed : List Str) : Except Unit (List Fragment) :=
  let content := prepNl content0
  let contentLower := pyLower content
  let relPos := relevantPositions contentLower searchWords phrases false
  if relPos = [] then .ok fragments
  else
    let points := scanPoints content
    (runPositions (stepCorona content doc points searchWords phrases maxFragments)
      relPos { fragments := fragments, processed := processed }).map (·.fragments)

/-!
## The international-rules collector (`_collect_fragments_international_rules`)
-/

/-- Lines 1751–1764: first same-section marker after `pointPos` of level
`≤ pointLevel` (the sub-point pre-scan's `next_point_end`). -/
def intlNextPointEnd (content : Str) : List Marker → Nat → Nat → Str → Nat → Nat
  | [], _, sectionEnd, _, _ => sectionEnd
  | m :: ps, pointPos, sectionEnd, relSection, pointLevel =>
    if pointPos < m.pos ∧ m.pos < sectionEnd then
      if pointSectionAt content m.pos = relSection ∧
          numLevel (pyStrip m.num) ≤ pointLevel then m.pos
      else intlNextPointEnd content ps pointPos sectionEnd relSection pointLevel
    else intlNextPointEnd content ps pointPos sectionEnd relSection pointLevel

/-- Lines 1775–1788: the hard-coded fallback that looks for the first
same-section marker after `pointPos` whose number starts with `"13."` and is
not `"13.1."`. -/
def intl13Scan (content : Str) : List Marker → Nat → Str → Option Nat
  | [], _, _ => none
  | m :: ps, pointPos, relSection =>
    if pointPos < m.pos then
      let mNum := pyStrip m.num
      if pointSectionAt content m.pos = relSection ∧
          strStartsWith mNum (lit "13.") ∧ mNum ≠ lit "13.1." then some m.pos
      else intl13Scan content ps pointPos relSection
    else intl13Scan content ps pointPos relSection

/-- Lines 1688–1788: the end position the pre-scan computes for a sub-point
candidate (list end if recorded and earlier than the next same-or-higher
marker, else that marker, with the `13.` fallback when nothing bounded it). -/
def prescanSubpointEnd (content : Str) (points : List Marker)
    (sectionEnd : Nat) (relSection : Str) (pointPos pointLevel : Nat) : Nat :=
  let listEndPos := listEndScan content pointPos sectionEnd
  let nextPointEnd := intlNextPointEnd content points pointPos sectionEnd relSection pointLevel
  let sp0 :=
    match listEndPos with
    | some v => if v > 0 ∧ v < nextPointEnd then v else nextPointEnd
    | none => nextPointEnd
  if sp0 = sectionEnd then
    match intl13Scan content points pointPos relSection with
    | some p => p
    | none => sp0
  else sp0

/-- Lines 1671–1794: the pre-scan that finds the latest sub-point (marker of
level > 1) whose computed span contains the relevant position. -/
def intlPrescan (content : Str) (points : List Marker)
    (relPos sectionStart sectionEnd : Nat) (relSection : Str) : Option Marker :=
  points.foldl
    (fun acc m =>
      let mNum := pyStrip m.num
      let mLvl := numLevel mNum
      if mLvl > 1 ∧ sectionStart ≤ m.pos ∧ m.pos < sectionEnd ∧
          pointSectionAt content m.pos = relSection then
        let spEnd := prescanSubpointEnd content points sectionEnd relSection m.pos mLvl
        if m.pos ≤ relPos ∧ relPos < spEnd then
          match acc with
          | none => some m
          | some b => if m.pos > b.pos then some m else acc
        else acc
      else acc)
    none

/-- Lines 1855–1884 (the fallback branch): `next_same_level_pos` is taken from
the first same-section marker after `number_start` only — the loop `break`s
unconditionally after it, which also makes the `found_subpoint` assignment
after the `break` dead code. -/
def intlElseNextSame (content : Str) : List Marker → Nat → Nat → Str → Nat → Nat
  | [], _, sectionEnd, _, _ => sectionEnd
  | m :: ps, numberStart, sectionEnd, relSection, pointLevel =>
    if numberStart < m.pos ∧ m.pos < sectionEnd then
      if pointSectionAt content m.pos = relSection then
        if numLevel (pyStrip m.num) ≤ pointLevel then m.pos else sectionEnd
      else intlElseNextSame content ps numberStart sectionEnd relSection pointLevel
    else intlElseNextSame content ps numberStart sectionEnd relSection pointLevel

/-- Lines 1899–1915: the international `has_subpoints` scan; `break`s on the
first same-section extension of `number` in `(number_start, nsl)`. -/
def intlHasSubScan (content : Str) : List Marker → Nat → Nat → Str → Str → Nat → Nat → Bool × Nat
  | [], _, _, _, _, _, sectionEnd => (false, sectionEnd)
  | m :: ps, numberStart, nsl, relSection, number, pointLevel, sectionEnd =>
    if numberStart < m.pos ∧ m.pos < nsl then
      let mNum := pyStrip m.num
      if pointSectionAt content m.pos = relSection ∧ numLevel mNum > pointLevel ∧
          extendsNum mNum number then
        (true, if m.pos < sectionEnd then m.pos else sectionEnd)
      else intlHasSubScan content ps numberStart nsl relSection number pointLevel sectionEnd
    else intlHasSubScan content ps numberStart nsl relSection number pointLevel sectionEnd

/-- Lines 1931–2100: the international emission path.  The end boundary uses
the list scan from the block start; only when no list end was recorded does it
fall back to the next same-section marker. -/
def intlEmit (content doc : Str) (points : List Marker)
    (searchWords phrases : List Str) (maxFragments : Nat)
    (number : Str) (numberStart : Nat) (relSection : Str)
    (sectionStart sectionEnd : Nat) (st : CState) : StepOut CState :=
  match computeLineStart content numberStart number with
  | none => .cont st
  | some start =>
    let e1 :=
      match listEndScan content start sectionEnd with
      | some v => if v > 0 then v else sectionEnd
      | none => sectionEnd
    let endPos :=
      if e1 = sectionEnd then nextPointAfter content points start sectionEnd relSection
      else e1
    emitBlock content doc searchWords phrases maxFragments number start endPos
      sectionStart st

/-- One iteration of the international collector's per-position loop
(lines 1657–2100). -/
def stepIntl (content doc : Str) (points : List Marker)
    (searchWords phrases : List Str) (maxFragments : Nat)
    (st : CState) (relPos : Nat) : StepOut CState :=
  let (relSection, sectionStart, sectionEnd) := sectionInfoAt content relPos
  match intlPrescan content points relPos sectionStart sectionEnd relSection with
  | some fsr =>
    let number := pyStrip fsr.num
    if st.processed.contains number then .cont st
    else
      let processed1 := addProc st.processed (topParentOf number)
      if processed1.contains number then .cont { st with processed := processed1 }
      else
        intlEmit content doc points searchWords phrases maxFragments number fsr.pos
          relSection sectionStart sectionEnd { st with processed := processed1 }
  | none =>
    match nearestPointScan content points relPos sectionStart relSection with
    | none => .cont st
    | some nearest =>
      let number := pyStrip nearest.num
      if st.processed.contains number then .cont st
      else
        let numberStart := nearest.pos
        let pointLevel := numLevel number
        let nsl := intlElseNextSame content points numberStart sectionEnd relSection pointLevel
        let (hasSub, firstSub) :=
          intlHasSubScan content points numberStart nsl relSection number pointLevel sectionEnd
        if hasSub ∧ relPos < firstSub then
          .cont { st with processed := addProc st.processed number }
        else
          if st.processed.contains number then .cont st
          else
            intlEmit content doc points searchWords phrases maxFragments number numberStart
              relSection sectionStart sectionEnd st

def collect_fragments_international_rules (content0 doc : Str)
    (searchWords phrases : List Str) (maxFragments : Nat)
    (fragments : List Fragment) (processed : List Str) : Except Unit (List Fragment) :=
  let content := prepNl content0
  let contentLower := pyLower content
  let relPos := relevantPositions contentLower searchWords phrases true
  if relPos = [] then .ok fragments
  else
    let points := scanPoints content
    (runPositions (stepIntl content doc points searchWords phrases maxFragments)
      relPos { fragments := fragments, processed := processed }).map (·.fragments)

/-!
## The technical-requirements collector (`_collect_fragments_technical_requirements`)

Per-position control flow always reaches the unconditional `continue` at line
1239, so the numbered-fragment code at lines 1241–1353 is dead and is not
modelled.  The locals `start`, `block_text`, `block_text_lower` (assigned only
together, at lines 1066–1070, 1104–1107 and 1209–1214) and `has_search_word`
can be read before any assignment at lines 1216–1231, which raises
`UnboundLocalError`; this is the `.err` outcome.
-/

structure TState where
  base : CState
  stale : Option (Nat × Str × Str)
  staleHas : Option Bool
deriving DecidableEq, Repr

/-- Lines 999–1013: the first same-section marker below the relevant position
(minimum position in `(rel_pos, section_end)`), tracked against
`sys.maxsize`. -/
def techFirstBelow (content : Str) (points : List Marker)
    (relPos sectionEnd : Nat) (relSection : Str) : Option Marker :=
  (points.foldl
    (fun (acc : Option Marker × Nat) m =>
      if relPos < m.pos ∧ m.pos < sectionEnd ∧
          pointSectionAt content m.pos = relSection then
        if m.pos < acc.2 then (some m, m.pos) else acc
      else acc)
    (none, pySysMaxsize)).1

/-- Lines 1031–1040 / 1093–1102 / 1153–1162: the content start of the section
containing the relevant position (the character after the header line). -/
def sectionContentStart (content : Str) (relPos sectionStart : Nat) : Nat :=
  match lastHeader (pySlice content 0 relPos) with
  | some (i, t) =>
    let he := i + 2 + t.length
    match findSubFrom content ['\n'] he with
    | some p => p + 1
    | none => he
  | none => sectionStart

/-- Lines 1044–1064 (site A): walk same-section markers after the first list
item; each one whose line ends with `'.'` extends the list end to its line
end (newline excluded); a same-section marker that does not `break`s. -/
def techSiteAListEnd (content : Str) (sectionEnd : Nat) (relSection : Str) :
    List Marker → Nat → Nat → Nat
  | [], _, listEnd => listEnd
  | m :: ps, last, listEnd =>
    if last < m.pos ∧ m.pos < sectionEnd then
      if pointSectionAt content m.pos = relSection then
        let lineW := pyStrip (pySlice content m.pos (lineEndAfter content m.pos))
        if strEndsWith lineW ['.'] then
          techSiteAListEnd content sectionEnd relSection ps m.pos (lineEndAfter content m.pos)
        else listEnd
      else techSiteAListEnd content sectionEnd relSection ps last listEnd
    else techSiteAListEnd content sectionEnd relSection ps last listEnd

/-- Lines 1184–1207 (site C): same walk, but the recorded line end includes
the trailing newline (`line_end_item += 1`). -/
def techSiteCListEnd (content : Str) (sectionEnd : Nat) (relSection : Str) :
    List Marker → Nat → Nat → Nat
  | [], _, listEnd => listEnd
  | m :: ps, last, listEnd =>
    if last < m.pos ∧ m.pos < sectionEnd then
      if pointSectionAt content m.pos = relSection then
        let lineW := pyStrip (pySlice content m.pos (lineEndAfter content m.pos))
        if strEndsWith lineW ['.'] then
          let le :=
            match findSubFrom content ['\n'] m.pos with
            | some i => i + 1
            | none => content.length
          techSiteCListEnd content sectionEnd relSection ps m.pos le
        else listEnd
      else techSiteCListEnd content sectionEnd relSection ps last listEnd
    else techSiteCListEnd content sectionEnd relSection ps last listEnd

def techFragment (doc relSection bt : Str) (searchWords phrases : List Str)
    (start : Nat) : Fragment :=
  { source := doc, sect := relSection, text := bt, rule_number := [],
    rule_label := [], found_words := searchWords, found_phrases := phrases,
    position := start }

/-- Lines 1216–1219: the dedented relevance check that reads the possibly
unbound locals; `none` models `UnboundLocalError`. -/
def techStaleEval (searchWords phrases : List Str)
    (stale : Option (Nat × Str × Str)) (staleHas : Option Bool) : Option Bool :=
  let has1 : Option Bool :=
    if searchWords.isEmpty then staleHas
    else
      match stale with
      | some (_, _, btl) => some (searchWords.any (fun w => containsSub btl w))
      | none => none
  if phrases.isEmpty then has1
  else
    match has1, stale with
    | some h, some (_, _, btl) => some (h || phrases.all (fun p => containsSub btl p))
    | _, _ => none

/-- One iteration of the technical-requirements collector's per-position loop
(lines 965–1239). -/
def stepTech (content doc : Str) (points : List Marker)
    (searchWords phrases : List Str) (maxFragments : Nat)
    (st : TState) (relPos : Nat) : StepOut TState :=
  let (relSection, sectionStart, sectionEnd) := sectionInfoAt content relPos
  match nearestPointScan content points relPos sectionStart relSection with
  | none =>
    match techFirstBelow content points relPos sectionEnd relSection with
    | none => .cont st
    | some m =>
      let numberStart := m.pos
      let firstLineWithNumber :=
        pyStrip (pySlice content numberStart (lineEndAfter content numberStart))
      if strEndsWith firstLineWithNumber ['.'] then
        let start := sectionContentStart content relPos sectionStart
        let endPos := techSiteAListEnd content sectionEnd relSection points numberStart sectionEnd
        let bt := pyStrip (pySlice content start endPos)
        let btl := pyLower bt
        let hasW := hasSearchWordIn searchWords phrases btl
        let st1 := { st with stale := some (start, bt, btl), staleHas := some hasW }
        if hasW then
          .cont { st1 with base := { st1.base with fragments :=
            st1.base.fragments ++ [techFragment doc relSection bt searchWords phrases start] } }
        else .cont st1
      else
        let start := sectionContentStart content relPos sectionStart
        let bt := pyStrip (pySlice content start numberStart)
        let btl := pyLower bt
        let hasW := hasSearchWordIn searchWords phrases btl
        let st1 := { st with stale := some (start, bt, btl), staleHas := some hasW }
        if hasW then
          .cont { st1 with base := { st1.base with fragments :=
            st1.base.fragments ++ [techFragment doc relSection bt searchWords phrases start] } }
        else .cont st1
  | some nearest =>
    let number := pyStrip nearest.num
    if st.base.processed.contains number then .cont st
    else
      let numberStart := nearest.pos
      let lineWithNumber :=
        pyStrip (pySlice content numberStart (lineEndAfter content numberStart))
      let st1 :=
        if strEndsWith lineWithNumber ['.'] then
          let start := sectionContentStart content relPos sectionStart
          let endPos := techSiteCListEnd content sectionEnd relSection points numberStart sectionEnd
          let bt := pyStrip (pySlice content start endPos)
          { st with stale := some (start, bt, pyLower bt), staleHas := some false }
        else st
      match techStaleEval searchWords phrases st1.stale st1.staleHas with
      | none => .err
      | some has2 =>
        let st2 := { st1 with staleHas := some has2 }
        if has2 then
          match st2.stale with
          | none => .err
          | some (start, bt, _) =>
            let st3 := { st2 with base := { st2.base with fragments :=
              st2.base.fragments ++ [techFragment doc relSection bt searchWords phrases start] } }
            if st3.base.fragments.length ≥ maxFragments then .halt st3 else .cont st3
        else
          if st2.base.fragments.length ≥ maxFragments then .halt st2 else .cont st2

def collect_fragments_technical_requirements (content0 doc : Str)
    (searchWords phrases : List Str) (maxFragments : Nat)
    (fragments : List Fragment) (processed : List Str) : Except Unit (List Fragment) :=
  let content := prepNl content0
  let contentLower := pyLower content
  let relPos := relevantPositions contentLower searchWords phrases false
  if relPos = [] then .ok fragments
  else
    let points := scanPoints content
    (runPositions (stepTech content doc points searchWords phrases maxFragments)
      relPos { base := { fragments := fragments, processed := processed },
               stale := none, staleHas := none }).map (·.base.fragments)

/-!
## The per-document driver and the public entry point
-/

/-- Lines 874–905 (`_collect_fragments`): walk the candidate documents,
dispatch on the document name, stop when the cap is reached; a missing
document is skipped; an unknown document is skipped without a cap check. -/
def collect_fragments_aux (store : Str → Option Str)
    (searchWords phrases : List Str) (maxFragments : Nat) :
    List Str → List Fragment → Except Unit (List Fragment)
  | [], fragments => .ok (sort_and_return_fragments fragments)
  | doc :: rest, fragments =>
    match store doc with
    | none => collect_fragments_aux store searchWords phrases maxFragments rest fragments
    | some content =>
      if doc = TECHNICAL_REQUIREMENTS ∨ doc = CORONA_RULES ∨ doc = INTERNATIONAL_RULES then
        let res :=
          if doc = TECHNICAL_REQUIREMENTS then
            collect_fragments_technical_requirements content doc searchWords phrases
              maxFragments fragments []
          else if doc = CORONA_RULES then
            collect_fragments_corona_rules content doc searchWords phrases
              maxFragments fragments []
          else
            collect_fragments_international_rules content doc searchWords phrases
              maxFragments fragments []
        match res with
        | .error e => .error e
        | .ok fragments' =>
          if fragments'.length ≥ maxFragments then .ok (sort_and_return_fragments fragments')
          else collect_fragments_aux store searchWords phrases maxFragments rest fragments'
      else collect_fragments_aux store searchWords phrases maxFragments rest fragments

def collect_fragments (store : Str → Option Str) (candidateDocs : List Str)
    (searchWords : List Str) (maxFragments : Nat) (phrases0 : List Str) :
    Except Unit (List Fragment) :=
  let phrases := phrases0.filter (· ≠ [])
  collect_fragments_aux store searchWords phrases maxFragments candidateDocs []

/-- `get_primary_source_fragments(hits, query, allowed_sources, max_fragments)`.
`store` models the structured-text directory; `hits` carries the `source`
fields of the prior full-text hits; `query = none` models Python `None`. -/
def get_primary_source_fragments (store : Str → Option Str) (hits : List Str)
    (query : Option Str) (allowed : List Str) (maxFragments : Nat) :
    Except Unit (List Fragment) :=
  let lwquery := pyLower (query.getD [])
  let phrases := phrasesOf lwquery
  let searchWords := searchWordsOf lwquery
  let candidateDocs := collect_candidate_docs hits allowed lwquery
  if candidateDocs = [] then .ok []
  else collect_fragments store candidateDocs searchWords maxFragments phrases

/-!
## Spec-side definitions

These definitions state the spec's concepts (routing stages, clause markers,
top-level clauses, sub-points and their spans) independently of the collector
loops, for use in the claim statements.  Clause markers and section headers
are the `(?:^|\n)(\d{1,2}(?:\.\d+)*\.)\s+` and `^# ...` matches of the
prepared document text, exactly as both the spec (§3) and the code delimit
them.
-/

/-- Routing stage 1: the intersection of the explicit allowed sources with the
known document set, in `allowed_sources` order. -/
def specStage1 (allowed : List Str) : List Str :=
  allowed.filter (fun d => ALLOWED_SOURCES.contains d)

/-- Routing stage 2: the documents mapped from routing keywords occurring in
the lower-cased query, in routing-table order. -/
def specStage2 (lwquery : Str) : List Str :=
  (CONTEXT_ROUTES.filter (fun kv => containsSub lwquery kv.1)).map (·.2)

def dedupKeepFirst (l : List Str) : List Str :=
  l.foldl (fun acc x => if acc.contains x then acc else acc ++ [x]) []

/-- Routing stage 3: the known documents among the prior full-text hits, first
occurrences in hit order. -/
def specStage3 (hits : List Str) : List Str :=
  dedupKeepFirst ((hits.map pyStrip).filter (fun s => ALLOWED_SOURCES.contains s))

/-- The spec's three-stage document routing (§4.1): the first non-empty stage. -/
def specCandidates (hits : List Str) (allowed : List Str) (lwquery : Str) : List Str :=
  if specStage1 allowed ≠ [] then specStage1 allowed
  else if specStage2 lwquery ≠ [] then specStage2 lwquery
  else specStage3 hits

/-- The section a position belongs to, identified by the start of its header
line (0 when the position precedes every header). -/
def specSectionStart (c : Str) (q : Nat) : Nat :=
  match lastHeader (pySlice c 0 q) with
  | some (i, _) => i
  | none => 0

/-- The end of the section containing a position: the next `"# "` line start,
else the end of the document. -/
def specSectionEnd (c : Str) (q : Nat) : Nat :=
  match firstHashHeader (c.drop q) with
  | some i => q + i
  | none => c.length

def specSameSection (c : Str) (q r : Nat) : Prop :=
  specSectionStart c q = specSectionStart c r

/-- The nearest clause marker at or before `p` in `p`'s section, at any
nesting level. -/
def specNearestMarker (c : Str) (p : Nat) : Option Marker :=
  (scanPoints c).foldl
    (fun acc m =>
      if m.pos ≤ p ∧ specSectionStart c m.pos = specSectionStart c p then
        match acc with
        | none => some m
        | some b => if m.pos > b.pos then some m else acc
      else acc) none

/-- The nearest enclosing top-level clause of `p` (§4.4 step 1): the latest
level-1 marker at or before `p` in `p`'s section. -/
def specNearestTopLevel (c : Str) (p : Nat) : Option Marker :=
  (scanPoints c).foldl
    (fun acc m =>
      if m.pos ≤ p ∧ numLevel m.num = 1 ∧
          specSectionStart c m.pos = specSectionStart c p then
        match acc with
        | none => some m
        | some b => if m.pos > b.pos then some m else acc
      else acc) none

/-- The span end of a clause marker (§3, §4.4 step 3b/c): the next marker of
the same or higher level in the same section, else the section end. -/
def specSpanEnd (c : Str) (m : Marker) : Nat :=
  match (scanPoints c).find? (fun m2 =>
      decide (m.pos < m2.pos ∧ m2.pos < specSectionEnd c m.pos ∧
        numLevel m2.num ≤ numLevel m.num ∧
        specSectionStart c m2.pos = specSectionStart c m.pos)) with
  | some m2 => m2.pos
  | none => specSectionEnd c m.pos

/-- The sub-points of a clause `C` (§4.4 step 2): markers after `C`'s start,
before the next clause of level ≤ `C`'s in the same section, whose number is a
dotted extension of `C`'s. -/
def specSubpoints (c : Str) (C : Marker) : List Marker :=
  (scanPoints c).filter (fun m =>
    decide (C.pos < m.pos ∧ m.pos < specSpanEnd c C ∧
      extendsNum m.num C.num = true ∧
      specSectionStart c m.pos = specSectionStart c C.pos))

/-- Well-formed hierarchical numbering of the section containing `p`: every
sub-level marker of that section extends the nearest preceding level-1 marker
of the section (the documents' numbering satisfies this; the claim-C1
counterexample shows the code relies on it). -/
def specHierarchical (c : Str) (p : Nat) : Prop :=
  ∀ m ∈ scanPoints c,
    specSectionStart c m.pos = specSectionStart c p →
    1 < numLevel m.num →
    ∃ C ∈ scanPoints c,
      numLevel C.num = 1 ∧ C.pos < m.pos ∧
      specSectionStart c C.pos = specSectionStart c p ∧
      (∀ C2 ∈ scanPoints c, numLevel C2.num = 1 →
        specSectionStart c C2.pos = specSectionStart c p →
        C2.pos < m.pos → C2.pos ≤ C.pos) ∧
      extendsNum m.num C.num = true

/-- What claim C1 asserts of one input and one document (sub-point
precedence, stated for the match offsets of the query in that document): if
the nearest enclosing top-level clause `C` of a match offset `p` has
sub-points and `p` falls within sub-point `s`'s span, then the fragments the
call returns for this document are exactly `s` — every returned fragment of
the document carries `s`'s rule number, and one is returned. -/
def subpointPrecedenceProp (store : Str → Option Str) (hits : List Str)
    (query : Option Str) (allowed : List Str) (maxF : Nat) (doc : Str) : Prop :=
  ∀ content, store doc = some content →
    ∀ p ∈ relevantPositions (pyLower (prepNl content))
        (searchWordsOf (pyLower (query.getD []))) (phrasesOf (pyLower (query.getD [])))
        (doc = INTERNATIONAL_RULES),
      ∀ C, specNearestTopLevel (prepNl content) p = some C →
        specSubpoints (prepNl content) C ≠ [] →
        ∀ s ∈ specSubpoints (prepNl content) C,
          s.pos ≤ p → p < specSpanEnd (prepNl content) s →
          ∀ l, get_primary_source_fragments store hits query allowed maxF = .ok l →
            (∀ f ∈ l, f.source = doc → f.rule_number = s.num) ∧
            (∃ f ∈ l, f.source = doc ∧ f.rule_number = s.num)

/-- What claim C4 asserts of one input: within one call, no two returned
fragments of the same document share a rule number. -/
def noDuplicateProp (store : Str → Option Str) (hits : List Str)
    (query : Option Str) (allowed : List Str) (maxF : Nat) : Prop :=
  ∀ l, get_primary_source_fragments store hits query allowed maxF = .ok l →
    l.Pairwise (fun f g => f.source = g.source → f.rule_number ≠ g.rule_number)

/-- What claim C6 asserts of one input: the returned list respects the cap. -/
def capProp (store : Str → Option Str) (hits : List Str)
    (query : Option Str) (allowed : List Str) (maxF : Nat) : Prop :=
  ∀ l, get_primary_source_fragments store hits query allowed maxF = .ok l →
    l.length ≤ maxF

/-!
## Concrete documents and stores used by counterexamples and witnesses
-/

def emptyStore : Str → Option Str := fun _ => none

/-- The spec's §8 end-to-end example document. -/
def exampleDoc : Str :=
  lit "# Equipment\n5. Table dimensions\nGeneral requirement text.\n5.1. Length\nThe table must be 3.5m\n5.2. Width\nThe table must be 1.7m\n6. Lighting\nSome words."

def exampleStore : Str → Option Str :=
  fun d => if d = INTERNATIONAL_RULES then some exampleDoc else none

/-- A corona-rules document whose clause 5. has sub-points 5.1./5.2. and whose
5.2. body contains a stray deeper-numbered line (`9.9.9.`) before the query
term. -/
def strayMarkerDoc : Str :=
  lit "# Разд\n5. Пятый пункт интро\n5.1. Первый подпункт тут\n5.2. Второй подпункт\n9.9.9. цитата шарик тут\n6. Шестой пункт"

def strayMarkerStore : Str → Option Str :=
  fun d => if d = CORONA_RULES then some strayMarkerDoc else none

/-- An international-rules document where clause 5.'s enumerated list is
followed by clause 6., which carries its own terminated list item. -/
def listOverrunDoc : Str := lit "# S\n5. Intro ww\n- a.\n- b.\n6. Next\n- c q.\n- d\nz"

def listOverrunStore : Str → Option Str :=
  fun d => if d = INTERNATIONAL_RULES then some listOverrunDoc else none

/-- A minimal international-rules document with one clause containing the
query term. -/
def oneClauseDoc : Str := lit "# Р\n5. Тут шар есть"

def oneClauseStore : Str → Option Str :=
  fun d => if d = INTERNATIONAL_RULES then some oneClauseDoc else none

/-- A technical-requirements document whose first clause line does not end
with a period, so the collector's dedented relevance check reads the unbound
`block_text_lower`. -/
def unboundLocalDoc : Str := lit "# Т\n1. Заголовок без точки\nтут шар"

def unboundLocalStore : Str → Option Str :=
  fun d => if d = TECHNICAL_REQUIREMENTS then some unboundLocalDoc else none

/-- A technical-requirements document whose section preamble contains the
query term twice before a list-style clause. -/
def twoPreambleDoc : Str := lit "# Т\nшар и шар опять\n1. Пункт классный."

def twoPreambleStore : Str → Option Str :=
  fun d => if d = TECHNICAL_REQUIREMENTS then some twoPreambleDoc else none

/-- The fragment the extractor returns (twice) for `oneClauseDoc` when routing
duplicates the international document. -/
def oneClauseFragment : Fragment :=
  { source := INTERNATIONAL_RULES, sect := lit "Р", text := lit "5. Тут шар есть",
    rule_number := lit "5.", rule_label := [],
    found_words := [lit "пирамид", lit "междунар", lit "шар"], found_phrases := [],
    position := 5 }

/-- The fragment the extractor returns for `oneClauseDoc` when the
international document is the only candidate (explicit `allowed_sources`). -/
def oneClauseWitnessFragment : Fragment :=
  { source := INTERNATIONAL_RULES, sect := lit "Р", text := lit "5. Тут шар есть",
    rule_number := lit "5.", rule_label := [],
    found_words := [lit "шар"], found_phrases := [],
    position := 5 }

/-- The preamble fragment the technical-requirements collector returns (twice)
for `twoPreambleDoc`. -/
def twoPreambleFragment : Fragment :=
  { source := TECHNICAL_REQUIREMENTS, sect := lit "Т",
    text := lit "шар и шар опять\n1. Пункт классный.", rule_number := [],
    rule_label := [], found_words := [lit "шар"], found_phrases := [],
    position := 5 }

/-- The fragment the corona collector returns for `strayMarkerDoc`. -/
def strayMarkerFragment : Fragment :=
  { source := CORONA_RULES, sect := lit "Разд", text := lit "9.9.9. цитата шарик тут",
    rule_number := lit "9.9.9.", rule_label := [], found_words := [lit "шарик"],
    found_phrases := [], position := 75 }

/-- The fragment the international collector returns for `listOverrunDoc`:
its text runs past clause 6. into clause 6.'s own list. -/
def listOverrunFragment : Fragment :=
  { source := INTERNATIONAL_RULES, sect := lit "S",
    text := lit "5. Intro ww\n- a.\n- b.\n6. Next\n- c q.", rule_number := lit "5.",
    rule_label := [], found_words := [lit "ww"], found_phrases := [], position := 5 }

/-!
## Structural predicates used by the universal theorems
-/

/-- The dotted tail `.D₂.D₃.…​.` of a clause number (one leading dot, digit
groups separated by dots, one trailing dot; `[]` gives just the final dot). -/
def tailDotted : List Str → Str
  | [] => ['.']
  | q :: rest => '.' :: (q ++ tailDotted rest)

/-- A full clause number `D₁.D₂.….` from its digit groups. -/
def dotted : List Str → Str
  | [] => ['.']
  | q :: rest => q ++ tailDotted rest

def digitGroupsOk (parts : List Str) : Prop :=
  ∀ q ∈ parts, q ≠ [] ∧ ∀ ch ∈ q, pyIsDigit ch = true

/-- The shape of every clause number captured by the marker regex. -/
def NumShape (n : Str) : Prop :=
  ∃ parts : List Str, parts ≠ [] ∧ digitGroupsOk parts ∧
    (parts.headD []).length ≤ 2 ∧ n = dotted parts

/-- What the marker scan guarantees about each marker of a prepared document:
it sits at a line start (preceded by a newline), the document carries the
number at that position followed by a whitespace character, and the number is
a well-formed dotted numeral. -/
def MarkerWf (content : Str) (m : Marker) : Prop :=
  1 ≤ m.pos ∧ charAt content (m.pos - 1) = some '\n' ∧
    (∃ c r, content.drop m.pos = m.num ++ c :: r ∧ pyIsSpace c = true) ∧
    NumShape m.num

/-- What holds of every fragment a collector appends: it is tagged with the
collector's document, its text passes the relevance check, and — when the
rule number is non-empty — the text begins with exactly that clause number
(the leading clause-number token of the text is the rule number) and the
number was not yet processed before the append but is after. -/
def EmitProp (doc : Str) (w ph : List Str) (processedBefore processedAfter : List Str)
    (f : Fragment) : Prop :=
  f.source = doc ∧
    hasSearchWordIn w ph (pyLower f.text) = true ∧
    (f.rule_number ≠ [] →
      strStartsWith f.text f.rule_number = true ∧
      leadTok f.text = some f.rule_number ∧
      f.rule_number ∉ processedBefore ∧ f.rule_number ∈ processedAfter)

/-- The postcondition of one corona/international per-position step: the
processed set only grows; the fragment list is unchanged or extended by one
fragment satisfying `EmitProp`; the early return (`halt`) happens exactly when
an appended fragment fills the cap, and these collectors never raise. -/
def StepOkC (doc : Str) (w ph : List Str) (maxF : Nat) (st : CState) :
    StepOut CState → Prop
  | .cont st' =>
    (∀ x ∈ st.processed, x ∈ st'.processed) ∧
      (st'.fragments = st.fragments ∨
        ∃ f, st'.fragments = st.fragments ++ [f] ∧
          EmitProp doc w ph st.processed st'.processed f ∧
          st'.fragments.length < maxF)
  | .halt st' =>
    (∀ x ∈ st.processed, x ∈ st'.processed) ∧
      ∃ f, st'.fragments = st.fragments ++ [f] ∧
        EmitProp doc w ph st.processed st'.processed f ∧
        st'.fragments.length ≥ maxF
  | .err => False

/-- Fragments appended by the technical-requirements collector: tagged with
its document, empty rule number, text passing the relevance check. -/
def TechEmitProp (doc : Str) (w ph : List Str) (f : Fragment) : Prop :=
  f.source = doc ∧ f.rule_number = [] ∧
    hasSearchWordIn w ph (pyLower f.text) = true

/-- The postcondition of one technical-requirements per-position step (the
step may raise; `halt` may also occur without an append because the cap check
at line 1236 runs on non-emitting paths too). -/
def StepOkT (doc : Str) (w ph : List Str) (st : TState) : StepOut TState → Prop
  | .cont st' =>
    st'.base.processed = st.base.processed ∧
      (st'.base.fragments = st.base.fragments ∨
        ∃ f, st'.base.fragments = st.base.fragments ++ [f] ∧ TechEmitProp doc w ph f)
  | .halt st' =>
    st'.base.processed = st.base.processed ∧
      (st'.base.fragments = st.base.fragments ∨
        ∃ f, st'.base.fragments = st.base.fragments ++ [f] ∧ TechEmitProp doc w ph f)
  | .err => True

/-- Invariant of the technical collector's stale locals: the cached lowered
text is the lowering of the cached text, and a cached `has_search_word =
true` certifies the cached text's relevance. -/
def TStaleInv (w ph : List Str) (st : TState) : Prop :=
  (∀ s bt btl, st.stale = some (s, bt, btl) → btl = pyLower bt) ∧
    (∀ s bt btl, st.stale = some (s, bt, btl) → st.staleHas = some true →
      hasSearchWordIn w ph btl = true)

/-- The stale-locals invariant carried to the next iteration (a `halt` or
`err` ends the run, so only `cont` matters). -/
def TNext (w ph : List Str) : StepOut TState → Prop
  | .cont st' => TStaleInv w ph st'
  | .halt _ => True
  | .err => True

/-- The per-fragment facts every collector-appended fragment satisfies: tagged
with the collector's document, relevance of the lowered text, and — when a
rule number is present — the text starts with exactly that clause number (the
leading clause-number token of the text is the rule number itself). -/
def FragOk (doc : Str) (w ph : List Str) (f : Fragment) : Prop :=
  f.source = doc ∧ hasSearchWordIn w ph (pyLower f.text) = true ∧
    (f.rule_number ≠ [] →
      strStartsWith f.text f.rule_number = true ∧ leadTok f.text = some f.rule_number)

/-- The no-duplicate relation of claim C4: two fragments of the same document
with non-empty rule numbers carry different rule numbers. -/
def distinctRule (f g : Fragment) : Prop :=
  f.source = g.source → f.rule_number ≠ [] → g.rule_number ≠ [] →
    f.rule_number ≠ g.rule_number

/-- A bound on what a corona/international per-position step may emit: the
fragment list is unchanged, or exactly one fragment whose rule number
satisfies `P` was appended. -/
def RuleBound (st : CState) (P : Str → Prop) : StepOut CState → Prop
  | .cont st' =>
    st'.fragments = st.fragments ∨
      ∃ f, st'.fragments = st.fragments ++ [f] ∧ P f.rule_number
  | .halt st' =>
    st'.fragments = st.fragments ∨
      ∃ f, st'.fragments = st.fragments ++ [f] ∧ P f.rule_number
  | .err => True

/-- Hierarchical numbering of the section of a position `p`, in the terms the
collectors use to delimit sections (same header title, at or after the
section's header): every clause marker of nesting level above 1 that lies in
`p`'s section at or before `p` is a dotted extension of the latest preceding
level-1 marker of that section.  The repository's documents satisfy this;
claim C1 holds under it. -/
def hierNumberingAt (content : Str) (p : Nat) : Prop :=
  ∀ m ∈ scanPoints content, 1 < numLevel (pyStrip m.num) →
    m.pos ≤ p → specSectionStart content p ≤ m.pos →
    pointSectionAt content m.pos = pointSectionAt content p →
    ∀ C ∈ scanPoints content, numLevel (pyStrip C.num) = 1 →
      C.pos < m.pos → specSectionStart content p ≤ C.pos →
      pointSectionAt content C.pos = pointSectionAt content p →
      (∀ C2 ∈ scanPoints content, numLevel (pyStrip C2.num) = 1 →
        C2.pos < m.pos → specSectionStart content p ≤ C2.pos →
        pointSectionAt content C2.pos = pointSectionAt content p → C2.pos ≤ C.pos) →
      extendsNum (pyStrip m.num) (pyStrip C.num) = true

instance (content : Str) (p : Nat) : Decidable (hierNumberingAt content p) := by
  unfold hierNumberingAt
  infer_instance

/-- A hierarchically numbered document: clause 5. with sub-point 5.1.
containing the query word, followed by clause 6. -/
def descentDoc : Str := prepNl (lit "# Р\n5. Пятый пункт\n5.1. Подпункт шар тут\n6. Шестой.")

/-- The fragment the per-position steps emit for `descentDoc` at the match
offset inside sub-point 5.1. -/
def descentFragment : Fragment :=
  { source := CORONA_RULES, sect := lit "Р", text := lit "5.1. Подпункт шар тут",
    rule_number := lit "5.1.", rule_label := [], found_words := [lit "шар"],
    found_phrases := [], position := 20 }

/-!
## Theorems

### Empty-query behaviour (claim C10)
-/

theorem corona_no_terms (content doc : Str) (maxF : Nat) (frags : List Fragment)
    (proc : List Str) :
    collect_fragments_corona_rules content doc [] [] maxF frags proc = .ok frags := rfl

theorem intl_no_terms (content doc : Str) (maxF : Nat) (frags : List Fragment)
    (proc : List Str) :
    collect_fragments_international_rules content doc [] [] maxF frags proc = .ok frags := rfl

theorem tech_no_terms (content doc : Str) (maxF : Nat) (frags : List Fragment)
    (proc : List Str) :
    collect_fragments_technical_requirements content doc [] [] maxF frags proc = .ok frags := rfl

theorem collect_fragments_aux_no_terms (store : Str → Option Str) (maxF : Nat) :
    ∀ docs, collect_fragments_aux store [] [] maxF docs [] = .ok [] := by
  intro docs
  induction docs with
  | nil => rfl
  | cons doc rest ih =>
    rw [collect_fragments_aux]
    cases hs : store doc with
    | none => exact ih
    | some content =>
      dsimp only
      have hres : (if doc = TECHNICAL_REQUIREMENTS then
            collect_fragments_technical_requirements content doc [] [] maxF [] []
          else if doc = CORONA_RULES then
            collect_fragments_corona_rules content doc [] [] maxF [] []
          else collect_fragments_international_rules content doc [] [] maxF [] []) =
          .ok ([] : List Fragment) := by
        by_cases h1 : doc = TECHNICAL_REQUIREMENTS
        · rw [if_pos h1]; exact tech_no_terms content doc maxF [] []
        · rw [if_neg h1]
          by_cases h2 : doc = CORONA_RULES
          · rw [if_pos h2]; exact corona_no_terms content doc maxF [] []
          · rw [if_neg h2]; exact intl_no_terms content doc maxF [] []
      by_cases hk : doc = TECHNICAL_REQUIREMENTS ∨ doc = CORONA_RULES ∨ doc = INTERNATIONAL_RULES
      · rw [if_pos hk, hres]
        dsimp only
        by_cases hm : List.length ([] : List Fragment) ≥ maxF
        · rw [if_pos hm]; rfl
        · rw [if_neg hm]; exact ih
      · rw [if_neg hk]; exact ih

theorem collect_fragments_no_terms (store : Str → Option Str) (docs : List Str)
    (maxF : Nat) : collect_fragments store docs [] maxF [] = .ok [] :=
  collect_fragments_aux_no_terms store maxF docs

/-- Claim C10: when the query is `None`, empty, or yields no search terms (no
phrase of at least two words and no derived search word), the extractor
returns the empty list regardless of the store, hits and allowed sources. -/
theorem c10_empty_query (store : Str → Option Str) (hits : List Str)
    (allowed : List Str) (maxF : Nat) (query : Option Str)
    (h : query = none ∨ query = some [] ∨
      (searchWordsOf (pyLower (query.getD [])) = [] ∧
        phrasesOf (pyLower (query.getD [])) = [])) :
    get_primary_source_fragments store hits query allowed maxF = .ok [] := by
  have hw : searchWordsOf (pyLower (query.getD [])) = [] ∧
      phrasesOf (pyLower (query.getD [])) = [] := by
    rcases h with h | h | h
    · subst h; exact ⟨rfl, rfl⟩
    · subst h; exact ⟨rfl, rfl⟩
    · exact h
  rw [get_primary_source_fragments]
  simp only [hw.1, hw.2]
  split
  · rfl
  · exact collect_fragments_no_terms store _ maxF

/-- Witness for C10 at a concrete input. -/
theorem c10_empty_query_witness :
    get_primary_source_fragments emptyStore [] none [] 20 = .ok [] :=
  c10_empty_query emptyStore [] [] 20 none (Or.inl rfl)

/-!
### Fatal error in the technical-requirements collector (claim C5)
-/

/-- Claim C5 (refuting evaluation): a readable technical-requirements document
whose relevant match sits under an ordinary (non-list) clause makes
`get_primary_source_fragments` raise `UnboundLocalError` — the dedented
relevance check at lines 1216–1219 reads `block_text_lower` before any
assignment — instead of returning a list. -/
theorem c5_unbound_local_error :
    get_primary_source_fragments unboundLocalStore [] (some (lit "шар"))
      [TECHNICAL_REQUIREMENTS] 20 = .error () := by decide

/-!
### List-aware end boundary (claim C2)
-/

/-- Claim C2 (refuting evaluation): for `listOverrunDoc` the emitted clause 5.
has a terminated list item (`- a.`, `- b.`) in its body, yet the emission-path
list scan (lines 1946–2014) takes the last terminated item of the whole
section — which lies inside clause 6. — without the `list_end < next clause`
guard its pre-scan twin (line 1767) applies, so the fragment's text swallows
clause 6. and its list. -/
theorem c2_list_boundary_overrun :
    get_primary_source_fragments listOverrunStore [] (some (lit "ww"))
        [INTERNATIONAL_RULES] 20 = .ok [listOverrunFragment] ∧
      containsSub listOverrunFragment.text (lit "6. Next") = true ∧
      specSpanEnd (prepNl listOverrunDoc) ⟨5, lit "5."⟩ = 27 ∧
      listOverrunFragment.position + listOverrunFragment.text.length = 41 := by
  refine ⟨by decide, by decide, by decide, by decide⟩

/-!
### Counterexamples to claims C1, C4 and C6
-/

/-!
### Document routing (claim C7)
-/

theorem routes_fold (lw : Str) :
    ∀ (routes : List (Str × Str)) (acc : List Str),
      (∀ kv ∈ routes, ALLOWED_SOURCES.contains kv.2 = true) →
      routes.foldl
          (fun acc kv =>
            if containsSub lw kv.1 && ALLOWED_SOURCES.contains kv.2 then acc ++ [kv.2]
            else acc) acc =
        acc ++ (routes.filter (fun kv => containsSub lw kv.1)).map (·.2) := by
  intro routes
  induction routes with
  | nil => intro acc _; simp
  | cons kv rest ih =>
    intro acc hmem
    have hkv : ALLOWED_SOURCES.contains kv.2 = true := hmem kv (by simp)
    have hrest : ∀ kv2 ∈ rest, ALLOWED_SOURCES.contains kv2.2 = true := by
      intro kv2 h2; exact hmem kv2 (by simp [h2])
    rw [List.foldl_cons, List.filter_cons]
    cases hc : containsSub lw kv.1 with
    | true =>
      rw [if_pos (show (true && ALLOWED_SOURCES.contains kv.2) = true by rw [hkv]; rfl),
        ih _ hrest, if_pos rfl]
      simp
    | false =>
      rw [if_neg (by simp), ih _ hrest, if_neg (by simp)]

theorem hits_fold :
    ∀ (hits : List Str) (acc : List Str),
      hits.foldl
          (fun acc src0 =>
            let src := pyStrip src0
            if ALLOWED_SOURCES.contains src && !acc.contains src then acc ++ [src]
            else acc) acc =
        ((hits.map pyStrip).filter (fun s => ALLOWED_SOURCES.contains s)).foldl
          (fun acc x => if acc.contains x then acc else acc ++ [x]) acc := by
  intro hits
  induction hits with
  | nil => intro acc; rfl
  | cons src rest ih =>
    intro acc
    rw [List.foldl_cons, List.map_cons, List.filter_cons]
    dsimp only
    cases hq : ALLOWED_SOURCES.contains (pyStrip src) with
    | true =>
      rw [if_pos rfl, List.foldl_cons]
      cases hc : acc.contains (pyStrip src) with
      | true =>
        rw [if_neg (by simp), if_pos rfl]
        exact ih acc
      | false =>
        rw [if_pos (by simp), if_neg (by simp)]
        exact ih _
    | false =>
      rw [if_neg (by simp), if_neg (by simp)]
      exact ih acc

theorem collect_candidate_docs_eq_spec (hits allowed : List Str) (lw : Str) :
    collect_candidate_docs hits allowed lw =
      stableSortBy docKeyLe (specCandidates hits allowed lw) := by
  have hroutes : ∀ kv ∈ CONTEXT_ROUTES, ALLOWED_SOURCES.contains kv.2 = true := by decide
  have hc2 : CONTEXT_ROUTES.foldl
      (fun acc kv =>
        if containsSub lw kv.1 && ALLOWED_SOURCES.contains kv.2 then acc ++ [kv.2]
        else acc) [] = specStage2 lw := by
    rw [routes_fold lw CONTEXT_ROUTES [] hroutes]; rfl
  have hc3 : hits.foldl
      (fun acc src0 =>
        let src := pyStrip src0
        if ALLOWED_SOURCES.contains src && !acc.contains src then acc ++ [src]
        else acc) [] = specStage3 hits := by
    rw [hits_fold hits []]; rfl
  have hc1 : allowed.filter (fun d => ALLOWED_SOURCES.contains d) = specStage1 allowed := rfl
  simp only [collect_candidate_docs, specCandidates, hc1, hc2, hc3]
  by_cases h1 : specStage1 allowed = []
  · rw [if_pos h1, if_neg (show ¬(specStage1 allowed ≠ []) by simp [h1])]
    by_cases h2 : specStage2 lw = []
    · by_cases h3 : hits = []
      · rw [if_neg (show ¬(specStage2 lw = [] ∧ hits ≠ []) by simp [h3]),
          if_neg (show ¬(specStage2 lw ≠ []) by simp [h2]), h2]
        subst h3
        rfl
      · rw [if_pos (show specStage2 lw = [] ∧ hits ≠ [] from ⟨h2, h3⟩),
          if_neg (show ¬(specStage2 lw ≠ []) by simp [h2])]
    · rw [if_neg (show ¬(specStage2 lw = [] ∧ hits ≠ []) from fun hc => h2 hc.1),
        if_pos (show specStage2 lw ≠ [] from h2)]
  · rw [if_neg h1,
      if_neg (show ¬(specStage1 allowed = [] ∧ hits ≠ []) from fun hc => h1 hc.1),
      if_pos (show specStage1 allowed ≠ [] from h1)]

theorem insSortedBy_perm {α : Type} (le : α → α → Bool) (a : α) :
    ∀ l : List α, (insSortedBy le a l).Perm (a :: l) := by
  intro l
  induction l with
  | nil => rfl
  | cons b rest ih =>
    rw [insSortedBy]
    split
    · rfl
    · exact (ih.cons b).trans (List.Perm.swap a b rest)

theorem stableSortBy_perm {α : Type} (le : α → α → Bool) :
    ∀ l : List α, (stableSortBy le l).Perm l := by
  intro l
  induction l with
  | nil => rfl
  | cons a rest ih =>
    rw [stableSortBy]
    exact (insSortedBy_perm le a (stableSortBy le rest)).trans (ih.cons a)

theorem insSortedBy_pairwise {α : Type} (le : α → α → Bool) (key : α → Nat)
    (hT : ∀ a b, le a b = true → key a ≤ key b)
    (hF : ∀ a b, le a b = false → key b ≤ key a) (a : α) :
    ∀ l : List α, l.Pairwise (fun x y => key x ≤ key y) →
      (insSortedBy le a l).Pairwise (fun x y => key x ≤ key y) := by
  intro l
  induction l with
  | nil => intro _; exact List.pairwise_singleton _ a
  | cons b rest ih =>
    intro hp
    rcases List.pairwise_cons.mp hp with ⟨hb, hrest⟩
    rw [insSortedBy]
    cases hle : le a b with
    | true =>
      rw [if_pos rfl]
      refine List.pairwise_cons.mpr ⟨?_, hp⟩
      intro z hz
      rcases List.mem_cons.mp hz with hz | hz
      · rw [hz]; exact hT a b hle
      · exact le_trans (hT a b hle) (hb z hz)
    | false =>
      rw [if_neg (by simp)]
      refine List.pairwise_cons.mpr ⟨?_, ih hrest⟩
      intro z hz
      have hz2 := (insSortedBy_perm le a rest).mem_iff.mp hz
      rcases List.mem_cons.mp hz2 with hz2 | hz2
      · rw [hz2]; exact hF a b hle
      · exact hb z hz2

theorem stableSortBy_pairwise {α : Type} (le : α → α → Bool) (key : α → Nat)
    (hT : ∀ a b, le a b = true → key a ≤ key b)
    (hF : ∀ a b, le a b = false → key b ≤ key a) :
    ∀ l : List α, (stableSortBy le l).Pairwise (fun x y => key x ≤ key y) := by
  intro l
  induction l with
  | nil => exact List.Pairwise.nil
  | cons a rest ih => exact insSortedBy_pairwise le key hT hF a _ ih

theorem docKeyLe_true (a b : Str) (h : docKeyLe a b = true) : docPrio a ≤ docPrio b := by
  rw [docKeyLe] at h
  split at h
  · omega
  · split at h
    · exact absurd h (by simp)
    · omega

theorem docKeyLe_false (a b : Str) (h : docKeyLe a b = false) : docPrio b ≤ docPrio a := by
  rw [docKeyLe] at h
  split at h
  · exact absurd h (by simp)
  · split at h
    · omega
    · omega

/-- Claim C7: the candidate documents are the three-stage routing result
(explicit allowed sources ∩ known set when non-empty, else keyword routing,
else known prior-hit sources), ordered by the fixed document priority
(international rules, then corona rules, then others), and when all three
stages are empty the call returns the empty list. -/
theorem c7_document_routing (store : Str → Option Str) (hits allowed : List Str)
    (query : Option Str) (maxF : Nat) :
    collect_candidate_docs hits allowed (pyLower (query.getD [])) =
        stableSortBy docKeyLe (specCandidates hits allowed (pyLower (query.getD []))) ∧
      (collect_candidate_docs hits allowed (pyLower (query.getD []))).Perm
        (specCandidates hits allowed (pyLower (query.getD []))) ∧
      (collect_candidate_docs hits allowed (pyLower (query.getD []))).Pairwise
        (fun a b => docPrio a ≤ docPrio b) ∧
      (specCandidates hits allowed (pyLower (query.getD [])) = [] →
        get_primary_source_fragments store hits query allowed maxF = .ok []) := by
  refine ⟨collect_candidate_docs_eq_spec hits allowed _, ?_, ?_, ?_⟩
  · rw [collect_candidate_docs_eq_spec hits allowed _]
    exact stableSortBy_perm docKeyLe _
  · rw [collect_candidate_docs_eq_spec hits allowed _]
    exact stableSortBy_pairwise docKeyLe docPrio docKeyLe_true docKeyLe_false _
  · intro hempty
    rw [get_primary_source_fragments]
    rw [if_pos (by rw [collect_candidate_docs_eq_spec hits allowed _, hempty]; rfl)]

/-- Witness for C7 at a concrete input (empty stages give the empty result;
the non-empty conjuncts are checked by evaluation). -/
theorem c7_document_routing_witness :
    get_primary_source_fragments emptyStore [] none [] 20 = .ok [] ∧
      collect_candidate_docs [lit "прочее"] [CORONA_RULES, INTERNATIONAL_RULES]
          (pyLower (lit "пирамид")) =
        [INTERNATIONAL_RULES, CORONA_RULES] :=
  ⟨(c7_document_routing emptyStore [] [] none 20).2.2.2 (by decide), by decide⟩

/-- Counterexample to claim C1 as stated: in `strayMarkerDoc`, the single
match offset of the query lies within sub-point 5.2.'s span, clause 5. has
sub-points 5.1. and 5.2., yet the returned fragment carries rule number
9.9.9. (a stray deeper marker inside 5.2.'s body), not 5.2. -/
theorem c1_subpoint_counterexample :
    ¬ subpointPrecedenceProp strayMarkerStore [] (some (lit "шарик"))
        [CORONA_RULES] 20 CORONA_RULES := by
  intro h
  have h2 := h strayMarkerDoc (by decide) 89 (by decide) ⟨8, lit "5."⟩ (by decide)
    (by decide) ⟨54, lit "5.2."⟩ (by decide) (by decide) (by decide)
    [strayMarkerFragment] (by decide)
  have h3 := h2.1 strayMarkerFragment (by decide) (by decide)
  exact absurd h3 (by decide)

/-- Counterexample to claim C4 as stated: a query containing both routing
keywords `пирамид` and `междунар` makes `_collect_candidate_docs` list the
international document twice; the collector then runs twice with a fresh
`processed` set and returns the same numbered fragment twice. -/
theorem c4_duplicate_counterexample :
    ¬ noDuplicateProp oneClauseStore [] (some (lit "пирамид междунар шар")) [] 20 := by
  intro h
  have h2 := h [oneClauseFragment, oneClauseFragment] (by decide)
  rcases h2 with _ | ⟨hr, _⟩
  exact absurd (hr oneClauseFragment (by decide) rfl) (by decide)

/-- Counterexample to claim C6 as stated: with `max_fragments = 1`, the
technical-requirements collector emits two preamble fragments — its
preamble emission sites (lines 1077–1090, 1114–1127) have no cap check — and
the call returns a list of length 2. -/
theorem c6_cap_counterexample :
    ¬ capProp twoPreambleStore [] (some (lit "шар")) [TECHNICAL_REQUIREMENTS] 1 := by
  intro h
  have h2 := h [twoPreambleFragment, twoPreambleFragment] (by decide)
  exact absurd h2 (by decide)


/-!
### Marker well-formedness

The marker scan only produces markers that sit at a line start, carry their
number verbatim in the text followed by whitespace, and whose number is a
well-formed dotted numeral.
-/

theorem take_append_add {α : Type} :
    ∀ (a b : List α) (m : Nat), (a ++ b).take (a.length + m) = a ++ b.take m := by
  intro a
  induction a with
  | nil => intro b m; simp
  | cons x a ih =>
    intro b m
    have h : (x :: a).length + m = (a.length + m) + 1 := by
      simp [List.length_cons]; omega
    rw [h, List.cons_append, List.take_succ_cons, ih]
    rfl

theorem drop_append_add {α : Type} :
    ∀ (a b : List α) (m : Nat), (a ++ b).drop (a.length + m) = b.drop m := by
  intro a
  induction a with
  | nil => intro b m; simp
  | cons x a ih =>
    intro b m
    have h : (x :: a).length + m = (a.length + m) + 1 := by
      simp [List.length_cons]; omega
    rw [h, List.cons_append, List.drop_succ_cons, ih]

theorem takeWhile_take {α : Type} (p : α → Bool) (l : List α) :
    l.take (l.takeWhile p).length = l.takeWhile p :=
  (List.prefix_iff_eq_take.mp (List.takeWhile_prefix p)).symm

theorem takeWhile_ne_nil_head {α : Type} (p : α → Bool) (l : List α)
    (h : (l.takeWhile p).length ≠ 0) : ∃ c r, l = c :: r ∧ p c = true := by
  cases l with
  | nil => simp [List.takeWhile] at h
  | cons c r =>
    refine ⟨c, r, rfl, ?_⟩
    by_cases hc : p c = true
    · exact hc
    · rw [List.takeWhile_cons] at h
      simp [hc] at h

theorem numTailLen_shape :
    ∀ (fuel : Nat) (s : Str) (k : Nat), numTailLen fuel s = some k →
      ∃ parts r, digitGroupsOk parts ∧ s = tailDotted parts ++ r ∧
        k = (tailDotted parts).length := by
  intro fuel
  induction fuel with
  | zero => intro s k h; simp [numTailLen] at h
  | succ fuel ih =>
    intro s k h
    match s with
    | [] => simp [numTailLen] at h
    | c :: rest =>
      rw [numTailLen] at h
      by_cases hc : c = '.'
      · rw [if_pos hc] at h
        subst hc
        by_cases hcommit :
            (decide ((rest.takeWhile pyIsDigit).length ≠ 0) &&
              strStartsWith (rest.drop (rest.takeWhile pyIsDigit).length) ['.']) = true
        · rw [if_pos hcommit] at h
          cases hrec : numTailLen fuel (rest.drop (rest.takeWhile pyIsDigit).length) with
          | none => rw [hrec] at h; simp at h
          | some kt =>
            rw [hrec] at h
            obtain ⟨parts, r2, hwf, hstruct, hlen⟩ := ih _ _ hrec
            have hr : rest = rest.takeWhile pyIsDigit ++ rest.drop (rest.takeWhile pyIsDigit).length := by
              conv_lhs => rw [← List.take_append_drop (rest.takeWhile pyIsDigit).length rest]
              rw [takeWhile_take]
            have hne : rest.takeWhile pyIsDigit ≠ [] := by
              intro hnil
              rw [hnil] at hcommit
              simp at hcommit
            refine ⟨rest.takeWhile pyIsDigit :: parts, r2, ?_, ?_, ?_⟩
            · intro q hq
              rcases List.mem_cons.mp hq with hq | hq
              · subst hq
                exact ⟨hne, fun ch hch => List.mem_takeWhile_imp hch⟩
              · exact hwf q hq
            · rw [tailDotted]
              simp only [List.cons_append]
              congr 1
              conv_lhs => rw [hr]
              rw [hstruct, List.append_assoc]
            · have hk : k = 1 + (rest.takeWhile pyIsDigit).length + kt := by
                simpa using h.symm
              rw [hk, hlen, tailDotted]
              simp [List.length_append]
              omega
        · rw [if_neg (by simpa using hcommit)] at h
          have hk : k = 1 := by simpa using h.symm
          exact ⟨[], rest, by intro q hq; simp at hq, rfl, by simp [tailDotted, hk]⟩
      · rw [if_neg hc] at h
        simp at h

theorem numShape_parse (s n : Str) (k : Nat) (h : parseNumAt s = some (n, k)) :
    NumShape n ∧ ∃ c r, s = n ++ c :: r ∧ pyIsSpace c = true := by
  rw [parseNumAt] at h
  by_cases hz : (decide ((s.takeWhile pyIsDigit).length = 0) ||
      decide ((s.takeWhile pyIsDigit).length > 2)) = true
  · rw [if_pos hz] at h; simp at h
  · rw [if_neg (by simpa using hz)] at h
    cases htail : numTailLen (s.length + 1) (s.drop (s.takeWhile pyIsDigit).length) with
    | none => rw [htail] at h; simp at h
    | some kt =>
      rw [htail] at h
      dsimp only at h
      by_cases hws : ((s.drop ((s.takeWhile pyIsDigit).length + kt)).takeWhile pyIsSpace).length = 0
      · rw [if_pos hws] at h; simp at h
      · rw [if_neg hws] at h
        have hnk : n = s.take ((s.takeWhile pyIsDigit).length + kt) := by
          have := congrArg (fun o => Option.map Prod.fst o) h
          simpa using this.symm
        obtain ⟨parts, r2, hwf, hstruct, hlen⟩ := numTailLen_shape _ _ _ htail
        have hsplit : s = s.takeWhile pyIsDigit ++ s.drop (s.takeWhile pyIsDigit).length := by
          conv_lhs => rw [← List.take_append_drop (s.takeWhile pyIsDigit).length s]
          rw [takeWhile_take]
        have hd1ne : (s.takeWhile pyIsDigit).length ≠ 0 := by
          intro h0; apply hz; simp [h0]
        have hd1le : (s.takeWhile pyIsDigit).length ≤ 2 := by
          by_contra hgt
          apply hz
          simp
          omega
        have hn2 : n = s.takeWhile pyIsDigit ++ tailDotted parts := by
          rw [hnk, List.take_add, takeWhile_take, hstruct, hlen, List.take_left]
        have hshape : NumShape n := by
          refine ⟨s.takeWhile pyIsDigit :: parts, by simp, ?_, ?_, ?_⟩
          · intro q hq
            rcases List.mem_cons.mp hq with hq | hq
            · subst hq
              refine ⟨fun hnil => hd1ne (by rw [hnil]; rfl), fun ch hch => List.mem_takeWhile_imp hch⟩
            · exact hwf q hq
          · simpa using hd1le
          · rw [hn2]; rfl
        refine ⟨hshape, ?_⟩
        obtain ⟨c, r3, hcr, hcsp⟩ := takeWhile_ne_nil_head pyIsSpace
          (s.drop ((s.takeWhile pyIsDigit).length + kt)) hws
        refine ⟨c, r3, ?_, hcsp⟩
        have hlen2 : n.length = (s.takeWhile pyIsDigit).length + kt := by
          rw [hn2, List.length_append, hlen]
        conv_lhs => rw [← List.take_append_drop ((s.takeWhile pyIsDigit).length + kt) s]
        rw [← hnk, hcr]

theorem contains_mem {α : Type} [BEq α] [LawfulBEq α] (l : List α) (a : α) :
    l.contains a = true ↔ a ∈ l := by
  simp [List.contains_iff_exists_mem_beq]

theorem strStartsWith_nil (p : Str) (h : strStartsWith [] p = true) : p = [] := by
  cases p with
  | nil => rfl
  | cons c r => simp [strStartsWith] at h

theorem strStartsWith_iff (s p : Str) :
    strStartsWith s p = true ↔ ∃ t, s = p ++ t := by
  constructor
  · intro h
    induction p generalizing s with
    | nil => exact ⟨s, rfl⟩
    | cons d p ih =>
      cases s with
      | nil => simp [strStartsWith] at h
      | cons c s =>
        rw [strStartsWith] at h
        have h1 := (Bool.and_eq_true _ _).mp h
        obtain ⟨t, ht⟩ := ih s h1.2
        exact ⟨t, by rw [List.cons_append, ← ht]
                     exact congrArg (· :: s) (by simpa using h1.1)⟩
  · rintro ⟨t, rfl⟩
    induction p with
    | nil => cases t <;> rfl
    | cons d p ih => simpa [strStartsWith] using ih

theorem strStartsWith_append (p t : Str) : strStartsWith (p ++ t) p = true :=
  (strStartsWith_iff _ _).mpr ⟨t, rfl⟩

theorem strStartsWith_length (s p : Str) (h : strStartsWith s p = true) :
    p.length ≤ s.length := by
  obtain ⟨t, rfl⟩ := (strStartsWith_iff s p).mp h
  simp

theorem strStartsWith_short (s p : Str) (h : s.length < p.length) :
    strStartsWith s p = false := by
  cases hb : strStartsWith s p with
  | false => rfl
  | true => exact absurd (strStartsWith_length s p hb) (by omega)

theorem strStartsWith_cancel (a x y : Str) :
    strStartsWith (a ++ x) (a ++ y) = strStartsWith x y := by
  induction a with
  | nil => rfl
  | cons c a ih => simpa [strStartsWith] using ih

theorem findSubAux_some (p : Str) :
    ∀ (s : Str) (i k : Nat), findSubAux p s i = some k →
      i ≤ k ∧ strStartsWith (s.drop (k - i)) p = true := by
  intro s
  induction s with
  | nil =>
    intro i k h
    rw [findSubAux] at h
    by_cases hp : strStartsWith [] p = true
    · rw [if_pos hp] at h
      have hk : k = i := by simpa using h.symm
      refine ⟨by omega, ?_⟩
      simpa [hk] using hp
    · rw [if_neg hp] at h; exact absurd h (by simp)
  | cons c s ih =>
    intro i k h
    rw [findSubAux] at h
    by_cases hp : strStartsWith (c :: s) p = true
    · rw [if_pos hp] at h
      have hk : k = i := by simpa using h.symm
      exact ⟨by omega, by simpa [hk] using hp⟩
    · rw [if_neg hp] at h
      obtain ⟨h1, h2⟩ := ih (i + 1) k h
      refine ⟨by omega, ?_⟩
      have hd : (c :: s).drop (k - i) = s.drop (k - (i + 1)) := by
        have hki : k - i = (k - (i + 1)) + 1 := by omega
        rw [hki, List.drop_succ_cons]
      rw [hd]; exact h2

theorem findSubFrom_some (hay p : Str) (k : Nat)
    (h : findSubFrom hay p 0 = some k) : strStartsWith (hay.drop k) p = true := by
  rw [findSubFrom] at h
  cases ha : findSubAux p (hay.drop 0) 0 with
  | none => rw [ha] at h; exact absurd h (by simp)
  | some j =>
    rw [ha] at h
    have hk : k = j := by simpa using h.symm
    have := (findSubAux_some p (hay.drop 0) 0 j ha).2
    simpa [hk] using this

theorem findSubFrom_self (s p : Str) (h : strStartsWith s p = true) :
    findSubFrom s p 0 = some 0 := by
  rw [findSubFrom]
  cases s with
  | nil =>
    have hp : p = [] := strStartsWith_nil p h
    simp [findSubAux, hp, strStartsWith]
  | cons c r =>
    rw [List.drop_zero, findSubAux, if_pos h]
    rfl

theorem dropWhile_no (p : Char → Bool) (s : Str) (h : ∀ c ∈ s, p c = false) :
    s.dropWhile p = s := by
  cases s with
  | nil => rfl
  | cons c r => rw [List.dropWhile_cons, if_neg (by simp [h c (by simp)])]

theorem pyRStrip_no (p : Char → Bool) (s : Str) (h : ∀ c ∈ s, p c = false) :
    pyRStrip p s = s := by
  rw [pyRStrip, dropWhile_no p s.reverse (fun c hc => h c (List.mem_reverse.mp hc)),
    List.reverse_reverse]

theorem pyRStrip_append (p : Char → Bool) (n t : Str) (h : pyRStrip p n = n) :
    pyRStrip p (n ++ t) = n ++ pyRStrip p t := by
  have hn : n.reverse.dropWhile p = n.reverse := by
    have := congrArg List.reverse h
    rwa [pyRStrip, List.reverse_reverse] at this
  rw [pyRStrip, List.reverse_append, List.dropWhile_append]
  by_cases he : (t.reverse.dropWhile p).isEmpty = true
  · rw [if_pos he, hn, List.reverse_reverse]
    have ht : pyRStrip p t = [] := by
      rw [pyRStrip, List.isEmpty_iff.mp he]; rfl
    rw [ht, List.append_nil]
  · rw [if_neg he, List.reverse_append, List.reverse_reverse, pyRStrip]

theorem pyRStrip_cons (p : Char → Bool) (c : Char) (r : Str) (h : pyRStrip p r ≠ []) :
    pyRStrip p (c :: r) = c :: pyRStrip p r := by
  have hne : (r.reverse.dropWhile p).isEmpty = false := by
    rw [List.isEmpty_eq_false]
    intro hnil
    apply h
    rw [pyRStrip, hnil]
    rfl
  rw [pyRStrip]
  have hrc : (c :: r).reverse = r.reverse ++ [c] := by simp
  rw [hrc, List.dropWhile_append, hne]
  simp only [Bool.false_eq_true, if_false, List.reverse_append, List.reverse_cons,
    List.reverse_nil, List.nil_append, List.singleton_append]
  rfl

theorem pyIsDigit_not_space (c : Char) (h : pyIsDigit c = true) : pyIsSpace c = false := by
  cases hs : pyIsSpace c with
  | false => rfl
  | true =>
    rw [pyIsSpace] at hs
    simp only [Bool.or_eq_true, decide_eq_true_eq] at hs
    rcases hs with ((((h1 | h1) | h1) | h1) | h1) | h1 <;>
      (subst h1; exact absurd h (by decide))

theorem tailDotted_head (ps : List Str) : ∃ u, tailDotted ps = '.' :: u := by
  cases ps with
  | nil => exact ⟨[], rfl⟩
  | cons q rest => exact ⟨q ++ tailDotted rest, rfl⟩

theorem tailDotted_no_ws (parts : List Str) (h : digitGroupsOk parts) :
    ∀ c ∈ tailDotted parts, pyIsSpace c = false := by
  induction parts with
  | nil =>
    intro c hc
    rw [tailDotted] at hc
    have : c = '.' := by simpa using hc
    subst this; decide
  | cons q ps ih =>
    intro c hc
    rw [tailDotted] at hc
    rcases List.mem_cons.mp hc with h1 | h1
    · subst h1; decide
    · rcases List.mem_append.mp h1 with h2 | h2
      · exact pyIsDigit_not_space c ((h q (by simp)).2 c h2)
      · exact ih (fun x hx => h x (by simp [hx])) c h2

theorem numShape_parts (n : Str) (h : NumShape n) :
    ∃ q ps, digitGroupsOk (q :: ps) ∧ q.length ≤ 2 ∧ n = q ++ tailDotted ps := by
  obtain ⟨parts, hne, hok, hhd, hd⟩ := h
  cases parts with
  | nil => exact absurd rfl hne
  | cons q ps =>
    refine ⟨q, ps, hok, by simpa using hhd, ?_⟩
    rw [hd]; rfl

theorem numShape_no_ws (n : Str) (h : NumShape n) : ∀ c ∈ n, pyIsSpace c = false := by
  obtain ⟨q, ps, hok, _, hd⟩ := numShape_parts n h
  intro c hc
  rw [hd] at hc
  rcases List.mem_append.mp hc with h1 | h1
  · exact pyIsDigit_not_space c ((hok q (by simp)).2 c h1)
  · exact tailDotted_no_ws ps (fun x hx => hok x (by simp [hx])) c h1

theorem numShape_ne_nil (n : Str) (h : NumShape n) : n ≠ [] := by
  obtain ⟨q, ps, hok, _, hd⟩ := numShape_parts n h
  obtain ⟨u, hu⟩ := tailDotted_head ps
  rw [hd, hu]
  cases q <;> simp

theorem numShape_head_digit (n : Str) (h : NumShape n) :
    ∃ c r, n = c :: r ∧ pyIsDigit c = true := by
  obtain ⟨q, ps, hok, _, hd⟩ := numShape_parts n h
  have hq := hok q (by simp)
  cases q with
  | nil => exact absurd rfl hq.1
  | cons c q0 =>
    exact ⟨c, q0 ++ tailDotted ps, by rw [hd]; rfl, hq.2 c (by simp)⟩

theorem numShape_pyStrip (n : Str) (h : NumShape n) : pyStrip n = n := by
  rw [pyStrip, pyLStrip, dropWhile_no _ _ (numShape_no_ws n h),
    pyRStrip_no _ _ (numShape_no_ws n h)]

theorem tailDotted_length (ps : List Str) : ps.length ≤ (tailDotted ps).length := by
  induction ps with
  | nil => simp [tailDotted]
  | cons q rest ih =>
    rw [tailDotted]
    simp only [List.length_cons, List.length_append]
    omega

theorem numTailLen_exact (c : Char) (hc : pyIsDigit c = false) :
    ∀ (parts : List Str) (fuel : Nat) (t : Str), parts.length < fuel → digitGroupsOk parts →
      numTailLen fuel (tailDotted parts ++ c :: t) = some (tailDotted parts).length := by
  intro parts
  induction parts with
  | nil =>
    intro fuel t hf _
    match fuel, hf with
    | fuel + 1, _ =>
      show numTailLen (fuel + 1) ('.' :: c :: t) = some 1
      rw [numTailLen, if_pos rfl]
      have hr : (c :: t).takeWhile pyIsDigit = [] := by
        rw [List.takeWhile_cons, if_neg (by simp [hc])]
      rw [hr]
      simp
  | cons q ps ih =>
    intro fuel t hf hok
    match fuel, hf with
    | fuel + 1, hf =>
      obtain ⟨u, hu⟩ := tailDotted_head ps
      have hqd : ∀ x ∈ q, pyIsDigit x = true := (hok q (by simp)).2
      have hqne : q ≠ [] := (hok q (by simp)).1
      have hshape : tailDotted (q :: ps) ++ c :: t =
          '.' :: (q ++ (tailDotted ps ++ c :: t)) := by
        rw [tailDotted]; simp
      rw [hshape, numTailLen, if_pos rfl]
      dsimp only
      have hr : (q ++ (tailDotted ps ++ c :: t)).takeWhile pyIsDigit = q := by
        rw [List.takeWhile_append_of_pos hqd, hu]
        simp only [List.cons_append]
        rw [List.takeWhile_cons, if_neg (by decide)]
        simp
      rw [hr, List.drop_left]
      have hcommit : (decide (q.length ≠ 0) &&
          strStartsWith (tailDotted ps ++ c :: t) ['.']) = true := by
        rw [hu]
        simp only [Bool.and_eq_true, decide_eq_true_eq, List.cons_append]
        exact ⟨fun h0 => hqne (List.length_eq_zero.mp h0), by simp [strStartsWith]⟩
      rw [if_pos hcommit, ih fuel t (by simpa using hf)
        (fun x hx => hok x (by simp [hx]))]
      rw [tailDotted]
      simp only [Option.some.injEq, List.length_cons, List.length_append]
      omega

theorem leadTok_exact (n : Str) (c : Char) (t : Str) (hn : NumShape n)
    (hc : pyIsDigit c = false) : leadTok (n ++ c :: t) = some n := by
  obtain ⟨q, ps, hok, hq2, hd⟩ := numShape_parts n hn
  have hqd : ∀ x ∈ q, pyIsDigit x = true := (hok q (by simp)).2
  have hqne : q ≠ [] := (hok q (by simp)).1
  obtain ⟨u, hu⟩ := tailDotted_head ps
  have hshape : n ++ c :: t = q ++ (tailDotted ps ++ c :: t) := by
    rw [hd]; simp
  have hd1 : (n ++ c :: t).takeWhile pyIsDigit = q := by
    rw [hshape, List.takeWhile_append_of_pos hqd, hu]
    simp only [List.cons_append]
    rw [List.takeWhile_cons, if_neg (by decide)]
    simp
  rw [leadTok]
  simp only [hd1]
  rw [if_neg (by
    simp only [Bool.or_eq_true, decide_eq_true_eq]
    rintro (h0 | h2)
    · exact hqne (List.length_eq_zero.mp h0)
    · omega)]
  have hdrop : (n ++ c :: t).drop q.length = tailDotted ps ++ c :: t := by
    rw [hshape, List.drop_left]
  rw [hdrop, numTailLen_exact c hc ps _ t (by
    have h1 := tailDotted_length ps
    have h2 : (n ++ c :: t).length = n.length + 1 + t.length := by
      simp only [List.length_append, List.length_cons]; omega
    have h3 : n.length = q.length + (tailDotted ps).length := by rw [hd]; simp
    omega) (fun x hx => hok x (by simp [hx]))]
  have htake : (n ++ c :: t).take (q.length + (tailDotted ps).length) = n := by
    rw [hshape, take_append_add, List.take_left, ← hd]
  simp only [htake]

theorem scanPointsAux_mem (content : Str) :
    ∀ (fuel i : Nat) (m : Marker), m ∈ scanPointsAux content fuel i →
      (m.pos = 0 ∧ ∃ len, parseNumAt content = some (m.num, len)) ∨
      (1 ≤ m.pos ∧ charAt content (m.pos - 1) = some '\n' ∧
        ∃ len, parseNumAt (content.drop m.pos) = some (m.num, len)) := by
  intro fuel
  induction fuel with
  | zero => intro i m hm; simp [scanPointsAux] at hm
  | succ fuel ih =>
    intro i m hm
    rw [scanPointsAux] at hm
    by_cases hi : i < content.length
    · rw [if_pos hi] at hm
      dsimp only at hm
      by_cases hi0 : i = 0
      · subst hi0
        rw [if_pos rfl] at hm
        cases hp : parseNumAt content with
        | some v =>
          rw [hp] at hm
          dsimp only at hm
          rcases List.mem_cons.mp hm with h1 | h1
          · subst h1
            exact Or.inl ⟨rfl, v.2, by simp⟩
          · rcases ih _ _ h1 with ⟨ha, len, hb⟩ | h2
            · exact Or.inl ⟨ha, len, hp.symm.trans hb⟩
            · exact Or.inr h2
        | none =>
          rw [hp] at hm
          dsimp only at hm
          by_cases hc : charAt content 0 = some '\n'
          · rw [if_pos hc] at hm
            cases hp2 : parseNumAt (content.drop 1) with
            | some v =>
              rw [hp2] at hm
              dsimp only at hm
              rcases List.mem_cons.mp hm with h1 | h1
              · subst h1
                exact Or.inr ⟨Nat.le_refl 1, by simpa using hc, v.2, by simpa using hp2⟩
              · rcases ih _ _ h1 with ⟨ha, len, hb⟩ | h2
                · exact Or.inl ⟨ha, len, hp.symm.trans hb⟩
                · exact Or.inr h2
            | none =>
              rw [hp2] at hm
              rcases ih _ _ hm with ⟨ha, len, hb⟩ | h2
              · exact Or.inl ⟨ha, len, hp.symm.trans hb⟩
              · exact Or.inr h2
          · rw [if_neg hc] at hm
            rcases ih _ _ hm with ⟨ha, len, hb⟩ | h2
            · exact Or.inl ⟨ha, len, hp.symm.trans hb⟩
            · exact Or.inr h2
      · rw [if_neg hi0] at hm
        by_cases hc : charAt content i = some '\n'
        · rw [if_pos hc] at hm
          cases hp : parseNumAt (content.drop (i + 1)) with
          | some v =>
            rw [hp] at hm
            dsimp only at hm
            rcases List.mem_cons.mp hm with h1 | h1
            · subst h1
              exact Or.inr ⟨Nat.succ_le_succ (Nat.zero_le i), by simpa using hc, v.2,
                by simpa using hp⟩
            · exact ih _ _ h1
          | none =>
            rw [hp] at hm
            exact ih _ _ hm
        · rw [if_neg hc] at hm
          exact ih _ _ hm
    · rw [if_neg hi] at hm
      simp at hm

theorem scanPoints_wf (content : Str) (hc : charAt content 0 = some '\n') :
    ∀ m ∈ scanPoints content, MarkerWf content m := by
  intro m hm
  rcases scanPointsAux_mem content _ 0 m hm with ⟨hp0, len, hp⟩ | ⟨h1, hnl, len, hp⟩
  · exfalso
    obtain ⟨r, hr⟩ : ∃ r, content = '\n' :: r := by
      cases content with
      | nil => simp [charAt] at hc
      | cons a r =>
        have ha : a = '\n' := by simpa [charAt] using hc
        exact ⟨r, by rw [ha]⟩
    have hd1 : ('\n' :: r).takeWhile pyIsDigit = [] := by
      rw [List.takeWhile_cons, if_neg (by decide)]
    rw [hr, parseNumAt, hd1] at hp
    simp at hp
  · obtain ⟨hshape, c0, r0, hdrop, hws⟩ := numShape_parse _ _ _ hp
    exact ⟨h1, hnl, ⟨c0, r0, hdrop, hws⟩, hshape⟩

theorem prepNl_head (content0 : Str) : charAt (prepNl content0) 0 = some '\n' := by
  rw [prepNl]
  cases hs : strStartsWith (replaceHashes content0) ['\n'] with
  | true =>
    simp only [if_pos rfl]
    obtain ⟨t, ht⟩ := (strStartsWith_iff _ _).mp hs
    rw [ht]
    rfl
  | false =>
    simp only [Bool.false_eq_true, if_false]
    rfl

theorem splitNl_ne_nil : ∀ s : Str, splitNl s ≠ [] := by
  intro s
  cases s with
  | nil => simp [splitNl]
  | cons c rest =>
    rw [splitNl]
    by_cases hc : c = '\n'
    · rw [if_pos hc]; simp
    · rw [if_neg hc]
      cases h : splitNl rest <;> simp

theorem splitNl_headD :
    ∀ s : Str, (splitNl s).headD [] = s.takeWhile (fun c => !decide (c = '\n')) := by
  intro s
  induction s with
  | nil => rfl
  | cons c rest ih =>
    rw [splitNl, List.takeWhile_cons]
    by_cases hc : c = '\n'
    · rw [if_pos hc]
      simp [hc]
    · rw [if_neg hc]
      cases h : splitNl rest with
      | nil => exact absurd h (splitNl_ne_nil rest)
      | cons l ls =>
        rw [h] at ih
        simp only [List.headD_cons] at ih
        simp only [List.headD_cons, ih, hc]
        simp

theorem pyStrip_append_num (number t : Str) (hn : NumShape number) :
    pyStrip (number ++ t) = number ++ pyRStrip pyIsSpace t := by
  obtain ⟨c, r, hd, hdig⟩ := numShape_head_digit number hn
  rw [pyStrip, pyLStrip]
  have h1 : (number ++ t).dropWhile pyIsSpace = number ++ t := by
    rw [hd, List.cons_append, List.dropWhile_cons,
      if_neg (by simp [pyIsDigit_not_space c hdig])]
  rw [h1, pyRStrip_append pyIsSpace number t (pyRStrip_no _ _ (numShape_no_ws number hn))]

theorem pyRStrip_nil_cons (p : Char → Bool) (c : Char) (r : Str)
    (hr : pyRStrip p r = []) (hc : p c = true) : pyRStrip p (c :: r) = [] := by
  have hrev : r.reverse.dropWhile p = [] := by
    have := congrArg List.reverse hr
    rwa [pyRStrip, List.reverse_reverse, List.reverse_nil] at this
  rw [pyRStrip]
  have hrc : (c :: r).reverse = r.reverse ++ [c] := by simp
  rw [hrc, List.dropWhile_append, hrev]
  simp [hc]

theorem pyRStrip_ws_cons_shape (c : Char) (r : Str) (hc : pyIsSpace c = true)
    (hne : pyRStrip pyIsSpace (c :: r) ≠ []) :
    pyRStrip pyIsSpace (c :: r) = c :: pyRStrip pyIsSpace r ∧
      pyRStrip pyIsSpace r ≠ [] := by
  by_cases h : pyRStrip pyIsSpace r = []
  · exact absurd (pyRStrip_nil_cons pyIsSpace c r h hc) hne
  · exact ⟨pyRStrip_cons pyIsSpace c r h, h⟩

theorem findSubFrom_none_short (s p : Str) (h : s.length < p.length) :
    findSubFrom s p 0 = none := by
  cases hf : findSubFrom s p 0 with
  | none => rfl
  | some k =>
    have h2 := findSubFrom_some s p k hf
    have h3 := strStartsWith_length _ _ h2
    rw [List.length_drop] at h3
    omega

theorem trimBlock_none_of_firstLine_short (number bt0 : Str)
    (hlt : (pyStrip ((splitNl bt0).headD [])).length < number.length) :
    trimBlock number bt0 = none := by
  have hlen : (pyStrip ((splitNl bt0).headD [])).length < (number ++ [' ']).length := by
    simp only [List.length_append, List.length_cons, List.length_nil]
    omega
  rw [trimBlock]
  dsimp only
  rw [strStartsWith_short _ _ hlen, findSubFrom_none_short _ _ hlt]
  rfl

theorem trimBlock_none_of_firstLine_eq (number bt0 : Str)
    (hfl : pyStrip ((splitNl bt0).headD []) = number) :
    trimBlock number bt0 = none := by
  have hlen : number.length < (number ++ [' ']).length := by
    simp only [List.length_append, List.length_cons, List.length_nil]
    omega
  rw [trimBlock]
  dsimp only
  rw [hfl, strStartsWith_short _ _ hlen, findSubFrom_self number number
    ((strStartsWith_iff _ _).mpr ⟨[], (List.append_nil number).symm⟩)]
  rfl

theorem trimBlock_none_of_firstLine_badws (number bt0 : Str) (c0 : Char) (v1 : Str)
    (hc0 : c0 ≠ ' ')
    (hfl : pyStrip ((splitNl bt0).headD []) = number ++ c0 :: v1) :
    trimBlock number bt0 = none := by
  have hb1 : strStartsWith (number ++ c0 :: v1) (number ++ [' ']) = false := by
    rw [strStartsWith_cancel]
    simp [strStartsWith, hc0]
  rw [trimBlock]
  dsimp only
  rw [hfl, hb1, findSubFrom_self _ _ (strStartsWith_append number (c0 :: v1))]
  rfl

theorem trimBlock_some_of_space (number bt0 : Str) (v1 : Str)
    (hfl : pyStrip ((splitNl bt0).headD []) = number ++ ' ' :: v1)
    (hbt0 : strStartsWith bt0 number = true) :
    trimBlock number bt0 = some bt0 := by
  have hb1 : strStartsWith (number ++ ' ' :: v1) (number ++ [' ']) = true := by
    rw [strStartsWith_cancel]
    simp [strStartsWith]
  rw [trimBlock]
  dsimp only
  rw [hfl, hb1, if_pos rfl]
  dsimp only
  rw [hbt0, if_pos rfl]
  dsimp only
  rw [hfl, strStartsWith_append number (' ' :: v1), if_pos rfl]

theorem takeWhile_all {α : Type} (p : α → Bool) (l : List α)
    (h : ∀ c ∈ l, p c = true) : l.takeWhile p = l := by
  induction l with
  | nil => rfl
  | cons c rest ih =>
    rw [List.takeWhile_cons, if_pos (h c (by simp)), ih (fun x hx => h x (by simp [hx]))]

theorem numShape_not_nl (number : Str) (hn : NumShape number) :
    ∀ c ∈ number, (!decide (c = '\n')) = true := by
  intro c hc
  have hws := numShape_no_ws number hn c hc
  by_cases hce : c = '\n'
  · subst hce; exact absurd hws (by decide)
  · simp [hce]

theorem firstLine_append_num (number t : Str) (hn : NumShape number) :
    pyStrip ((splitNl (number ++ t)).headD []) =
      number ++ pyRStrip pyIsSpace (t.takeWhile (fun c => !decide (c = '\n'))) := by
  rw [splitNl_headD, List.takeWhile_append_of_pos (numShape_not_nl number hn),
    pyStrip_append_num _ _ hn]

theorem firstLine_num_self (number : Str) (hn : NumShape number) :
    pyStrip ((splitNl number).headD []) = number := by
  have h := firstLine_append_num number [] hn
  simpa [pyRStrip] using h

theorem trimBlock_marker (number : Str) (hn : NumShape number) (c0 : Char)
    (hc0 : pyIsSpace c0 = true) (r0 : Str) (L : Nat) (bt : Str)
    (h : trimBlock number (pyStrip ((number ++ c0 :: r0).take L)) = some bt) :
    ∃ t, bt = number ++ ' ' :: t := by
  by_cases hL : L ≤ number.length
  · rw [List.take_append_of_le_length hL] at h
    have hmem : ∀ c ∈ number.take L, pyIsSpace c = false :=
      fun c hc => numShape_no_ws number hn c (List.mem_of_mem_take hc)
    have hstrip : pyStrip (number.take L) = number.take L := by
      rw [pyStrip, pyLStrip, dropWhile_no _ _ hmem, pyRStrip_no _ _ hmem]
    have hfl : pyStrip ((splitNl (number.take L)).headD []) = number.take L := by
      rw [splitNl_headD,
        takeWhile_all _ _ (fun c hc => numShape_not_nl number hn c (List.mem_of_mem_take hc)),
        hstrip]
    rw [hstrip] at h
    rcases Nat.lt_or_ge L number.length with hlt | hge
    · have hshort : (pyStrip ((splitNl (number.take L)).headD [])).length < number.length := by
        rw [hfl, List.length_take]
        omega
      rw [trimBlock_none_of_firstLine_short _ _ hshort] at h
      simp at h
    · have hLeq : L = number.length := Nat.le_antisymm hL hge
      subst hLeq
      rw [List.take_length] at h hfl
      rw [trimBlock_none_of_firstLine_eq _ _ hfl] at h
      simp at h
  · have hgt : number.length < L := by omega
    have htk : (number ++ c0 :: r0).take L = number ++ c0 :: r0.take (L - number.length - 1) := by
      have he : L = number.length + (L - number.length) := by omega
      conv_lhs => rw [he]
      rw [take_append_add]
      have hm1 : L - number.length = (L - number.length - 1) + 1 := by omega
      rw [hm1, List.take_succ_cons]
      have hm2 : L - number.length - 1 + 1 - 1 = L - number.length - 1 := by omega
      rw [hm2]
    rw [htk, pyStrip_append_num _ _ hn] at h
    by_cases hT : pyRStrip pyIsSpace (c0 :: r0.take (L - number.length - 1)) = []
    · rw [hT, List.append_nil] at h
      rw [trimBlock_none_of_firstLine_eq _ _ (firstLine_num_self number hn)] at h
      simp at h
    · obtain ⟨hTc, hT1ne⟩ := pyRStrip_ws_cons_shape c0 _ hc0 hT
      rw [hTc] at h
      by_cases hcNl : c0 = '\n'
      · have hfl : pyStrip ((splitNl (number ++
            c0 :: pyRStrip pyIsSpace (r0.take (L - number.length - 1)))).headD []) = number := by
          rw [firstLine_append_num _ _ hn, List.takeWhile_cons, if_neg (by simp [hcNl])]
          simp [pyRStrip]
        rw [trimBlock_none_of_firstLine_eq _ _ hfl] at h
        simp at h
      · have hflA : pyStrip ((splitNl (number ++
            c0 :: pyRStrip pyIsSpace (r0.take (L - number.length - 1)))).headD []) =
            number ++ pyRStrip pyIsSpace
              (c0 :: (pyRStrip pyIsSpace (r0.take (L - number.length - 1))).takeWhile
                (fun c => !decide (c = '\n'))) := by
          rw [firstLine_append_num _ _ hn, List.takeWhile_cons, if_pos (by simp [hcNl])]
        by_cases hV : pyRStrip pyIsSpace
            (c0 :: (pyRStrip pyIsSpace (r0.take (L - number.length - 1))).takeWhile
              (fun c => !decide (c = '\n'))) = []
        · rw [hV, List.append_nil] at hflA
          rw [trimBlock_none_of_firstLine_eq _ _ hflA] at h
          simp at h
        · obtain ⟨hVc, hV1ne⟩ := pyRStrip_ws_cons_shape c0 _ hc0 hV
          rw [hVc] at hflA
          by_cases hsp : c0 = ' '
          · subst hsp
            rw [trimBlock_some_of_space _ _ _ hflA (strStartsWith_append _ _)] at h
            exact ⟨pyRStrip pyIsSpace (r0.take (L - number.length - 1)), by
              have := h.symm
              simpa using this⟩
          · rw [trimBlock_none_of_firstLine_badws _ _ c0 _ hsp hflA] at h
            simp at h

theorem lastIdxOf_snoc (p : Char → Bool) (c : Char) (hc : p c = true) :
    ∀ l : Str, lastIdxOf p (l ++ [c]) = some l.length := by
  intro l
  induction l with
  | nil => simp [lastIdxOf, hc]
  | cons d rest ih =>
    rw [List.cons_append, lastIdxOf, ih]
    rfl

theorem computeLineStart_marker (content : Str) (m : Marker) (hwf : MarkerWf content m) :
    computeLineStart content m.pos m.num = some m.pos := by
  obtain ⟨h1, hnl, ⟨c, r, hdrop, hws⟩, hshape⟩ := hwf
  have hposlt : m.pos < content.length := by
    have := congrArg List.length hdrop
    rw [List.length_drop] at this
    simp only [List.length_append, List.length_cons] at this
    omega
  have htake : content.take m.pos = content.take (m.pos - 1) ++ ['\n'] := by
    have he : m.pos = (m.pos - 1) + 1 := by omega
    conv_lhs => rw [he]
    rw [List.take_succ]
    have h2 : content[m.pos - 1]? = some '\n' := by
      rw [← List.get?_eq_getElem?]
      exact hnl
    rw [h2]
    rfl
  have hls : lineStartBefore content m.pos = m.pos := by
    rw [lineStartBefore]
    have hsl : pySlice content 0 m.pos = content.take m.pos := by
      rw [pySlice, List.drop_zero, Nat.sub_zero]
    rw [hsl, htake, lastIdxOf_snoc _ _ (by decide)]
    simp only [List.length_take]
    have : min (m.pos - 1) content.length = m.pos - 1 := by omega
    rw [this]
    omega
  rw [computeLineStart, hls]
  have hlw : pySlice content m.pos (m.pos + m.num.length + 10) =
      m.num ++ (c :: r).take 10 := by
    rw [pySlice, hdrop]
    have : m.pos + m.num.length + 10 - m.pos = m.num.length + 10 := by omega
    rw [this, take_append_add]
  rw [hlw, pyStrip_append_num _ _ hshape,
    strStartsWith_append m.num (pyRStrip pyIsSpace ((c :: r).take 10)), if_pos rfl]

theorem addProc_mem_self (l : List Str) (n : Str) : n ∈ addProc l n := by
  rw [addProc]
  by_cases hc : l.contains n = true
  · rw [if_pos hc]
    exact (contains_mem l n).mp hc
  · rw [if_neg hc]
    simp

theorem addProc_subset (l : List Str) (n x : Str) (h : x ∈ l) : x ∈ addProc l n := by
  rw [addProc]
  by_cases hc : l.contains n = true
  · rw [if_pos hc]; exact h
  · rw [if_neg hc]; simp [h]

theorem nearestPointScan_mem (content : Str) (points : List Marker)
    (relPos sectionStart : Nat) (relSection : Str) (m : Marker)
    (h : nearestPointScan content points relPos sectionStart relSection = some m) :
    m ∈ points := by
  rw [nearestPointScan] at h
  suffices haux : ∀ (ps : List Marker) (acc : Option Marker),
      ps.foldl (fun acc mk =>
        if mk.pos ≤ relPos ∧ sectionStart ≤ mk.pos ∧
            pointSectionAt content mk.pos = relSection then
          match acc with
          | none => some mk
          | some b => if mk.pos > b.pos then some mk else acc
        else acc) acc = some m → acc = some m ∨ m ∈ ps by
    rcases haux points none h with h1 | h1
    · simp at h1
    · exact h1
  intro ps
  induction ps with
  | nil => intro acc h2; exact Or.inl h2
  | cons x ps ih =>
    intro acc h2
    rw [List.foldl_cons] at h2
    rcases ih _ h2 with h1 | h1
    · by_cases hc : x.pos ≤ relPos ∧ sectionStart ≤ x.pos ∧
          pointSectionAt content x.pos = relSection
      · rw [if_pos hc] at h1
        cases acc with
        | none =>
          have hx : x = m := by simpa using h1
          exact Or.inr (by simp [hx])
        | some b =>
          dsimp only at h1
          by_cases hgt : x.pos > b.pos
          · rw [if_pos hgt] at h1
            have hx : x = m := by simpa using h1
            exact Or.inr (by simp [hx])
          · rw [if_neg hgt] at h1
            exact Or.inl h1
      · rw [if_neg hc] at h1
        exact Or.inl h1
    · exact Or.inr (by simp [h1])

theorem coronaSubScan_mem (content : Str) (points : List Marker)
    (numberStart sectionEnd : Nat) (relSection number : Str)
    (pointLevel relPos : Nat) (m : Marker)
    (h : (coronaSubScan content points numberStart sectionEnd relSection number
      pointLevel relPos).1 = some m) : m ∈ points := by
  rw [coronaSubScan] at h
  suffices haux : ∀ (ps : List Marker) (acc : Option Marker × Nat),
      (ps.foldl (fun (acc : Option Marker × Nat) mk =>
        if numberStart < mk.pos ∧ mk.pos < sectionEnd then
          let mNum := pyStrip mk.num
          let mLvl := numLevel mNum
          if pointSectionAt content mk.pos = relSection then
            if mLvl ≤ pointLevel then
              (acc.1, if acc.2 = sectionEnd ∨ mk.pos < acc.2 then mk.pos else acc.2)
            else
              if extendsNum mNum number ∧ mk.pos ≤ relPos then
                (match acc.1 with
                 | none => some mk
                 | some b => if mk.pos > b.pos then some mk else acc.1, acc.2)
              else acc
          else acc
        else acc) acc).1 = some m → acc.1 = some m ∨ m ∈ ps by
    rcases haux points (none, sectionEnd) h with h1 | h1
    · simp at h1
    · exact h1
  intro ps
  induction ps with
  | nil => intro acc h2; exact Or.inl h2
  | cons x ps ih =>
    intro acc h2
    rw [List.foldl_cons] at h2
    rcases ih _ h2 with h1 | h1
    · by_cases hc : numberStart < x.pos ∧ x.pos < sectionEnd
      · rw [if_pos hc] at h1
        dsimp only at h1
        by_cases hsec : pointSectionAt content x.pos = relSection
        · rw [if_pos hsec] at h1
          by_cases hlvl : numLevel (pyStrip x.num) ≤ pointLevel
          · rw [if_pos hlvl] at h1
            exact Or.inl h1
          · rw [if_neg hlvl] at h1
            by_cases hext : extendsNum (pyStrip x.num) number ∧ x.pos ≤ relPos
            · rw [if_pos hext] at h1
              dsimp only at h1
              cases hacc : acc.1 with
              | none =>
                rw [hacc] at h1
                have hx : x = m := by simpa using h1
                exact Or.inr (by simp [hx])
              | some b =>
                rw [hacc] at h1
                dsimp only at h1
                by_cases hgt : x.pos > b.pos
                · rw [if_pos hgt] at h1
                  have hx : x = m := by simpa using h1
                  exact Or.inr (by simp [hx])
                · rw [if_neg hgt] at h1
                  exact Or.inl h1
            · rw [if_neg hext] at h1
              exact Or.inl h1
        · rw [if_neg hsec] at h1
          exact Or.inl h1
      · rw [if_neg hc] at h1
        exact Or.inl h1
    · exact Or.inr (by simp [h1])

theorem intlPrescan_mem (content : Str) (points : List Marker)
    (relPos sectionStart sectionEnd : Nat) (relSection : Str) (m : Marker)
    (h : intlPrescan content points relPos sectionStart sectionEnd relSection = some m) :
    m ∈ points := by
  rw [intlPrescan] at h
  suffices haux : ∀ (ps : List Marker) (acc : Option Marker),
      ps.foldl (fun acc mk =>
        let mNum := pyStrip mk.num
        let mLvl := numLevel mNum
        if mLvl > 1 ∧ sectionStart ≤ mk.pos ∧ mk.pos < sectionEnd ∧
            pointSectionAt content mk.pos = relSection then
          let spEnd := prescanSubpointEnd content points sectionEnd relSection mk.pos mLvl
          if mk.pos ≤ relPos ∧ relPos < spEnd then
            match acc with
            | none => some mk
            | some b => if mk.pos > b.pos then some mk else acc
          else acc
        else acc) acc = some m → acc = some m ∨ m ∈ ps by
    rcases haux points none h with h1 | h1
    · simp at h1
    · exact h1
  intro ps
  induction ps with
  | nil => intro acc h2; exact Or.inl h2
  | cons x ps ih =>
    intro acc h2
    rw [List.foldl_cons] at h2
    rcases ih _ h2 with h1 | h1
    · by_cases hc : numLevel (pyStrip x.num) > 1 ∧ sectionStart ≤ x.pos ∧
          x.pos < sectionEnd ∧ pointSectionAt content x.pos = relSection
      · rw [if_pos hc] at h1
        dsimp only at h1
        by_cases hin : x.pos ≤ relPos ∧ relPos < prescanSubpointEnd content points
            sectionEnd relSection x.pos (numLevel (pyStrip x.num))
        · rw [if_pos hin] at h1
          cases acc with
          | none =>
            have hx : x = m := by simpa using h1
            exact Or.inr (by simp [hx])
          | some b =>
            dsimp only at h1
            by_cases hgt : x.pos > b.pos
            · rw [if_pos hgt] at h1
              have hx : x = m := by simpa using h1
              exact Or.inr (by simp [hx])
            · rw [if_neg hgt] at h1
              exact Or.inl h1
        · rw [if_neg hin] at h1
          exact Or.inl h1
      · rw [if_neg hc] at h1
        exact Or.inl h1
    · exact Or.inr (by simp [h1])

theorem emitBlock_ok (content doc : Str) (w ph : List Str) (maxF : Nat)
    (number : Str) (start endPos sectionStart : Nat) (st : CState)
    (fr0 : List Fragment) (p0 : List Str)
    (hn : NumShape number) (c0 : Char) (r0 : Str)
    (hdrop : content.drop start = number ++ c0 :: r0) (hws : pyIsSpace c0 = true)
    (hfr : st.fragments = fr0)
    (hsub : ∀ x ∈ p0, x ∈ st.processed)
    (hnotin : number ∉ p0) :
    StepOkC doc w ph maxF { fragments := fr0, processed := p0 }
      (emitBlock content doc w ph maxF number start endPos sectionStart st) := by
  have hsl : pySlice content start endPos = (number ++ c0 :: r0).take (endPos - start) := by
    rw [pySlice, hdrop]
  rw [emitBlock, hsl]
  by_cases hss : start < sectionStart
  · rw [if_pos hss]
    exact ⟨hsub, Or.inl hfr⟩
  · rw [if_neg hss]
    dsimp only
    cases hfh : firstHashHeader (pyStrip ((number ++ c0 :: r0).take (endPos - start))) with
    | some p =>
      by_cases hp : p > 0
      · rw [if_pos (by simpa using hp)]
        exact ⟨hsub, Or.inl hfr⟩
      · rw [if_neg (by simpa using hp)]
        cases htrim : trimBlock number (pyStrip ((number ++ c0 :: r0).take (endPos - start))) with
        | none => exact ⟨hsub, Or.inl hfr⟩
        | some bt =>
          obtain ⟨t, hbt⟩ := trimBlock_marker number hn c0 hws r0 _ bt htrim
          split
          · exact ⟨hsub, Or.inl hfr⟩
          rename_i b2 heq
          injection heq with hbb
          subst hbb
          by_cases hrel : (!hasSearchWordIn w ph (pyLower bt)) = true
          · rw [if_pos hrel]
            exact ⟨hsub, Or.inl hfr⟩
          · rw [if_neg hrel]
            have hrel2 : hasSearchWordIn w ph (pyLower bt) = true := by
              simpa using hrel
            by_cases hcap : st.fragments.length + 1 ≥ maxF
            · rw [if_pos (by simpa using hcap)]
              refine ⟨fun x hx => addProc_subset _ _ _ (hsub x hx), ?_⟩
              refine ⟨_, by rw [hfr], ⟨rfl, hrel2, fun _ => ?_⟩, by simpa using hcap⟩
              refine ⟨by rw [hbt]; exact strStartsWith_append number (' ' :: t), ?_, hnotin,
                addProc_mem_self _ _⟩
              rw [hbt]
              exact leadTok_exact number ' ' t hn (by decide)
            · rw [if_neg (by simpa using hcap)]
              refine ⟨fun x hx => addProc_subset _ _ _ (hsub x hx), Or.inr ?_⟩
              refine ⟨_, by rw [hfr], ⟨rfl, hrel2, fun _ => ?_⟩, by simpa using hcap⟩
              refine ⟨by rw [hbt]; exact strStartsWith_append number (' ' :: t), ?_, hnotin,
                addProc_mem_self _ _⟩
              rw [hbt]
              exact leadTok_exact number ' ' t hn (by decide)
    | none =>
      rw [if_neg (by simp)]
      cases htrim : trimBlock number (pyStrip ((number ++ c0 :: r0).take (endPos - start))) with
      | none => exact ⟨hsub, Or.inl hfr⟩
      | some bt =>
        obtain ⟨t, hbt⟩ := trimBlock_marker number hn c0 hws r0 _ bt htrim
        split
        · exact ⟨hsub, Or.inl hfr⟩
        rename_i b2 heq
        injection heq with hbb
        subst hbb
        by_cases hrel : (!hasSearchWordIn w ph (pyLower bt)) = true
        · rw [if_pos hrel]
          exact ⟨hsub, Or.inl hfr⟩
        · rw [if_neg hrel]
          have hrel2 : hasSearchWordIn w ph (pyLower bt) = true := by
            simpa using hrel
          by_cases hcap : st.fragments.length + 1 ≥ maxF
          · rw [if_pos (by simpa using hcap)]
            refine ⟨fun x hx => addProc_subset _ _ _ (hsub x hx), ?_⟩
            refine ⟨_, by rw [hfr], ⟨rfl, hrel2, fun _ => ?_⟩, by simpa using hcap⟩
            refine ⟨by rw [hbt]; exact strStartsWith_append number (' ' :: t), ?_, hnotin,
              addProc_mem_self _ _⟩
            rw [hbt]
            exact leadTok_exact number ' ' t hn (by decide)
          · rw [if_neg (by simpa using hcap)]
            refine ⟨fun x hx => addProc_subset _ _ _ (hsub x hx), Or.inr ?_⟩
            refine ⟨_, by rw [hfr], ⟨rfl, hrel2, fun _ => ?_⟩, by simpa using hcap⟩
            refine ⟨by rw [hbt]; exact strStartsWith_append number (' ' :: t), ?_, hnotin,
              addProc_mem_self _ _⟩
            rw [hbt]
            exact leadTok_exact number ' ' t hn (by decide)

theorem stepCorona_ok (content doc : Str) (points : List Marker)
    (w ph : List Str) (maxF : Nat) (st : CState) (relPos : Nat)
    (hwf : ∀ m ∈ points, MarkerWf content m) :
    StepOkC doc w ph maxF st (stepCorona content doc points w ph maxF st relPos) := by
  rw [stepCorona]
  split
  rename_i relSection sectionStart sectionEnd hsi
  split
  · exact ⟨fun x hx => hx, Or.inl rfl⟩
  rename_i nearest hns
  dsimp only
  split
  · exact ⟨fun x hx => hx, Or.inl rfl⟩
  rename_i hcont1
  split
  · exact ⟨fun x hx => addProc_subset _ _ _ hx, Or.inl rfl⟩
  rename_i hnotsub
  have hnmem := nearestPointScan_mem content points relPos sectionStart relSection nearest hns
  obtain ⟨hge1, hnl1, ⟨c1, r1, hdrop1, hws1⟩, hshape1⟩ := hwf nearest hnmem
  have hstrip1 : pyStrip nearest.num = nearest.num := numShape_pyStrip _ hshape1
  have hcm : computeLineStart content nearest.pos nearest.num = some nearest.pos :=
    computeLineStart_marker content nearest ⟨hge1, hnl1, ⟨c1, r1, hdrop1, hws1⟩, hshape1⟩
  cases hfs : (coronaSubScan content points nearest.pos sectionEnd relSection
      (pyStrip nearest.num) (numLevel (pyStrip nearest.num)) relPos).1 with
  | none =>
    dsimp only
    split
    · exact ⟨fun x hx => hx, Or.inl rfl⟩
    rename_i hcont2
    split
    · exact ⟨fun x hx => hx, Or.inl rfl⟩
    rename_i start hcls
    rw [hstrip1] at hcls
    rw [hcm] at hcls
    injection hcls with hse
    subst hse
    rw [hstrip1]
    have hnotin2 : nearest.num ∉ st.processed := fun hmem =>
      hcont1 (by rw [hstrip1]; exact (contains_mem _ _).mpr hmem)
    exact emitBlock_ok content doc w ph maxF nearest.num nearest.pos _ sectionStart
      _ st.fragments st.processed hshape1 c1 r1 hdrop1 hws1 rfl (fun x hx => hx) hnotin2
  | some fs =>
    dsimp only
    split
    · exact ⟨fun x hx => addProc_subset _ _ _ hx, Or.inl rfl⟩
    rename_i hcont2
    split
    · exact ⟨fun x hx => addProc_subset _ _ _ hx, Or.inl rfl⟩
    rename_i start hcls
    obtain ⟨hge2, hnl2, ⟨c2, r2, hdrop2, hws2⟩, hshape2⟩ :=
      hwf fs (coronaSubScan_mem content points nearest.pos sectionEnd relSection
        (pyStrip nearest.num) (numLevel (pyStrip nearest.num)) relPos fs hfs)
    have hstrip2 : pyStrip fs.num = fs.num := numShape_pyStrip _ hshape2
    have hcm2 : computeLineStart content fs.pos fs.num = some fs.pos :=
      computeLineStart_marker content fs ⟨hge2, hnl2, ⟨c2, r2, hdrop2, hws2⟩, hshape2⟩
    rw [hstrip2] at hcls
    rw [hcm2] at hcls
    injection hcls with hse
    subst hse
    rw [hstrip2]
    have hnotin2 : fs.num ∉ st.processed := by
      intro hmem
      apply hcont2
      rw [hstrip2]
      exact (contains_mem _ _).mpr (addProc_subset _ _ _ hmem)
    exact emitBlock_ok content doc w ph maxF fs.num fs.pos _ sectionStart
      _ st.fragments st.processed hshape2 c2 r2 hdrop2 hws2 rfl
      (fun x hx => addProc_subset _ _ _ hx) hnotin2

theorem intlEmit_ok (content doc : Str) (points : List Marker)
    (w ph : List Str) (maxF : Nat) (m : Marker)
    (relSection : Str) (sectionStart sectionEnd : Nat) (st : CState)
    (fr0 : List Fragment) (p0 : List Str)
    (hshape : NumShape m.num) (hge : 1 ≤ m.pos)
    (hnl : charAt content (m.pos - 1) = some '\n')
    (c0 : Char) (r0 : Str) (hdrop : content.drop m.pos = m.num ++ c0 :: r0)
    (hws : pyIsSpace c0 = true)
    (hfr : st.fragments = fr0)
    (hsub : ∀ x ∈ p0, x ∈ st.processed)
    (hnotin : m.num ∉ p0) :
    StepOkC doc w ph maxF { fragments := fr0, processed := p0 }
      (intlEmit content doc points w ph maxF m.num m.pos relSection
        sectionStart sectionEnd st) := by
  rw [intlEmit]
  split
  · exact ⟨hsub, Or.inl hfr⟩
  rename_i start hcls
  rw [computeLineStart_marker content m ⟨hge, hnl, ⟨c0, r0, hdrop, hws⟩, hshape⟩] at hcls
  injection hcls with hse
  subst hse
  exact emitBlock_ok content doc w ph maxF m.num m.pos _ sectionStart
    st fr0 p0 hshape c0 r0 hdrop hws hfr hsub hnotin

theorem stepIntl_ok (content doc : Str) (points : List Marker)
    (w ph : List Str) (maxF : Nat) (st : CState) (relPos : Nat)
    (hwf : ∀ m ∈ points, MarkerWf content m) :
    StepOkC doc w ph maxF st (stepIntl content doc points w ph maxF st relPos) := by
  rw [stepIntl]
  split
  rename_i relSection sectionStart sectionEnd hsi
  split
  · rename_i fsr hps
    dsimp only
    split
    · exact ⟨fun x hx => hx, Or.inl rfl⟩
    rename_i hcont1
    split
    · exact ⟨fun x hx => addProc_subset _ _ _ hx, Or.inl rfl⟩
    rename_i hcont2
    obtain ⟨hge1, hnl1, ⟨c1, r1, hdrop1, hws1⟩, hshape1⟩ :=
      hwf fsr (intlPrescan_mem content points relPos sectionStart sectionEnd relSection fsr hps)
    have hstrip1 : pyStrip fsr.num = fsr.num := numShape_pyStrip _ hshape1
    rw [hstrip1]
    have hnotin2 : fsr.num ∉ st.processed := by
      intro hmem
      apply hcont1
      rw [hstrip1]
      exact (contains_mem _ _).mpr hmem
    exact intlEmit_ok content doc points w ph maxF fsr relSection sectionStart sectionEnd
      _ st.fragments st.processed hshape1 hge1 hnl1 c1 r1 hdrop1 hws1 rfl
      (fun x hx => addProc_subset _ _ _ hx) hnotin2
  · rename_i hpsn
    split
    · exact ⟨fun x hx => hx, Or.inl rfl⟩
    rename_i nearest hns
    dsimp only
    split
    · exact ⟨fun x hx => hx, Or.inl rfl⟩
    rename_i hcont1
    split
    · exact ⟨fun x hx => addProc_subset _ _ _ hx, Or.inl rfl⟩
    rename_i hnotsub
    obtain ⟨hge1, hnl1, ⟨c1, r1, hdrop1, hws1⟩, hshape1⟩ :=
      hwf nearest (nearestPointScan_mem content points relPos sectionStart relSection nearest hns)
    have hstrip1 : pyStrip nearest.num = nearest.num := numShape_pyStrip _ hshape1
    rw [hstrip1]
    have hnotin2 : nearest.num ∉ st.processed := by
      intro hmem
      apply hcont1
      rw [hstrip1]
      exact (contains_mem _ _).mpr hmem
    exact intlEmit_ok content doc points w ph maxF nearest relSection sectionStart sectionEnd
      st st.fragments st.processed hshape1 hge1 hnl1 c1 r1 hdrop1 hws1 rfl
      (fun x hx => hx) hnotin2

theorem techStaleEval_sound (w ph : List Str) (s : Nat) (bt btl : Str)
    (staleHas : Option Bool) (has2 : Bool)
    (hinv2 : staleHas = some true → hasSearchWordIn w ph btl = true)
    (heval : techStaleEval w ph (some (s, bt, btl)) staleHas = some has2)
    (h2 : has2 = true) : hasSearchWordIn w ph btl = true := by
  rw [techStaleEval] at heval
  cases hw : w.isEmpty with
  | true =>
    rw [if_pos hw] at heval
    cases hp : ph.isEmpty with
    | true =>
      rw [if_pos hp] at heval
      exact hinv2 (by rw [heval, h2])
    | false =>
      rw [if_neg (show ¬(ph.isEmpty = true) by simp [hp])] at heval
      cases hsh : staleHas with
      | none => rw [hsh] at heval; simp at heval
      | some b =>
        rw [hsh] at heval
        have hb : (b || ph.all (fun p => containsSub btl p)) = has2 := Option.some.inj heval
        rw [h2] at hb
        rcases Bool.or_eq_true_iff.mp hb with hb1 | hb1
        · exact hinv2 (by rw [hsh, hb1])
        · rw [hasSearchWordIn, hb1, hp]
          simp
  | false =>
    rw [if_neg (show ¬(w.isEmpty = true) by simp [hw])] at heval
    cases hp : ph.isEmpty with
    | true =>
      rw [if_pos hp] at heval
      have hb : (w.any (fun wd => containsSub btl wd)) = has2 := Option.some.inj heval
      rw [h2] at hb
      rw [hasSearchWordIn, hb]
      simp
    | false =>
      rw [if_neg (show ¬(ph.isEmpty = true) by simp [hp])] at heval
      have hb : ((w.any (fun wd => containsSub btl wd)) ||
          ph.all (fun p => containsSub btl p)) = has2 := Option.some.inj heval
      rw [h2] at hb
      rcases Bool.or_eq_true_iff.mp hb with hb1 | hb1
      · rw [hasSearchWordIn, hb1]
        simp
      · rw [hasSearchWordIn, hb1, hp]
        simp

theorem stepTech_ok (content doc : Str) (points : List Marker)
    (w ph : List Str) (maxF : Nat) (st : TState) (relPos : Nat)
    (hinv : TStaleInv w ph st) :
    StepOkT doc w ph st (stepTech content doc points w ph maxF st relPos) ∧
      TNext w ph (stepTech content doc points w ph maxF st relPos) := by
  rw [stepTech]
  split
  rename_i relSection sectionStart sectionEnd hsi
  split
  · split
    · exact ⟨⟨rfl, Or.inl rfl⟩, hinv⟩
    rename_i m hfb
    dsimp only
    split
    · split
      · rename_i hW
        refine ⟨⟨rfl, Or.inr ⟨_, rfl, rfl, rfl, hW⟩⟩, ?_, ?_⟩
        · intro s2 bt2 btl2 hst
          simp only [Option.some.injEq, Prod.mk.injEq] at hst
          rw [← hst.2.2, ← hst.2.1]
        · intro s2 bt2 btl2 hst hh
          simp only [Option.some.injEq, Prod.mk.injEq] at hst
          rw [← hst.2.2]
          exact (Option.some.inj hh) ▸ hW
      · rename_i hWf
        refine ⟨⟨rfl, Or.inl rfl⟩, ?_, ?_⟩
        · intro s2 bt2 btl2 hst
          simp only [Option.some.injEq, Prod.mk.injEq] at hst
          rw [← hst.2.2, ← hst.2.1]
        · intro s2 bt2 btl2 hst hh
          exact absurd ((Option.some.inj hh) : _ = true) hWf
    · split
      · rename_i hW
        refine ⟨⟨rfl, Or.inr ⟨_, rfl, rfl, rfl, hW⟩⟩, ?_, ?_⟩
        · intro s2 bt2 btl2 hst
          simp only [Option.some.injEq, Prod.mk.injEq] at hst
          rw [← hst.2.2, ← hst.2.1]
        · intro s2 bt2 btl2 hst hh
          simp only [Option.some.injEq, Prod.mk.injEq] at hst
          rw [← hst.2.2]
          exact (Option.some.inj hh) ▸ hW
      · rename_i hWf
        refine ⟨⟨rfl, Or.inl rfl⟩, ?_, ?_⟩
        · intro s2 bt2 btl2 hst
          simp only [Option.some.injEq, Prod.mk.injEq] at hst
          rw [← hst.2.2, ← hst.2.1]
        · intro s2 bt2 btl2 hst hh
          exact absurd ((Option.some.inj hh) : _ = true) hWf
  · rename_i nearest hnr
    dsimp only
    split
    · exact ⟨⟨rfl, Or.inl rfl⟩, hinv⟩
    rename_i hcont
    by_cases hend : strEndsWith
        (pyStrip (pySlice content nearest.pos (lineEndAfter content nearest.pos))) ['.'] = true
    · rw [if_pos hend]
      dsimp only
      split
      · exact ⟨trivial, trivial⟩
      rename_i has2 heval
      split
      · rename_i hh2
        have hrel : hasSearchWordIn w ph (pyLower (pyStrip (pySlice content
            (sectionContentStart content relPos sectionStart)
            (techSiteCListEnd content sectionEnd relSection points
              nearest.pos sectionEnd)))) = true :=
          techStaleEval_sound w ph _ _ _ (some false) has2
            (fun hcontra => absurd (Option.some.inj hcontra) (by simp)) heval hh2
        split
        · exact ⟨⟨rfl, Or.inr ⟨_, rfl, rfl, rfl, hrel⟩⟩, trivial⟩
        · refine ⟨⟨rfl, Or.inr ⟨_, rfl, rfl, rfl, hrel⟩⟩, ?_, ?_⟩
          · intro s2 bt2 btl2 hst
            simp only [Option.some.injEq, Prod.mk.injEq] at hst
            rw [← hst.2.2, ← hst.2.1]
          · intro s2 bt2 btl2 hst hh
            simp only [Option.some.injEq, Prod.mk.injEq] at hst
            rw [← hst.2.2]
            exact hrel
      · rename_i hh2
        have hh2f : has2 = false := by
          cases has2 with
          | false => rfl
          | true => exact absurd rfl hh2
        split
        · exact ⟨⟨rfl, Or.inl rfl⟩, trivial⟩
        · refine ⟨⟨rfl, Or.inl rfl⟩, ?_, ?_⟩
          · intro s2 bt2 btl2 hst
            simp only [Option.some.injEq, Prod.mk.injEq] at hst
            rw [← hst.2.2, ← hst.2.1]
          · intro s2 bt2 btl2 hst hh
            exact absurd (Option.some.inj hh) (by rw [hh2f]; simp)
    · rw [if_neg hend]
      split
      · exact ⟨trivial, trivial⟩
      rename_i has2 heval
      split
      · rename_i hh2
        split
        · exact ⟨trivial, trivial⟩
        rename_i start2 bt2 btl2 hst
        have hbtl : btl2 = pyLower bt2 := hinv.1 _ _ _ hst
        rw [hst] at heval
        have hrel : hasSearchWordIn w ph (pyLower bt2) = true := by
          rw [← hbtl]
          exact techStaleEval_sound w ph start2 bt2 btl2 st.staleHas has2
            (hinv.2 _ _ _ hst) heval hh2
        split
        · exact ⟨⟨rfl, Or.inr ⟨_, rfl, rfl, rfl, hrel⟩⟩, trivial⟩
        · refine ⟨⟨rfl, Or.inr ⟨_, rfl, rfl, rfl, hrel⟩⟩, ?_, ?_⟩
          · exact hinv.1
          · intro s3 bt3 btl3 hst2 hh
            dsimp only at hst2
            rw [hst] at hst2
            simp only [Option.some.injEq, Prod.mk.injEq] at hst2
            rw [← hst2.2.2, hbtl]
            exact hrel
      · rename_i hh2
        have hh2f : has2 = false := by
          cases has2 with
          | false => rfl
          | true => exact absurd rfl hh2
        split
        · exact ⟨⟨rfl, Or.inl rfl⟩, trivial⟩
        · refine ⟨⟨rfl, Or.inl rfl⟩, ?_, ?_⟩
          · exact hinv.1
          · intro s3 bt3 btl3 hst2 hh
            exact absurd (Option.some.inj hh) (by rw [hh2f]; simp)

theorem runPositions_c_ok (doc : Str) (w ph : List Str) (maxF : Nat)
    (step : CState → Nat → StepOut CState)
    (hstep : ∀ st p, StepOkC doc w ph maxF st (step st p)) :
    ∀ (ps : List Nat) (st st' : CState), runPositions step ps st = .ok st' →
      (∀ x ∈ st.processed, x ∈ st'.processed) ∧
      ∃ new, st'.fragments = st.fragments ++ new ∧
        (∀ f ∈ new, FragOk doc w ph f ∧
          (f.rule_number ≠ [] →
            f.rule_number ∈ st'.processed ∧ f.rule_number ∉ st.processed)) ∧
        new.Pairwise distinctRule ∧
        (st.fragments.length < maxF → st'.fragments.length ≤ maxF) := by
  intro ps
  induction ps with
  | nil =>
    intro st st' h
    rw [runPositions] at h
    have hse : st = st' := by simpa using h
    subst hse
    exact ⟨fun x hx => hx, [], by simp, by simp, List.Pairwise.nil,
      fun hl => Nat.le_of_lt hl⟩
  | cons p ps ih =>
    intro st st' h
    rw [runPositions] at h
    have hs := hstep st p
    cases hout : step st p with
    | cont st1 =>
      rw [hout] at h hs
      have h2 : runPositions step ps st1 = .ok st' := h
      obtain ⟨hsub1, hfe⟩ := hs
      obtain ⟨hsub2, new1, hfr2, hmem2, hpw2, hcap2⟩ := ih st1 st' h2
      rcases hfe with hsame | ⟨f, hap, hemit, hlen⟩
      · refine ⟨fun x hx => hsub2 x (hsub1 x hx), new1, by rw [hfr2, hsame], ?_, hpw2, ?_⟩
        · intro g hg
          refine ⟨(hmem2 g hg).1, fun hr => ⟨((hmem2 g hg).2 hr).1,
            fun hin => (((hmem2 g hg).2 hr).2) (hsub1 _ hin)⟩⟩
        · intro hl
          exact hcap2 (by rw [hsame]; exact hl)
      · obtain ⟨hsrc, hrel, hrule⟩ := hemit
        refine ⟨fun x hx => hsub2 x (hsub1 x hx), f :: new1, ?_, ?_, ?_, ?_⟩
        · rw [hfr2, hap, List.append_assoc]
          rfl
        · intro g hg
          rcases List.mem_cons.mp hg with hg | hg
          · subst hg
            exact ⟨⟨hsrc, hrel, fun hr => ⟨(hrule hr).1, (hrule hr).2.1⟩⟩,
              fun hr => ⟨hsub2 _ (hrule hr).2.2.2, (hrule hr).2.2.1⟩⟩
          · exact ⟨(hmem2 g hg).1, fun hr => ⟨((hmem2 g hg).2 hr).1,
              fun hin => ((hmem2 g hg).2 hr).2 (hsub1 _ hin)⟩⟩
        · refine List.pairwise_cons.mpr ⟨?_, hpw2⟩
          intro g hg hsrceq hfr hgr heq
          have h1 : f.rule_number ∈ st1.processed := (hrule hfr).2.2.2
          have hnot : g.rule_number ∉ st1.processed := ((hmem2 g hg).2 hgr).2
          rw [heq] at h1
          exact hnot h1
        · intro hl
          exact hcap2 hlen
    | halt st1 =>
      rw [hout] at h hs
      have h2 : (Except.ok st1 : Except Unit CState) = .ok st' := h
      have hse : st1 = st' := by simpa using h2
      subst hse
      obtain ⟨hsub1, f, hap, hemit, hge⟩ := hs
      obtain ⟨hsrc, hrel, hrule⟩ := hemit
      refine ⟨hsub1, [f], by rw [hap], ?_, List.pairwise_singleton _ _, ?_⟩
      · intro g hg
        have hgf : g = f := by simpa using hg
        subst hgf
        exact ⟨⟨hsrc, hrel, fun hr => ⟨(hrule hr).1, (hrule hr).2.1⟩⟩,
          fun hr => ⟨(hrule hr).2.2.2, (hrule hr).2.2.1⟩⟩
      · intro hl
        rw [hap]
        simp only [List.length_append, List.length_cons, List.length_nil]
        omega
    | err =>
      rw [hout] at h
      have h2 : (Except.error () : Except Unit CState) = .ok st' := h
      exact absurd h2 (by simp)

theorem runPositions_t_ok (doc : Str) (w ph : List Str)
    (step : TState → Nat → StepOut TState)
    (hstep : ∀ st p, TStaleInv w ph st →
      StepOkT doc w ph st (step st p) ∧ TNext w ph (step st p)) :
    ∀ (ps : List Nat) (st st' : TState), TStaleInv w ph st →
      runPositions step ps st = .ok st' →
      st'.base.processed = st.base.processed ∧
      ∃ new, st'.base.fragments = st.base.fragments ++ new ∧
        ∀ f ∈ new, TechEmitProp doc w ph f := by
  intro ps
  induction ps with
  | nil =>
    intro st st' hinv h
    rw [runPositions] at h
    have hse : st = st' := by simpa using h
    subst hse
    exact ⟨rfl, [], by simp, by simp⟩
  | cons p ps ih =>
    intro st st' hinv h
    rw [runPositions] at h
    have hs := hstep st p hinv
    cases hout : step st p with
    | cont st1 =>
      rw [hout] at h hs
      have h2 : runPositions step ps st1 = .ok st' := h
      obtain ⟨⟨hpe, hfe⟩, hnext⟩ := hs
      obtain ⟨hpe2, new1, hfr2, hmem2⟩ := ih st1 st' hnext h2
      rcases hfe with hsame | ⟨f, hap, hemit⟩
      · exact ⟨hpe2.trans hpe, new1, by rw [hfr2, hsame], hmem2⟩
      · refine ⟨hpe2.trans hpe, f :: new1, ?_, ?_⟩
        · rw [hfr2, hap, List.append_assoc]
          rfl
        · intro g hg
          rcases List.mem_cons.mp hg with hg | hg
          · subst hg; exact hemit
          · exact hmem2 g hg
    | halt st1 =>
      rw [hout] at h hs
      have h2 : (Except.ok st1 : Except Unit TState) = .ok st' := h
      have hse : st1 = st' := by simpa using h2
      subst hse
      obtain ⟨⟨hpe, hfe⟩, _⟩ := hs
      rcases hfe with hsame | ⟨f, hap, hemit⟩
      · exact ⟨hpe, [], by rw [hsame]; simp, by simp⟩
      · refine ⟨hpe, [f], by rw [hap], ?_⟩
        intro g hg
        have hgf : g = f := by simpa using hg
        subst hgf
        exact hemit
    | err =>
      rw [hout] at h
      have h2 : (Except.error () : Except Unit TState) = .ok st' := h
      exact absurd h2 (by simp)

theorem corona_collect_ok (content0 doc : Str) (w ph : List Str) (maxF : Nat)
    (fragments : List Fragment) (processed : List Str) (frags2 : List Fragment)
    (h : collect_fragments_corona_rules content0 doc w ph maxF fragments processed =
      .ok frags2) :
    ∃ new, frags2 = fragments ++ new ∧
      (∀ f ∈ new, FragOk doc w ph f) ∧ new.Pairwise distinctRule ∧
      (fragments.length < maxF → frags2.length ≤ maxF) := by
  rw [collect_fragments_corona_rules] at h
  by_cases hrp : relevantPositions (pyLower (prepNl content0)) w ph false = []
  · rw [if_pos hrp] at h
    have hfe : fragments = frags2 := by simpa using h
    subst hfe
    exact ⟨[], by simp, by simp, List.Pairwise.nil, fun hl => Nat.le_of_lt hl⟩
  · rw [if_neg hrp] at h
    dsimp only at h
    cases hrun : runPositions
        (stepCorona (prepNl content0) doc (scanPoints (prepNl content0)) w ph maxF)
        (relevantPositions (pyLower (prepNl content0)) w ph false)
        { fragments := fragments, processed := processed } with
    | error e => rw [hrun] at h; simp [Except.map] at h
    | ok st' =>
      rw [hrun] at h
      have hfe : st'.fragments = frags2 := by simpa [Except.map] using h
      obtain ⟨_, new, hfr, hmem, hpw, hcap⟩ := runPositions_c_ok doc w ph maxF _
        (fun st p => stepCorona_ok (prepNl content0) doc (scanPoints (prepNl content0))
          w ph maxF st p (scanPoints_wf _ (prepNl_head content0))) _ _ _ hrun
      exact ⟨new, by rw [← hfe, hfr], fun f hf => (hmem f hf).1, hpw,
        fun hl => by rw [← hfe]; exact hcap hl⟩

theorem intl_collect_ok (content0 doc : Str) (w ph : List Str) (maxF : Nat)
    (fragments : List Fragment) (processed : List Str) (frags2 : List Fragment)
    (h : collect_fragments_international_rules content0 doc w ph maxF fragments processed =
      .ok frags2) :
    ∃ new, frags2 = fragments ++ new ∧
      (∀ f ∈ new, FragOk doc w ph f) ∧ new.Pairwise distinctRule ∧
      (fragments.length < maxF → frags2.length ≤ maxF) := by
  rw [collect_fragments_international_rules] at h
  by_cases hrp : relevantPositions (pyLower (prepNl content0)) w ph true = []
  · rw [if_pos hrp] at h
    have hfe : fragments = frags2 := by simpa using h
    subst hfe
    exact ⟨[], by simp, by simp, List.Pairwise.nil, fun hl => Nat.le_of_lt hl⟩
  · rw [if_neg hrp] at h
    dsimp only at h
    cases hrun : runPositions
        (stepIntl (prepNl content0) doc (scanPoints (prepNl content0)) w ph maxF)
        (relevantPositions (pyLower (prepNl content0)) w ph true)
        { fragments := fragments, processed := processed } with
    | error e => rw [hrun] at h; simp [Except.map] at h
    | ok st' =>
      rw [hrun] at h
      have hfe : st'.fragments = frags2 := by simpa [Except.map] using h
      obtain ⟨_, new, hfr, hmem, hpw, hcap⟩ := runPositions_c_ok doc w ph maxF _
        (fun st p => stepIntl_ok (prepNl content0) doc (scanPoints (prepNl content0))
          w ph maxF st p (scanPoints_wf _ (prepNl_head content0))) _ _ _ hrun
      exact ⟨new, by rw [← hfe, hfr], fun f hf => (hmem f hf).1, hpw,
        fun hl => by rw [← hfe]; exact hcap hl⟩

theorem tech_collect_ok (content0 doc : Str) (w ph : List Str) (maxF : Nat)
    (fragments : List Fragment) (processed : List Str) (frags2 : List Fragment)
    (h : collect_fragments_technical_requirements content0 doc w ph maxF fragments
      processed = .ok frags2) :
    ∃ new, frags2 = fragments ++ new ∧ ∀ f ∈ new, TechEmitProp doc w ph f := by
  rw [collect_fragments_technical_requirements] at h
  by_cases hrp : relevantPositions (pyLower (prepNl content0)) w ph false = []
  · rw [if_pos hrp] at h
    have hfe : fragments = frags2 := by simpa using h
    subst hfe
    exact ⟨[], by simp, by simp⟩
  · rw [if_neg hrp] at h
    dsimp only at h
    cases hrun : runPositions
        (stepTech (prepNl content0) doc (scanPoints (prepNl content0)) w ph maxF)
        (relevantPositions (pyLower (prepNl content0)) w ph false)
        { base := { fragments := fragments, processed := processed },
          stale := none, staleHas := none } with
    | error e => rw [hrun] at h; simp [Except.map] at h
    | ok st' =>
      rw [hrun] at h
      have hfe : st'.base.fragments = frags2 := by simpa [Except.map] using h
      have hinv0 : TStaleInv w ph
          { base := { fragments := fragments, processed := processed },
            stale := none, staleHas := none } :=
        ⟨fun s bt btl hst => absurd hst (by simp),
         fun s bt btl hst _ => absurd hst (by simp)⟩
      obtain ⟨_, new, hfr, hmem⟩ := runPositions_t_ok doc w ph _
        (fun st p hinv => stepTech_ok (prepNl content0) doc (scanPoints (prepNl content0))
          w ph maxF st p hinv) _ _ _ hinv0 hrun
      exact ⟨new, by rw [← hfe, hfr], hmem⟩

theorem distinctRule_symm : Symmetric distinctRule := by
  intro f g h h1 h2 h3 heq
  exact h h1.symm h3 h2 heq.symm

theorem techEmitProp_fragOk (doc : Str) (w ph : List Str) (f : Fragment)
    (h : TechEmitProp doc w ph f) : FragOk doc w ph f :=
  ⟨h.1, h.2.2, fun hr => absurd h.2.1 hr⟩

theorem sort_and_return_perm (l : List Fragment) :
    (sort_and_return_fragments l).Perm l := stableSortBy_perm fragLe l

theorem collect_fragments_aux_master (store : Str → Option Str)
    (w ph : List Str) (maxF : Nat) :
    ∀ (docs : List Str) (fr out : List Fragment),
      collect_fragments_aux store w ph maxF docs fr = .ok out →
      (∀ f ∈ out, f ∈ fr ∨ (f.source ∈ ALLOWED_SOURCES ∧
        hasSearchWordIn w ph (pyLower f.text) = true ∧
        (f.rule_number ≠ [] → strStartsWith f.text f.rule_number = true ∧
          leadTok f.text = some f.rule_number))) ∧
      (TECHNICAL_REQUIREMENTS ∉ docs → fr.length < maxF → out.length ≤ maxF) ∧
      (docs.Nodup → (∀ f ∈ fr, f.source ∉ docs) → fr.Pairwise distinctRule →
        out.Pairwise distinctRule) := by
  intro docs
  induction docs with
  | nil =>
    intro fr out h
    rw [collect_fragments_aux] at h
    have hout : sort_and_return_fragments fr = out := by simpa using h
    have hperm : out.Perm fr := hout ▸ sort_and_return_perm fr
    refine ⟨fun f hf => Or.inl (hperm.mem_iff.mp hf), ?_, ?_⟩
    · intro _ hl
      rw [hperm.length_eq]
      exact Nat.le_of_lt hl
    · intro _ _ hpw
      exact (hperm.pairwise_iff (fun hab => distinctRule_symm hab)).mpr hpw
  | cons doc rest ih =>
    intro fr out h
    rw [collect_fragments_aux] at h
    cases hst : store doc with
    | none =>
      rw [hst] at h
      have h2 : collect_fragments_aux store w ph maxF rest fr = .ok out := h
      obtain ⟨hA, hB, hC⟩ := ih fr out h2
      refine ⟨hA, fun ht hl => hB (fun hm => ht (by simp [hm])) hl, ?_⟩
      intro hnd hsrc hpw
      exact hC (List.nodup_cons.mp hnd).2
        (fun f hf hm => hsrc f hf (by simp [hm])) hpw
    | some content =>
      rw [hst] at h
      by_cases hd : doc = TECHNICAL_REQUIREMENTS ∨ doc = CORONA_RULES ∨
          doc = INTERNATIONAL_RULES
      · have h2 : (if doc = TECHNICAL_REQUIREMENTS ∨ doc = CORONA_RULES ∨
            doc = INTERNATIONAL_RULES then
            (match (if doc = TECHNICAL_REQUIREMENTS then
                collect_fragments_technical_requirements content doc w ph maxF fr []
              else if doc = CORONA_RULES then
                collect_fragments_corona_rules content doc w ph maxF fr []
              else
                collect_fragments_international_rules content doc w ph maxF fr []) with
            | .error e => (.error e : Except Unit (List Fragment))
            | .ok fragments2 =>
              if fragments2.length ≥ maxF then .ok (sort_and_return_fragments fragments2)
              else collect_fragments_aux store w ph maxF rest fragments2)
          else collect_fragments_aux store w ph maxF rest fr) = .ok out := h
        rw [if_pos hd] at h2
        clear h
        have hdocAllowed : doc ∈ ALLOWED_SOURCES := by
          rcases hd with hd | hd | hd <;> (subst hd; simp [ALLOWED_SOURCES])
        have hcoll : ∀ fr2 : List Fragment,
            (if doc = TECHNICAL_REQUIREMENTS then
              collect_fragments_technical_requirements content doc w ph maxF fr []
            else if doc = CORONA_RULES then
              collect_fragments_corona_rules content doc w ph maxF fr []
            else
              collect_fragments_international_rules content doc w ph maxF fr []) = .ok fr2 →
            ∃ new, fr2 = fr ++ new ∧ (∀ f ∈ new, FragOk doc w ph f) ∧
              new.Pairwise distinctRule ∧
              (doc ≠ TECHNICAL_REQUIREMENTS → fr.length < maxF → fr2.length ≤ maxF) := by
          intro fr2 hres
          by_cases hT : doc = TECHNICAL_REQUIREMENTS
          · rw [if_pos hT] at hres
            obtain ⟨new, hfe, hmem⟩ := tech_collect_ok content doc w ph maxF fr [] fr2 hres
            exact ⟨new, hfe, fun f hf => techEmitProp_fragOk doc w ph f (hmem f hf),
              List.pairwise_iff_forall_sublist.mpr (fun {a b} hs => by
                have ha : a ∈ new := hs.subset (by simp)
                exact fun h1 h2 => absurd (hmem a ha).2.1 h2),
              fun hne => absurd hT hne⟩
          · rw [if_neg hT] at hres
            by_cases hCo : doc = CORONA_RULES
            · rw [if_pos hCo] at hres
              obtain ⟨new, hfe, hmem, hpw, hcap⟩ :=
                corona_collect_ok content doc w ph maxF fr [] fr2 hres
              exact ⟨new, hfe, hmem, hpw, fun _ => hcap⟩
            · rw [if_neg hCo] at hres
              obtain ⟨new, hfe, hmem, hpw, hcap⟩ :=
                intl_collect_ok content doc w ph maxF fr [] fr2 hres
              exact ⟨new, hfe, hmem, hpw, fun _ => hcap⟩
        cases hres : (if doc = TECHNICAL_REQUIREMENTS then
            collect_fragments_technical_requirements content doc w ph maxF fr []
          else if doc = CORONA_RULES then
            collect_fragments_corona_rules content doc w ph maxF fr []
          else
            collect_fragments_international_rules content doc w ph maxF fr []) with
        | error e =>
          rw [hres] at h2
          simp at h2
        | ok fr2 =>
          rw [hres] at h2
          have h3 : (if fr2.length ≥ maxF then
              (Except.ok (sort_and_return_fragments fr2) : Except Unit (List Fragment))
            else collect_fragments_aux store w ph maxF rest fr2) = .ok out := h2
          clear h2
          obtain ⟨new, hfe, hmem, hpw, hcap⟩ := hcoll fr2 hres
          have hmemP : ∀ f ∈ fr2, f ∈ fr ∨ (f.source ∈ ALLOWED_SOURCES ∧
              hasSearchWordIn w ph (pyLower f.text) = true ∧
              (f.rule_number ≠ [] → strStartsWith f.text f.rule_number = true ∧
                leadTok f.text = some f.rule_number)) := by
            intro f hf
            rw [hfe] at hf
            rcases List.mem_append.mp hf with hf | hf
            · exact Or.inl hf
            · obtain ⟨hs, hr, hc⟩ := hmem f hf
              exact Or.inr ⟨hs ▸ hdocAllowed, hr, hc⟩
          by_cases hcap2 : fr2.length ≥ maxF
          · rw [if_pos hcap2] at h3
            have hout : sort_and_return_fragments fr2 = out := by simpa using h3
            have hperm : out.Perm fr2 := hout ▸ sort_and_return_perm fr2
            refine ⟨fun f hf => hmemP f (hperm.mem_iff.mp hf), ?_, ?_⟩
            · intro ht hl
              rw [hperm.length_eq]
              exact hcap (fun hTe => ht (by simp [hTe])) hl
            · intro hnd hsrc hpw0
              refine (hperm.pairwise_iff (fun hab => distinctRule_symm hab)).mpr ?_
              rw [hfe]
              refine List.pairwise_append.mpr ⟨hpw0, hpw, ?_⟩
              intro a ha b hb hsrceq hr1 hr2
              have hsd : a.source ∈ doc :: rest := by
                rw [hsrceq.trans (hmem b hb).1]
                simp
              exact absurd hsd (hsrc a ha)
          · rw [if_neg hcap2] at h3
            obtain ⟨hA, hB, hC⟩ := ih fr2 out h3
            refine ⟨?_, ?_, ?_⟩
            · intro f hf
              rcases hA f hf with hf2 | hf2
              · exact hmemP f hf2
              · exact Or.inr hf2
            · intro ht hl
              refine hB (fun hm => ht (by simp [hm])) ?_
              omega
            · intro hnd hsrc hpw0
              refine hC (List.nodup_cons.mp hnd).2 ?_ ?_
              · intro f hf
                rw [hfe] at hf
                rcases List.mem_append.mp hf with hf | hf
                · exact fun hm => hsrc f hf (by simp [hm])
                · rw [(hmem f hf).1]
                  exact (List.nodup_cons.mp hnd).1
              · rw [hfe]
                refine List.pairwise_append.mpr ⟨hpw0, hpw, ?_⟩
                intro a ha b hb hsrceq hr1 hr2
                have hsd : a.source ∈ doc :: rest := by
                  rw [hsrceq.trans (hmem b hb).1]
                  simp
                exact absurd hsd (hsrc a ha)
      · have h2 : (if doc = TECHNICAL_REQUIREMENTS ∨ doc = CORONA_RULES ∨
            doc = INTERNATIONAL_RULES then
            (match (if doc = TECHNICAL_REQUIREMENTS then
                collect_fragments_technical_requirements content doc w ph maxF fr []
              else if doc = CORONA_RULES then
                collect_fragments_corona_rules content doc w ph maxF fr []
              else
                collect_fragments_international_rules content doc w ph maxF fr []) with
            | .error e => (.error e : Except Unit (List Fragment))
            | .ok fragments2 =>
              if fragments2.length ≥ maxF then .ok (sort_and_return_fragments fragments2)
              else collect_fragments_aux store w ph maxF rest fragments2)
          else collect_fragments_aux store w ph maxF rest fr) = .ok out := h
        rw [if_neg hd] at h2
        obtain ⟨hA, hB, hC⟩ := ih fr out h2
        refine ⟨hA, fun ht hl => hB (fun hm => ht (by simp [hm])) hl, ?_⟩
        intro hnd hsrc hpw
        exact hC (List.nodup_cons.mp hnd).2
          (fun f hf hm => hsrc f hf (by simp [hm])) hpw

theorem hasSearchWordIn_spec (w ph : List Str) (btl : Str)
    (h : hasSearchWordIn w ph btl = true) :
    (∃ wd ∈ w, containsSub btl wd = true) ∨
      (ph ≠ [] ∧ ∀ p ∈ ph, containsSub btl p = true) := by
  rw [hasSearchWordIn] at h
  rcases Bool.or_eq_true_iff.mp h with h1 | h1
  · exact Or.inl (by simpa using List.any_eq_true.mp h1)
  · rcases (Bool.and_eq_true _ _).mp h1 with ⟨he, ha⟩
    refine Or.inr ⟨by simpa using he, ?_⟩
    intro p hp
    exact List.all_eq_true.mp ha p hp

theorem get_primary_fragOk (store : Str → Option Str) (hits : List Str)
    (query : Option Str) (allowed : List Str) (maxF : Nat) (frags : List Fragment)
    (h : get_primary_source_fragments store hits query allowed maxF = .ok frags) :
    ∀ f ∈ frags, f.source ∈ ALLOWED_SOURCES ∧
      hasSearchWordIn (searchWordsOf (pyLower (query.getD [])))
        ((phrasesOf (pyLower (query.getD []))).filter (· ≠ [])) (pyLower f.text) = true ∧
      (f.rule_number ≠ [] → strStartsWith f.text f.rule_number = true ∧
        leadTok f.text = some f.rule_number) := by
  rw [get_primary_source_fragments] at h
  by_cases hc : collect_candidate_docs hits allowed (pyLower (query.getD [])) = []
  · rw [if_pos hc] at h
    have hfe : ([] : List Fragment) = frags := by simpa using h
    intro f hf
    rw [← hfe] at hf
    simp at hf
  · rw [if_neg hc] at h
    rw [collect_fragments] at h
    intro f hf
    rcases (collect_fragments_aux_master store _ _ maxF _ [] frags h).1 f hf with h0 | h0
    · simp at h0
    · exact h0

/-- Claim C9 (implicit): every fragment the extractor returns carries a
`source` drawn from the three structured documents of `ALLOWED_SOURCES`,
whatever the prior hits, the query and the `allowed_sources` argument are:
candidate documents outside the known set are skipped by the dispatch in
`_collect_fragments`, and each collector tags its fragments with its own
document. -/
theorem c9_source_membership (store : Str → Option Str) (hits : List Str)
    (query : Option Str) (allowed : List Str) (maxF : Nat) (frags : List Fragment)
    (h : get_primary_source_fragments store hits query allowed maxF = .ok frags) :
    ∀ f ∈ frags, f.source ∈ ALLOWED_SOURCES :=
  fun f hf => (get_primary_fragOk store hits query allowed maxF frags h f hf).1

/-- Claim C8: every returned fragment's text, lowered, contains at least one
of the query's derived search words, or the phrase list is non-empty and the
text contains every supplied phrase — the collectors discard any assembled
block failing the `any(word in text) or (phrases and all(...))` check. -/
theorem c8_relevance_filter (store : Str → Option Str) (hits : List Str)
    (query : Option Str) (allowed : List Str) (maxF : Nat) (frags : List Fragment)
    (h : get_primary_source_fragments store hits query allowed maxF = .ok frags) :
    ∀ f ∈ frags,
      (∃ wd ∈ searchWordsOf (pyLower (query.getD [])),
        containsSub (pyLower f.text) wd = true) ∨
      ((phrasesOf (pyLower (query.getD []))).filter (· ≠ []) ≠ [] ∧
        ∀ p ∈ (phrasesOf (pyLower (query.getD []))).filter (· ≠ []),
          containsSub (pyLower f.text) p = true) :=
  fun f hf => hasSearchWordIn_spec _ _ _
    (get_primary_fragOk store hits query allowed maxF frags h f hf).2.1

/-- Claim C3: every returned fragment with a non-empty rule number has text
that starts with exactly that clause number — `strStartsWith` gives the
"begins with `N`" half, and `leadTok` (the maximal `\d{1,2}(\.\d+)*\.` parse
at the head of the text) being the rule number itself rules out the text
beginning with a different clause's number; candidates that cannot be
trimmed to such a clean start are discarded by the trimming pipeline. -/
theorem c3_clause_self_containment (store : Str → Option Str) (hits : List Str)
    (query : Option Str) (allowed : List Str) (maxF : Nat) (frags : List Fragment)
    (h : get_primary_source_fragments store hits query allowed maxF = .ok frags) :
    ∀ f ∈ frags, f.rule_number ≠ [] →
      strStartsWith f.text f.rule_number = true ∧
        leadTok f.text = some f.rule_number :=
  fun f hf => (get_primary_fragOk store hits query allowed maxF frags h f hf).2.2

/-- Claim C4 as amended: when the routed candidate-document list contains no
duplicates (the routing can duplicate a document when several keywords map to
it, which the counterexample exhibits), no two returned fragments of the same
document share a non-empty rule number — each collector tracks a per-document
`processed` set keyed by clause number. -/
theorem c4_no_duplicates (store : Str → Option Str) (hits : List Str)
    (query : Option Str) (allowed : List Str) (maxF : Nat) (frags : List Fragment)
    (hnd : (collect_candidate_docs hits allowed (pyLower (query.getD []))).Nodup)
    (h : get_primary_source_fragments store hits query allowed maxF = .ok frags) :
    frags.Pairwise distinctRule := by
  rw [get_primary_source_fragments] at h
  by_cases hc : collect_candidate_docs hits allowed (pyLower (query.getD [])) = []
  · rw [if_pos hc] at h
    have hfe : ([] : List Fragment) = frags := by simpa using h
    rw [← hfe]
    exact List.Pairwise.nil
  · rw [if_neg hc] at h
    rw [collect_fragments] at h
    exact (collect_fragments_aux_master store _ _ maxF _ [] frags h).2.2 hnd
      (by simp) List.Pairwise.nil

/-- Claim C6 as amended: with a positive cap and no technical-requirements
document among the candidates (that collector appends preamble fragments
without consulting the cap, which the counterexample exhibits), the returned
list never exceeds `max_fragments`. -/
theorem c6_fragment_cap (store : Str → Option Str) (hits : List Str)
    (query : Option Str) (allowed : List Str) (maxF : Nat) (frags : List Fragment)
    (hm : 1 ≤ maxF)
    (ht : TECHNICAL_REQUIREMENTS ∉
      collect_candidate_docs hits allowed (pyLower (query.getD [])))
    (h : get_primary_source_fragments store hits query allowed maxF = .ok frags) :
    frags.length ≤ maxF := by
  rw [get_primary_source_fragments] at h
  by_cases hc : collect_candidate_docs hits allowed (pyLower (query.getD [])) = []
  · rw [if_pos hc] at h
    have hfe : ([] : List Fragment) = frags := by simpa using h
    rw [← hfe]
    simp
  · rw [if_neg hc] at h
    rw [collect_fragments] at h
    exact (collect_fragments_aux_master store _ _ maxF _ [] frags h).2.1 ht
      (by simpa using hm)

/-- Witness for C9 at a concrete input: the single returned fragment for
`oneClauseDoc` carries the international-rules source. -/
theorem c9_source_membership_witness :
    oneClauseWitnessFragment.source ∈ ALLOWED_SOURCES :=
  c9_source_membership oneClauseStore [] (some (lit "шар")) [INTERNATIONAL_RULES] 20
    [oneClauseWitnessFragment] (by decide) oneClauseWitnessFragment (by decide)

/-- Witness for C8 at a concrete input: the returned fragment's text contains
the query's search word. -/
theorem c8_relevance_filter_witness :
    (∃ wd ∈ searchWordsOf (pyLower ((some (lit "шар")).getD [])),
      containsSub (pyLower oneClauseWitnessFragment.text) wd = true) ∨
    ((phrasesOf (pyLower ((some (lit "шар")).getD []))).filter (· ≠ []) ≠ [] ∧
      ∀ p ∈ (phrasesOf (pyLower ((some (lit "шар")).getD []))).filter (· ≠ []),
        containsSub (pyLower oneClauseWitnessFragment.text) p = true) :=
  c8_relevance_filter oneClauseStore [] (some (lit "шар")) [INTERNATIONAL_RULES] 20
    [oneClauseWitnessFragment] (by decide) oneClauseWitnessFragment (by decide)

/-- Witness for C3 at a concrete input: the returned fragment's text begins
with its own clause number, which is also its leading clause-number token. -/
theorem c3_clause_self_containment_witness :
    strStartsWith oneClauseWitnessFragment.text oneClauseWitnessFragment.rule_number
        = true ∧
      leadTok oneClauseWitnessFragment.text = some oneClauseWitnessFragment.rule_number :=
  c3_clause_self_containment oneClauseStore [] (some (lit "шар"))
    [INTERNATIONAL_RULES] 20 [oneClauseWitnessFragment] (by decide)
    oneClauseWitnessFragment (by decide) (by decide)

/-- Witness for the amended C4 at a concrete input with duplicate-free
candidates. -/
theorem c4_no_duplicates_witness :
    List.Pairwise distinctRule [oneClauseWitnessFragment] :=
  c4_no_duplicates oneClauseStore [] (some (lit "шар")) [INTERNATIONAL_RULES] 20
    [oneClauseWitnessFragment] (by decide) (by decide)

/-- Witness for the amended C6 at a concrete input without the
technical-requirements document. -/
theorem c6_fragment_cap_witness :
    ([oneClauseWitnessFragment] : List Fragment).length ≤ 20 :=
  c6_fragment_cap oneClauseStore [] (some (lit "шар")) [INTERNATIONAL_RULES] 20
    [oneClauseWitnessFragment] (by decide) (by decide) (by decide)

theorem parseNumAt_klb (s : Str) (v : Str × Nat) (h : parseNumAt s = some v) :
    1 ≤ v.2 := by
  rw [parseNumAt] at h
  by_cases hz : (decide ((s.takeWhile pyIsDigit).length = 0) ||
      decide ((s.takeWhile pyIsDigit).length > 2)) = true
  · rw [if_pos hz] at h; simp at h
  · rw [if_neg (by simpa using hz)] at h
    cases htail : numTailLen (s.length + 1) (s.drop (s.takeWhile pyIsDigit).length) with
    | none => rw [htail] at h; simp at h
    | some kt =>
      rw [htail] at h
      dsimp only at h
      by_cases hws : ((s.drop ((s.takeWhile pyIsDigit).length + kt)).takeWhile
          pyIsSpace).length = 0
      · rw [if_pos hws] at h; simp at h
      · rw [if_neg hws] at h
        have hv : v.2 = (s.takeWhile pyIsDigit).length + kt +
            ((s.drop ((s.takeWhile pyIsDigit).length + kt)).takeWhile pyIsSpace).length := by
          have := congrArg (fun o => Option.map Prod.snd o) h
          simpa using this.symm
        omega

theorem scanPointsAux_lb (content : Str) :
    ∀ (fuel i : Nat), ∀ m ∈ scanPointsAux content fuel i, i ≤ m.pos := by
  intro fuel
  induction fuel with
  | zero => intro i m hm; simp [scanPointsAux] at hm
  | succ fuel ih =>
    intro i m hm
    rw [scanPointsAux] at hm
    by_cases hi : i < content.length
    · rw [if_pos hi] at hm
      dsimp only at hm
      by_cases hi0 : i = 0
      · subst hi0
        exact Nat.zero_le m.pos
      · rw [if_neg hi0] at hm
        by_cases hc : charAt content i = some '\n'
        · rw [if_pos hc] at hm
          cases hp : parseNumAt (content.drop (i + 1)) with
          | some v =>
            rw [hp] at hm
            dsimp only at hm
            rcases List.mem_cons.mp hm with h1 | h1
            · rw [h1]
              exact Nat.le_succ i
            · have := ih _ _ h1
              have hk := parseNumAt_klb _ _ hp
              omega
          | none =>
            rw [hp] at hm
            have := ih _ _ hm
            omega
        · rw [if_neg hc] at hm
          have := ih _ _ hm
          omega
    · rw [if_neg hi] at hm
      simp at hm

theorem scanPointsAux_sorted (content : Str) :
    ∀ (fuel i : Nat), (scanPointsAux content fuel i).Pairwise (fun a b => a.pos < b.pos) := by
  intro fuel
  induction fuel with
  | zero => intro i; simp [scanPointsAux]
  | succ fuel ih =>
    intro i
    rw [scanPointsAux]
    by_cases hi : i < content.length
    · rw [if_pos hi]
      dsimp only
      by_cases hi0 : i = 0
      · subst hi0
        cases hp : parseNumAt content with
        | some v =>
          dsimp only
          refine List.pairwise_cons.mpr ⟨?_, ih _⟩
          intro b hb
          have hlb := scanPointsAux_lb content fuel v.2 b hb
          have hk := parseNumAt_klb _ _ hp
          show 0 < b.pos
          omega
        | none =>
          dsimp only
          by_cases hc : charAt content 0 = some '\n'
          · rw [if_pos hc]
            cases hp2 : parseNumAt (content.drop 1) with
            | some v =>
              dsimp only
              refine List.pairwise_cons.mpr ⟨?_, ih _⟩
              intro b hb
              have hlb := scanPointsAux_lb content fuel (1 + v.2) b hb
              have hk := parseNumAt_klb _ _ hp2
              show 1 < b.pos
              omega
            | none => exact ih _
          · rw [if_neg hc]
            exact ih _
      · rw [if_neg hi0]
        by_cases hc : charAt content i = some '\n'
        · rw [if_pos hc]
          cases hp : parseNumAt (content.drop (i + 1)) with
          | some v =>
            dsimp only
            refine List.pairwise_cons.mpr ⟨?_, ih _⟩
            intro b hb
            have hlb := scanPointsAux_lb content fuel (i + 1 + v.2) b hb
            have hk := parseNumAt_klb _ _ hp
            show i + 1 < b.pos
            omega
          | none => exact ih _
        · rw [if_neg hc]
          exact ih _
    · rw [if_neg hi]
      exact List.Pairwise.nil

theorem scanPoints_sorted (content : Str) :
    (scanPoints content).Pairwise (fun a b => a.pos < b.pos) :=
  scanPointsAux_sorted content (content.length + 1) 0

theorem sorted_pos_inj (l : List Marker)
    (hs : l.Pairwise (fun a b => a.pos < b.pos)) :
    ∀ a ∈ l, ∀ b ∈ l, a.pos = b.pos → a = b := by
  induction l with
  | nil => intro a ha; simp at ha
  | cons x xs ih =>
    rcases List.pairwise_cons.mp hs with ⟨hx, hxs⟩
    intro a ha b hb heq
    rcases List.mem_cons.mp ha with ha1 | ha1 <;> rcases List.mem_cons.mp hb with hb1 | hb1
    · rw [ha1, hb1]
    · subst ha1
      exfalso
      have h2 := hx b hb1
      omega
    · subst hb1
      exfalso
      have h2 := hx a ha1
      omega
    · exact ih hxs a ha1 b hb1 heq

theorem sectionInfoAt_fst (content : Str) (p : Nat) :
    (sectionInfoAt content p).1 = pointSectionAt content p := by
  rw [sectionInfoAt, pointSectionAt]
  cases h : lastHeader (pySlice content 0 p) with
  | none => rfl
  | some v => rfl

theorem sectionInfoAt_start (content : Str) (p : Nat) :
    (sectionInfoAt content p).2.1 = specSectionStart content p := by
  rw [sectionInfoAt, specSectionStart]
  cases h : lastHeader (pySlice content 0 p) with
  | none => rfl
  | some v => rfl

theorem sectionInfoAt_end (content : Str) (p : Nat) :
    (sectionInfoAt content p).2.2 = specSectionEnd content p := by
  rw [sectionInfoAt, specSectionEnd]

theorem nonempty_snoc (q : Str) (hne : q ≠ []) :
    ∃ q0 d, q = q0 ++ [d] ∧ d ∈ q := by
  cases hqr : q.reverse with
  | nil => exact absurd (by simpa using congrArg List.reverse hqr) hne
  | cons d r =>
    have hq := congrArg List.reverse hqr
    rw [List.reverse_reverse] at hq
    exact ⟨r.reverse, d, by simpa using hq, by rw [hq]; simp⟩

theorem tailDotted_ends (ps : List Str) (hok : digitGroupsOk ps) (hne : ps ≠ []) :
    ∃ u d, tailDotted ps = u ++ [d, '.'] ∧ pyIsDigit d = true := by
  induction ps with
  | nil => exact absurd rfl hne
  | cons q rs ih =>
    have hq := hok q (by simp)
    cases rs with
    | nil =>
      obtain ⟨q0, d, hqe, hdm⟩ := nonempty_snoc q hq.1
      refine ⟨'.' :: q0, d, ?_, hq.2 d hdm⟩
      rw [tailDotted, hqe, tailDotted]
      simp
    | cons r rs2 =>
      obtain ⟨u, d, hu, hdig⟩ := ih (fun x hx => hok x (by simp [hx])) (by simp)
      refine ⟨'.' :: (q ++ u), d, ?_, hdig⟩
      rw [tailDotted, hu]
      simp

theorem numShape_ends_digit_dot (n : Str) (h : NumShape n) :
    ∃ u d, n = u ++ [d, '.'] ∧ pyIsDigit d = true := by
  obtain ⟨q, ps, hok, _, hd⟩ := numShape_parts n h
  have hq := hok q (by simp)
  cases ps with
  | nil =>
    obtain ⟨q0, d, hqe, hdm⟩ := nonempty_snoc q hq.1
    refine ⟨q0, d, ?_, hq.2 d hdm⟩
    rw [hd, tailDotted, hqe]
    simp
  | cons r rs =>
    obtain ⟨u, d, hu, hdig⟩ :=
      tailDotted_ends (r :: rs) (fun x hx => hok x (by simp [hx])) (by simp)
    refine ⟨q ++ u, d, ?_, hdig⟩
    rw [hd, hu]
    simp

theorem numShape_rstripDot (n : Str) (h : NumShape n) :
    pyRstripDot n ++ ['.'] = n := by
  obtain ⟨u, d, he, hdig⟩ := numShape_ends_digit_dot n h
  have hdd : d ≠ '.' := by
    intro hc
    rw [hc] at hdig
    exact absurd hdig (by decide)
  rw [he, pyRstripDot, pyRStrip]
  have hrev : (u ++ [d, '.']).reverse = '.' :: d :: u.reverse := by simp
  rw [hrev, List.dropWhile_cons, if_pos (by simp), List.dropWhile_cons,
    if_neg (by simp [hdd])]
  simp

theorem extendsNum_eq_startsWith (a b : Str) (hb : NumShape b) :
    extendsNum a b = strStartsWith a b := by
  rw [extendsNum, numShape_rstripDot b hb]

theorem strStartsWith_trans (a b c : Str) (h1 : strStartsWith a b = true)
    (h2 : strStartsWith b c = true) : strStartsWith a c = true := by
  obtain ⟨t1, ht1⟩ := (strStartsWith_iff _ _).mp h1
  obtain ⟨t2, ht2⟩ := (strStartsWith_iff _ _).mp h2
  refine (strStartsWith_iff _ _).mpr ⟨t2 ++ t1, ?_⟩
  rw [ht1, ht2]
  simp

theorem extendsNum_trans (a b c : Str) (hb : NumShape b) (hc : NumShape c)
    (h1 : extendsNum a b = true) (h2 : extendsNum b c = true) :
    extendsNum a c = true := by
  rw [extendsNum_eq_startsWith a b hb] at h1
  rw [extendsNum_eq_startsWith b c hc] at h2
  rw [extendsNum_eq_startsWith a c hc]
  exact strStartsWith_trans a b c h1 h2

theorem splitDot_ne_nil : ∀ s : Str, splitDot s ≠ [] := by
  intro s
  cases s with
  | nil => simp [splitDot]
  | cons c rest =>
    rw [splitDot]
    by_cases hc : c = '.'
    · rw [if_pos hc]; simp
    · rw [if_neg hc]
      cases h : splitDot rest <;> simp

theorem numLevel_pos (n : Str) : 1 ≤ numLevel n := by
  rw [numLevel]
  cases h : splitDot (pyRstripDot n) with
  | nil => exact absurd h (splitDot_ne_nil _)
  | cons a l => simp

theorem nearestPointScan_elig (content : Str) (points : List Marker)
    (relPos sectionStart : Nat) (relSection : Str) (b : Marker)
    (h : nearestPointScan content points relPos sectionStart relSection = some b) :
    b.pos ≤ relPos ∧ sectionStart ≤ b.pos ∧
      pointSectionAt content b.pos = relSection := by
  rw [nearestPointScan] at h
  suffices haux : ∀ (ps : List Marker) (acc : Option Marker),
      (∀ b0, acc = some b0 → b0.pos ≤ relPos ∧ sectionStart ≤ b0.pos ∧
        pointSectionAt content b0.pos = relSection) →
      ps.foldl (fun acc mk =>
        if mk.pos ≤ relPos ∧ sectionStart ≤ mk.pos ∧
            pointSectionAt content mk.pos = relSection then
          match acc with
          | none => some mk
          | some b => if mk.pos > b.pos then some mk else acc
        else acc) acc = some b →
      b.pos ≤ relPos ∧ sectionStart ≤ b.pos ∧
        pointSectionAt content b.pos = relSection by
    exact haux points none (by simp) h
  intro ps
  induction ps with
  | nil =>
    intro acc hacc h2
    exact hacc b h2
  | cons x ps ih =>
    intro acc hacc h2
    rw [List.foldl_cons] at h2
    refine ih _ ?_ h2
    intro b0 hb0
    by_cases hc : x.pos ≤ relPos ∧ sectionStart ≤ x.pos ∧
        pointSectionAt content x.pos = relSection
    · rw [if_pos hc] at hb0
      cases acc with
      | none =>
        have hx : x = b0 := by simpa using hb0
        rw [← hx]
        exact hc
      | some b1 =>
        dsimp only at hb0
        by_cases hgt : x.pos > b1.pos
        · rw [if_pos hgt] at hb0
          have hx : x = b0 := by simpa using hb0
          rw [← hx]
          exact hc
        · rw [if_neg hgt] at hb0
          exact hacc b0 hb0
    · rw [if_neg hc] at hb0
      exact hacc b0 hb0

theorem nearestPointScan_max (content : Str) (points : List Marker)
    (relPos sectionStart : Nat) (relSection : Str) (b : Marker)
    (h : nearestPointScan content points relPos sectionStart relSection = some b) :
    ∀ m ∈ points, m.pos ≤ relPos → sectionStart ≤ m.pos →
      pointSectionAt content m.pos = relSection → m.pos ≤ b.pos := by
  rw [nearestPointScan] at h
  suffices haux : ∀ (ps : List Marker) (acc : Option Marker),
      ps.foldl (fun acc mk =>
        if mk.pos ≤ relPos ∧ sectionStart ≤ mk.pos ∧
            pointSectionAt content mk.pos = relSection then
          match acc with
          | none => some mk
          | some b => if mk.pos > b.pos then some mk else acc
        else acc) acc = some b →
      (∀ b0, acc = some b0 → b0.pos ≤ b.pos) ∧
      (∀ m ∈ ps, m.pos ≤ relPos → sectionStart ≤ m.pos →
        pointSectionAt content m.pos = relSection → m.pos ≤ b.pos) by
    intro m hm h1 h2 h3
    exact (haux points none h).2 m hm h1 h2 h3
  intro ps
  induction ps with
  | nil =>
    intro acc h2
    refine ⟨?_, ?_⟩
    · intro b0 hb0
      rw [hb0] at h2
      have hx : b0 = b := by simpa using h2
      rw [hx]
    · intro m hm
      simp at hm
  | cons x ps ih =>
    intro acc h2
    rw [List.foldl_cons] at h2
    obtain ⟨hA, hB⟩ := ih _ h2
    refine ⟨?_, ?_⟩
    · intro b0 hb0
      subst hb0
      by_cases hc : x.pos ≤ relPos ∧ sectionStart ≤ x.pos ∧
          pointSectionAt content x.pos = relSection
      · by_cases hgt : x.pos > b0.pos
        · have hx := hA x (by
            rw [if_pos hc]
            show (if x.pos > b0.pos then some x else some b0) = some x
            rw [if_pos hgt])
          omega
        · exact hA b0 (by
            rw [if_pos hc]
            show (if x.pos > b0.pos then some x else some b0) = some b0
            rw [if_neg hgt])
      · exact hA b0 (by rw [if_neg hc])
    · intro m hm hm1 hm2 hm3
      rcases List.mem_cons.mp hm with hm | hm
      · subst hm
        cases acc with
        | none =>
          have hg : (if m.pos ≤ relPos ∧ sectionStart ≤ m.pos ∧
              pointSectionAt content m.pos = relSection then some m else none) = some m := by
            rw [if_pos ⟨hm1, hm2, hm3⟩]
          exact hA m hg
        | some b1 =>
          by_cases hgt : m.pos > b1.pos
          · have hg : (if m.pos ≤ relPos ∧ sectionStart ≤ m.pos ∧
                pointSectionAt content m.pos = relSection then
                (if m.pos > b1.pos then some m else some b1) else some b1) = some m := by
              rw [if_pos ⟨hm1, hm2, hm3⟩, if_pos hgt]
            exact hA m hg
          · have hg : (if m.pos ≤ relPos ∧ sectionStart ≤ m.pos ∧
                pointSectionAt content m.pos = relSection then
                (if m.pos > b1.pos then some m else some b1) else some b1) = some b1 := by
              rw [if_pos ⟨hm1, hm2, hm3⟩, if_neg hgt]
            have hx := hA b1 hg
            omega
      · exact hB m hm hm1 hm2 hm3

theorem coronaSubScan_elig (content : Str) (points : List Marker)
    (numberStart sectionEnd : Nat) (relSection number : Str)
    (pointLevel relPos : Nat) (m : Marker)
    (h : (coronaSubScan content points numberStart sectionEnd relSection number
      pointLevel relPos).1 = some m) :
    extendsNum (pyStrip m.num) number = true ∧
      pointLevel < numLevel (pyStrip m.num) := by
  rw [coronaSubScan] at h
  suffices haux : ∀ (ps : List Marker) (acc : Option Marker × Nat),
      (ps.foldl (fun (acc : Option Marker × Nat) mk =>
        if numberStart < mk.pos ∧ mk.pos < sectionEnd then
          let mNum := pyStrip mk.num
          let mLvl := numLevel mNum
          if pointSectionAt content mk.pos = relSection then
            if mLvl ≤ pointLevel then
              (acc.1, if acc.2 = sectionEnd ∨ mk.pos < acc.2 then mk.pos else acc.2)
            else
              if extendsNum mNum number ∧ mk.pos ≤ relPos then
                (match acc.1 with
                 | none => some mk
                 | some b => if mk.pos > b.pos then some mk else acc.1, acc.2)
              else acc
          else acc
        else acc) acc).1 = some m → acc.1 = some m ∨
      (extendsNum (pyStrip m.num) number = true ∧
        pointLevel < numLevel (pyStrip m.num)) by
    rcases haux points (none, sectionEnd) h with h1 | h1
    · simp at h1
    · exact h1
  intro ps
  induction ps with
  | nil => intro acc h2; exact Or.inl h2
  | cons x ps ih =>
    intro acc h2
    rw [List.foldl_cons] at h2
    rcases ih _ h2 with h1 | h1
    · by_cases hc : numberStart < x.pos ∧ x.pos < sectionEnd
      · rw [if_pos hc] at h1
        dsimp only at h1
        by_cases hsec : pointSectionAt content x.pos = relSection
        · rw [if_pos hsec] at h1
          by_cases hlvl : numLevel (pyStrip x.num) ≤ pointLevel
          · rw [if_pos hlvl] at h1
            exact Or.inl h1
          · rw [if_neg hlvl] at h1
            by_cases hext : extendsNum (pyStrip x.num) number ∧ x.pos ≤ relPos
            · rw [if_pos hext] at h1
              dsimp only at h1
              cases hacc : acc.1 with
              | none =>
                rw [hacc] at h1
                have hx : x = m := by simpa using h1
                exact Or.inr (by rw [← hx]; exact ⟨hext.1, by omega⟩)
              | some b =>
                rw [hacc] at h1
                dsimp only at h1
                by_cases hgt : x.pos > b.pos
                · rw [if_pos hgt] at h1
                  have hx : x = m := by simpa using h1
                  exact Or.inr (by rw [← hx]; exact ⟨hext.1, by omega⟩)
                · rw [if_neg hgt] at h1
                  exact Or.inl h1
            · rw [if_neg hext] at h1
              exact Or.inl h1
        · rw [if_neg hsec] at h1
          exact Or.inl h1
      · rw [if_neg hc] at h1
        exact Or.inl h1
    · exact Or.inr h1

theorem intlPrescan_elig (content : Str) (points : List Marker)
    (relPos sectionStart sectionEnd : Nat) (relSection : Str) (m : Marker)
    (h : intlPrescan content points relPos sectionStart sectionEnd relSection = some m) :
    1 < numLevel (pyStrip m.num) ∧ sectionStart ≤ m.pos ∧ m.pos < sectionEnd ∧
      pointSectionAt content m.pos = relSection ∧ m.pos ≤ relPos ∧
      relPos < prescanSubpointEnd content points sectionEnd relSection m.pos
        (numLevel (pyStrip m.num)) := by
  rw [intlPrescan] at h
  suffices haux : ∀ (ps : List Marker) (acc : Option Marker),
      ps.foldl (fun acc mk =>
        let mNum := pyStrip mk.num
        let mLvl := numLevel mNum
        if mLvl > 1 ∧ sectionStart ≤ mk.pos ∧ mk.pos < sectionEnd ∧
            pointSectionAt content mk.pos = relSection then
          let spEnd := prescanSubpointEnd content points sectionEnd relSection mk.pos mLvl
          if mk.pos ≤ relPos ∧ relPos < spEnd then
            match acc with
            | none => some mk
            | some b => if mk.pos > b.pos then some mk else acc
          else acc
        else acc) acc = some m → acc = some m ∨
      (1 < numLevel (pyStrip m.num) ∧ sectionStart ≤ m.pos ∧ m.pos < sectionEnd ∧
        pointSectionAt content m.pos = relSection ∧ m.pos ≤ relPos ∧
        relPos < prescanSubpointEnd content points sectionEnd relSection m.pos
          (numLevel (pyStrip m.num))) by
    rcases haux points none h with h1 | h1
    · simp at h1
    · exact h1
  intro ps
  induction ps with
  | nil => intro acc h2; exact Or.inl h2
  | cons x ps ih =>
    intro acc h2
    rw [List.foldl_cons] at h2
    rcases ih _ h2 with h1 | h1
    · by_cases hc : numLevel (pyStrip x.num) > 1 ∧ sectionStart ≤ x.pos ∧
          x.pos < sectionEnd ∧ pointSectionAt content x.pos = relSection
      · rw [if_pos hc] at h1
        dsimp only at h1
        by_cases hin : x.pos ≤ relPos ∧ relPos < prescanSubpointEnd content points
            sectionEnd relSection x.pos (numLevel (pyStrip x.num))
        · rw [if_pos hin] at h1
          cases acc with
          | none =>
            have hx : x = m := by simpa using h1
            exact Or.inr (by rw [← hx]; exact ⟨hc.1, hc.2.1, hc.2.2.1, hc.2.2.2, hin.1, hin.2⟩)
          | some b =>
            dsimp only at h1
            by_cases hgt : x.pos > b.pos
            · rw [if_pos hgt] at h1
              have hx : x = m := by simpa using h1
              exact Or.inr (by rw [← hx]; exact ⟨hc.1, hc.2.1, hc.2.2.1, hc.2.2.2, hin.1, hin.2⟩)
            · rw [if_neg hgt] at h1
              exact Or.inl h1
        · rw [if_neg hin] at h1
          exact Or.inl h1
      · rw [if_neg hc] at h1
        exact Or.inl h1
    · exact Or.inr h1

theorem intlNextPointEnd_le (content : Str) (ps : List Marker)
    (pointPos sectionEnd : Nat) (relSection : Str) (pointLevel : Nat) (T : Marker)
    (hsort : ps.Pairwise (fun a b => a.pos < b.pos))
    (hT : T ∈ ps) (h1 : pointPos < T.pos) (h2 : T.pos < sectionEnd)
    (h3 : pointSectionAt content T.pos = relSection)
    (h4 : numLevel (pyStrip T.num) ≤ pointLevel) :
    intlNextPointEnd content ps pointPos sectionEnd relSection pointLevel ≤ T.pos := by
  induction ps with
  | nil => simp at hT
  | cons m ps ih =>
    obtain ⟨hhead, htail⟩ := List.pairwise_cons.mp hsort
    rw [intlNextPointEnd]
    rcases List.mem_cons.mp hT with hTm | hTm
    · subst hTm
      rw [if_pos ⟨h1, h2⟩, if_pos ⟨h3, h4⟩]
    · by_cases ho : pointPos < m.pos ∧ m.pos < sectionEnd
      · rw [if_pos ho]
        by_cases hi : pointSectionAt content m.pos = relSection ∧
            numLevel (pyStrip m.num) ≤ pointLevel
        · rw [if_pos hi]
          exact le_of_lt (hhead T hTm)
        · rw [if_neg hi]
          exact ih htail hTm
      · rw [if_neg ho]
        exact ih htail hTm

theorem prescanSubpointEnd_le (content : Str) (points : List Marker)
    (sectionEnd : Nat) (relSection : Str) (pointPos pointLevel : Nat) (T : Marker)
    (hsort : points.Pairwise (fun a b => a.pos < b.pos))
    (hT : T ∈ points) (h1 : pointPos < T.pos) (h2 : T.pos < sectionEnd)
    (h3 : pointSectionAt content T.pos = relSection)
    (h4 : numLevel (pyStrip T.num) ≤ pointLevel) :
    prescanSubpointEnd content points sectionEnd relSection pointPos pointLevel ≤ T.pos := by
  have hN := intlNextPointEnd_le content points pointPos sectionEnd relSection pointLevel T
    hsort hT h1 h2 h3 h4
  have hsp : (match listEndScan content pointPos sectionEnd with
      | some v => if v > 0 ∧
          v < intlNextPointEnd content points pointPos sectionEnd relSection pointLevel then v
        else intlNextPointEnd content points pointPos sectionEnd relSection pointLevel
      | none => intlNextPointEnd content points pointPos sectionEnd relSection pointLevel) ≤
      intlNextPointEnd content points pointPos sectionEnd relSection pointLevel := by
    cases listEndScan content pointPos sectionEnd with
    | none => exact le_refl _
    | some v =>
      dsimp only
      by_cases hv : v > 0 ∧
          v < intlNextPointEnd content points pointPos sectionEnd relSection pointLevel
      · rw [if_pos hv]
        omega
      · rw [if_neg hv]
  have key : ∀ sp0 : Nat, sp0 < sectionEnd → sp0 ≤ T.pos →
      (if sp0 = sectionEnd then
        match intl13Scan content points pointPos relSection with
        | some p => p
        | none => sp0
      else sp0) ≤ T.pos := by
    intro sp0 hlt hle
    rw [if_neg (by omega)]
    exact hle
  exact key _ (by omega) (by omega)

theorem emitBlock_ruleBound (content doc : Str) (w ph : List Str) (maxF : Nat)
    (number : Str) (start endPos sectionStart : Nat) (st0 st : CState)
    (P : Str → Prop) (hfr0 : st0.fragments = st.fragments) (hP : P number) :
    RuleBound st P (emitBlock content doc w ph maxF number start endPos sectionStart st0) := by
  rw [emitBlock]
  by_cases hss : start < sectionStart
  · rw [if_pos hss]
    exact Or.inl hfr0
  · rw [if_neg hss]
    dsimp only
    cases hfh : firstHashHeader (pyStrip (pySlice content start endPos)) with
    | some q =>
      by_cases hq : q > 0
      · rw [if_pos (by simpa using hq)]
        exact Or.inl hfr0
      · rw [if_neg (by simpa using hq)]
        cases htrim : trimBlock number (pyStrip (pySlice content start endPos)) with
        | none => exact Or.inl hfr0
        | some bt =>
          split
          · exact Or.inl hfr0
          rename_i b2 heq
          injection heq with hbb
          subst hbb
          by_cases hrel : (!hasSearchWordIn w ph (pyLower bt)) = true
          · rw [if_pos hrel]
            exact Or.inl hfr0
          · rw [if_neg hrel]
            by_cases hcap : st0.fragments.length + 1 ≥ maxF
            · rw [if_pos (by simpa using hcap)]
              exact Or.inr ⟨_, by rw [hfr0], hP⟩
            · rw [if_neg (by simpa using hcap)]
              exact Or.inr ⟨_, by rw [hfr0], hP⟩
    | none =>
      rw [if_neg (by simp)]
      cases htrim : trimBlock number (pyStrip (pySlice content start endPos)) with
      | none => exact Or.inl hfr0
      | some bt =>
        split
        · exact Or.inl hfr0
        rename_i b2 heq
        injection heq with hbb
        subst hbb
        by_cases hrel : (!hasSearchWordIn w ph (pyLower bt)) = true
        · rw [if_pos hrel]
          exact Or.inl hfr0
        · rw [if_neg hrel]
          by_cases hcap : st0.fragments.length + 1 ≥ maxF
          · rw [if_pos (by simpa using hcap)]
            exact Or.inr ⟨_, by rw [hfr0], hP⟩
          · rw [if_neg (by simpa using hcap)]
            exact Or.inr ⟨_, by rw [hfr0], hP⟩

theorem intlEmit_ruleBound (content doc : Str) (points : List Marker)
    (w ph : List Str) (maxF : Nat) (number : Str) (numberStart : Nat)
    (relSection : Str) (sectionStart sectionEnd : Nat) (st0 st : CState)
    (P : Str → Prop) (hfr0 : st0.fragments = st.fragments) (hP : P number) :
    RuleBound st P (intlEmit content doc points w ph maxF number numberStart relSection
      sectionStart sectionEnd st0) := by
  rw [intlEmit]
  split
  · exact Or.inl hfr0
  rename_i start hcls
  dsimp only
  exact emitBlock_ruleBound content doc w ph maxF number start _ sectionStart st0 st P hfr0 hP

theorem stepCorona_descent (content doc : Str) (w ph : List Str) (maxF : Nat)
    (st : CState) (p : Nat) (C s : Marker)
    (hc0 : charAt content 0 = some '\n')
    (hier : hierNumberingAt content p)
    (hC : C ∈ scanPoints content) (hC1 : numLevel (pyStrip C.num) = 1)
    (hCp : C.pos ≤ p) (hCstart : specSectionStart content p ≤ C.pos)
    (hCsect : pointSectionAt content C.pos = pointSectionAt content p)
    (hCmax : ∀ m ∈ scanPoints content, numLevel (pyStrip m.num) = 1 → m.pos ≤ p →
      specSectionStart content p ≤ m.pos →
      pointSectionAt content m.pos = pointSectionAt content p → m.pos ≤ C.pos)
    (hs : s ∈ scanPoints content) (hsC : C.pos < s.pos) (hsp : s.pos ≤ p)
    (hssect : pointSectionAt content s.pos = pointSectionAt content p) :
    RuleBound st (fun n => n ≠ pyStrip C.num ∧ extendsNum n (pyStrip C.num) = true)
      (stepCorona content doc (scanPoints content) w ph maxF st p) := by
  have hwf := scanPoints_wf content hc0
  have hsort := scanPoints_sorted content
  have hshapeC : NumShape C.num := (hwf C hC).2.2.2
  rw [stepCorona]
  split
  rename_i relSection sectionStart sectionEnd hsi
  have hrels : relSection = pointSectionAt content p := by
    have h1 := sectionInfoAt_fst content p
    rw [hsi] at h1
    exact h1
  have hstart : sectionStart = specSectionStart content p := by
    have h1 := sectionInfoAt_start content p
    rw [hsi] at h1
    exact h1
  split
  · exact Or.inl rfl
  rename_i nearest hns
  dsimp only
  split
  · exact Or.inl rfl
  rename_i hcont1
  have hnmem := nearestPointScan_mem content (scanPoints content) p sectionStart
    relSection nearest hns
  obtain ⟨hge1, hnl1, hex1, hshape1⟩ := hwf nearest hnmem
  have hstrip1 : pyStrip nearest.num = nearest.num := numShape_pyStrip _ hshape1
  obtain ⟨hnp, hnstart, hnsect⟩ := nearestPointScan_elig content (scanPoints content) p
    sectionStart relSection nearest hns
  have hmax := nearestPointScan_max content (scanPoints content) p sectionStart
    relSection nearest hns
  have hsel : s.pos ≤ nearest.pos := by
    apply hmax s hs hsp
    · rw [hstart]
      omega
    · rw [hrels]
      exact hssect
  have hCn : C.pos < nearest.pos := lt_of_lt_of_le hsC hsel
  have hlt1 : 1 < numLevel (pyStrip nearest.num) := by
    rcases Nat.eq_or_lt_of_le (numLevel_pos (pyStrip nearest.num)) with heq | hlt
    · exfalso
      have hle := hCmax nearest hnmem heq.symm hnp (by rw [← hstart]; exact hnstart)
        (by rw [← hrels]; exact hnsect)
      omega
    · exact hlt
  have hext : extendsNum (pyStrip nearest.num) (pyStrip C.num) = true := by
    apply hier nearest hnmem hlt1 hnp (by rw [← hstart]; exact hnstart)
      (by rw [← hrels]; exact hnsect) C hC hC1 hCn hCstart hCsect
    intro C2 hm2 hl2 hlt2 hst2 ht2
    exact hCmax C2 hm2 hl2 (by omega) hst2 ht2
  have hPn : pyStrip nearest.num ≠ pyStrip C.num ∧
      extendsNum (pyStrip nearest.num) (pyStrip C.num) = true := by
    refine ⟨?_, hext⟩
    intro he
    rw [he, hC1] at hlt1
    omega
  cases hfs : (coronaSubScan content (scanPoints content) nearest.pos sectionEnd relSection
      (pyStrip nearest.num) (numLevel (pyStrip nearest.num)) p).1 with
  | none =>
    dsimp only
    split
    · exact Or.inl rfl
    rename_i hcont2
    split
    · exact Or.inl rfl
    rename_i start hcls
    exact emitBlock_ruleBound content doc w ph maxF (pyStrip nearest.num) start _
      sectionStart _ st _ rfl hPn
  | some fs =>
    dsimp only
    split
    · exact Or.inl rfl
    rename_i hcont2
    split
    · exact Or.inl rfl
    rename_i hcls
    obtain ⟨hfx, hflvl⟩ := coronaSubScan_elig content (scanPoints content) nearest.pos
      sectionEnd relSection (pyStrip nearest.num) (numLevel (pyStrip nearest.num)) p fs hfs
    have hfext : extendsNum (pyStrip fs.num) (pyStrip C.num) = true := by
      refine extendsNum_trans (pyStrip fs.num) (pyStrip nearest.num) (pyStrip C.num)
        ?_ ?_ hfx hext
      · rw [hstrip1]
        exact hshape1
      · rw [numShape_pyStrip C.num hshapeC]
        exact hshapeC
    have hPf : pyStrip fs.num ≠ pyStrip C.num ∧
        extendsNum (pyStrip fs.num) (pyStrip C.num) = true := by
      refine ⟨?_, hfext⟩
      intro he
      rw [he, hC1] at hflvl
      omega
    split
    · exact Or.inl rfl
    rename_i start2 hcls2
    exact emitBlock_ruleBound content doc w ph maxF (pyStrip fs.num) start2 _
      sectionStart _ st _ rfl hPf

theorem stepIntl_descent (content doc : Str) (w ph : List Str) (maxF : Nat)
    (st : CState) (p : Nat) (C s : Marker)
    (hc0 : charAt content 0 = some '\n')
    (hier : hierNumberingAt content p)
    (hC : C ∈ scanPoints content) (hC1 : numLevel (pyStrip C.num) = 1)
    (hCp : C.pos ≤ p) (hCstart : specSectionStart content p ≤ C.pos)
    (hCsect : pointSectionAt content C.pos = pointSectionAt content p)
    (hCmax : ∀ m ∈ scanPoints content, numLevel (pyStrip m.num) = 1 → m.pos ≤ p →
      specSectionStart content p ≤ m.pos →
      pointSectionAt content m.pos = pointSectionAt content p → m.pos ≤ C.pos)
    (hs : s ∈ scanPoints content) (hsC : C.pos < s.pos) (hsp : s.pos ≤ p)
    (hssect : pointSectionAt content s.pos = pointSectionAt content p)
    (hpEnd : p < specSectionEnd content p) :
    RuleBound st (fun n => n ≠ pyStrip C.num ∧ extendsNum n (pyStrip C.num) = true)
      (stepIntl content doc (scanPoints content) w ph maxF st p) := by
  have hwf := scanPoints_wf content hc0
  have hsort := scanPoints_sorted content
  have hshapeC : NumShape C.num := (hwf C hC).2.2.2
  rw [stepIntl]
  split
  rename_i relSection sectionStart sectionEnd hsi
  have hrels : relSection = pointSectionAt content p := by
    have h1 := sectionInfoAt_fst content p
    rw [hsi] at h1
    exact h1
  have hstart : sectionStart = specSectionStart content p := by
    have h1 := sectionInfoAt_start content p
    rw [hsi] at h1
    exact h1
  have hend : sectionEnd = specSectionEnd content p := by
    have h1 := sectionInfoAt_end content p
    rw [hsi] at h1
    exact h1
  split
  · rename_i fsr hps
    dsimp only
    split
    · exact Or.inl rfl
    rename_i hcont1
    split
    · exact Or.inl rfl
    rename_i hcont2
    have hfmem := intlPrescan_mem content (scanPoints content) p sectionStart sectionEnd
      relSection fsr hps
    obtain ⟨hflvl, hfstart, hfend, hfsect, hfp, hfspan⟩ :=
      intlPrescan_elig content (scanPoints content) p sectionStart sectionEnd
        relSection fsr hps
    have hCf : C.pos < fsr.pos := by
      rcases Nat.lt_trichotomy C.pos fsr.pos with h | h | h
      · exact h
      · exfalso
        have hceq : C = fsr := sorted_pos_inj (scanPoints content) hsort C hC fsr hfmem h
        rw [← hceq] at hflvl
        omega
      · exfalso
        have hCe : C.pos < sectionEnd := by
          rw [hend]
          omega
        have hCt : pointSectionAt content C.pos = relSection := by
          rw [hrels]
          exact hCsect
        have hCl : numLevel (pyStrip C.num) ≤ numLevel (pyStrip fsr.num) := by omega
        have hle := prescanSubpointEnd_le content (scanPoints content) sectionEnd relSection
          fsr.pos (numLevel (pyStrip fsr.num)) C hsort hC h hCe hCt hCl
        omega
    have hext : extendsNum (pyStrip fsr.num) (pyStrip C.num) = true := by
      apply hier fsr hfmem hflvl hfp (by rw [← hstart]; exact hfstart)
        (by rw [← hrels]; exact hfsect) C hC hC1 hCf hCstart hCsect
      intro C2 hm2 hl2 hlt2 hst2 ht2
      exact hCmax C2 hm2 hl2 (by omega) hst2 ht2
    have hPf : pyStrip fsr.num ≠ pyStrip C.num ∧
        extendsNum (pyStrip fsr.num) (pyStrip C.num) = true := by
      refine ⟨?_, hext⟩
      intro he
      rw [he, hC1] at hflvl
      omega
    exact intlEmit_ruleBound content doc (scanPoints content) w ph maxF (pyStrip fsr.num)
      fsr.pos relSection sectionStart sectionEnd _ st _ rfl hPf
  · rename_i hpsn
    split
    · exact Or.inl rfl
    rename_i nearest hns
    dsimp only
    split
    · exact Or.inl rfl
    rename_i hcont1
    split
    · exact Or.inl rfl
    rename_i hnotsub
    have hnmem := nearestPointScan_mem content (scanPoints content) p sectionStart
      relSection nearest hns
    obtain ⟨hge1, hnl1, hex1, hshape1⟩ := hwf nearest hnmem
    obtain ⟨hnp, hnstart, hnsect⟩ := nearestPointScan_elig content (scanPoints content) p
      sectionStart relSection nearest hns
    have hmax := nearestPointScan_max content (scanPoints content) p sectionStart
      relSection nearest hns
    have hsel : s.pos ≤ nearest.pos := by
      apply hmax s hs hsp
      · rw [hstart]
        omega
      · rw [hrels]
        exact hssect
    have hCn : C.pos < nearest.pos := lt_of_lt_of_le hsC hsel
    have hlt1 : 1 < numLevel (pyStrip nearest.num) := by
      rcases Nat.eq_or_lt_of_le (numLevel_pos (pyStrip nearest.num)) with heq | hlt
      · exfalso
        have hle := hCmax nearest hnmem heq.symm hnp (by rw [← hstart]; exact hnstart)
          (by rw [← hrels]; exact hnsect)
        omega
      · exact hlt
    have hext : extendsNum (pyStrip nearest.num) (pyStrip C.num) = true := by
      apply hier nearest hnmem hlt1 hnp (by rw [← hstart]; exact hnstart)
        (by rw [← hrels]; exact hnsect) C hC hC1 hCn hCstart hCsect
      intro C2 hm2 hl2 hlt2 hst2 ht2
      exact hCmax C2 hm2 hl2 (by omega) hst2 ht2
    have hPn : pyStrip nearest.num ≠ pyStrip C.num ∧
        extendsNum (pyStrip nearest.num) (pyStrip C.num) = true := by
      refine ⟨?_, hext⟩
      intro he
      rw [he, hC1] at hlt1
      omega
    exact intlEmit_ruleBound content doc (scanPoints content) w ph maxF (pyStrip nearest.num)
      nearest.pos relSection sectionStart sectionEnd st st _ rfl hPn

/-- Claim C1 (amended): sub-point precedence as descent.  When the section of
a match offset `p` is hierarchically numbered (`hierNumberingAt`), the nearest
enclosing top-level clause `C` of `p` (latest level-1 marker of `p`'s section
at or before `p`; `hCmax` states that maximality) has a sub-point marker `s`
(a deeper marker of the same section whose number extends `C`'s) whose span
contains `p`, then any fragment that the corona or the international
per-position step emits at `p` carries a rule number that is a proper dotted
extension of `C`'s number: the collectors descend to a sub-point and never
return the parent clause `C` itself for `p`. -/
theorem c1_subpoint_descent (content doc : Str) (w ph : List Str) (maxF : Nat)
    (st st' : CState) (p : Nat) (C s : Marker) (f : Fragment)
    (hc0 : charAt content 0 = some '\n')
    (hier : hierNumberingAt content p)
    (hC : C ∈ scanPoints content) (hC1 : numLevel (pyStrip C.num) = 1)
    (hCp : C.pos ≤ p) (hCstart : specSectionStart content p ≤ C.pos)
    (hCsect : pointSectionAt content C.pos = pointSectionAt content p)
    (hCmax : ∀ m ∈ scanPoints content, numLevel (pyStrip m.num) = 1 → m.pos ≤ p →
      specSectionStart content p ≤ m.pos →
      pointSectionAt content m.pos = pointSectionAt content p → m.pos ≤ C.pos)
    (hs : s ∈ scanPoints content) (hsC : C.pos < s.pos) (hsp : s.pos ≤ p)
    (hssect : pointSectionAt content s.pos = pointSectionAt content p)
    (hsx : extendsNum (pyStrip s.num) (pyStrip C.num) = true)
    (hspan : p < specSpanEnd content s)
    (hpEnd : p < specSectionEnd content p)
    (hstep : stepCorona content doc (scanPoints content) w ph maxF st p = .cont st' ∨
      stepCorona content doc (scanPoints content) w ph maxF st p = .halt st' ∨
      stepIntl content doc (scanPoints content) w ph maxF st p = .cont st' ∨
      stepIntl content doc (scanPoints content) w ph maxF st p = .halt st')
    (hfr : st'.fragments = st.fragments ++ [f]) :
    f.rule_number ≠ pyStrip C.num ∧ extendsNum f.rule_number (pyStrip C.num) = true := by
  have hcor := stepCorona_descent content doc w ph maxF st p C s hc0 hier hC hC1 hCp hCstart
    hCsect hCmax hs hsC hsp hssect
  have hint := stepIntl_descent content doc w ph maxF st p C s hc0 hier hC hC1 hCp hCstart
    hCsect hCmax hs hsC hsp hssect hpEnd
  have extract : ∀ out : StepOut CState,
      RuleBound st (fun n => n ≠ pyStrip C.num ∧ extendsNum n (pyStrip C.num) = true) out →
      out = .cont st' ∨ out = .halt st' →
      f.rule_number ≠ pyStrip C.num ∧ extendsNum f.rule_number (pyStrip C.num) = true := by
    intro out hrb hout
    have hdisj : st'.fragments = st.fragments ∨
        ∃ g, st'.fragments = st.fragments ++ [g] ∧
          (g.rule_number ≠ pyStrip C.num ∧ extendsNum g.rule_number (pyStrip C.num) = true) := by
      rcases hout with rfl | rfl
      · exact hrb
      · exact hrb
    rcases hdisj with hsame | ⟨g, hg, hPg⟩
    · exfalso
      have hlen := congrArg List.length (hsame.symm.trans hfr)
      simp at hlen
    · have h3 : [g] = [f] := List.append_inj_right (hg.symm.trans hfr) rfl
      have hgf : g = f := by simpa using h3
      rw [← hgf]
      exact hPg
  rcases hstep with h | h | h | h
  · exact extract _ hcor (Or.inl h)
  · exact extract _ hcor (Or.inr h)
  · exact extract _ hint (Or.inl h)
  · exact extract _ hint (Or.inr h)

/-- Witness for the amended claim C1 at a concrete hierarchically numbered
document: the corona step at the match offset 34 (inside sub-point 5.1. of
clause 5.) emits the 5.1. fragment, whose rule number properly extends
clause 5.'s number. -/
theorem c1_subpoint_descent_witness :
    hierNumberingAt descentDoc 34 ∧
      stepCorona descentDoc CORONA_RULES (scanPoints descentDoc) [lit "шар"] [] 20
        ⟨[], []⟩ 34 = .cont ⟨[descentFragment], [lit "5.1."]⟩ ∧
      descentFragment.rule_number ≠ pyStrip (lit "5.") ∧
      extendsNum descentFragment.rule_number (pyStrip (lit "5.")) = true :=
  ⟨by decide, by decide,
    c1_subpoint_descent descentDoc CORONA_RULES [lit "шар"] [] 20 ⟨[], []⟩
      ⟨[descentFragment], [lit "5.1."]⟩ 34 ⟨5, lit "5."⟩ ⟨20, lit "5.1."⟩ descentFragment
      (by decide) (by decide) (by decide) (by decide) (by decide) (by decide) (by decide)
      (by decide) (by decide) (by decide) (by decide) (by decide) (by decide) (by decide)
      (by decide) (Or.inl (by decide)) (by decide)⟩
